import Mathlib

/-!
# Schema-to-model inference of `bee generate appcode`

A shallow embedding of `generate/g_appcode.go` and `utils/utils.go`:
the catalog rows that the SQL queries return are the input, the three
package-level relation collections are explicit state, and the order in
which `range trmap` visits the map is a parameter.  The rule splicer of
`generate/g_fixrule.go` is embedded as a function of the content of the
controller file.

Go strings are modelled by `String`.  Positions returned by the search
functions count characters; every slice taken by the source is cut at such
a position (plus the length of an ASCII pattern), so it selects the same
substring as the byte-indexed slice of the source.  `len` is the byte
length.  A fatal log call or a run-time panic is the result `none`.
-/

namespace Bee

/-! ## The `strings` functions the source calls -/

/-- Position of the first occurrence of `pat` in `s` (`none`: absent). -/
def indexL (pat : List Char) : List Char → Option Nat
  | [] => if pat.isPrefixOf [] then some 0 else none
  | c :: cs =>
    if pat.isPrefixOf (c :: cs) then some 0
    else match indexL pat cs with
      | some r => some (r + 1)
      | none => none

/-- Position of the last occurrence of `pat` in `s` (`none`: absent). -/
def lastIndexL (pat : List Char) : List Char → Option Nat
  | [] => if pat.isPrefixOf [] then some 0 else none
  | c :: cs =>
    match lastIndexL pat cs with
    | some r => some (r + 1)
    | none => if pat.isPrefixOf (c :: cs) then some 0 else none

/-- Go `strings.Index`: -1 when `substr` is absent. -/
def Strings.Index (s substr : String) : Int :=
  match indexL substr.data s.data with
  | some r => (r : Int)
  | none => -1

/-- Go `strings.LastIndex`: -1 when `substr` is absent. -/
def Strings.LastIndex (s substr : String) : Int :=
  match lastIndexL substr.data s.data with
  | some r => (r : Int)
  | none => -1

/-- Go `strings.Contains`, which is `Index(s, substr) >= 0`. -/
def Strings.Contains (s substr : String) : Bool :=
  decide (0 ≤ Strings.Index s substr)

/-- Go `strings.HasSuffix`. -/
def Strings.HasSuffix (s suffix : String) : Bool :=
  suffix.data.isSuffixOf s.data

/-- Go `len(s)`: the number of bytes. -/
def len (s : String) : Nat := s.utf8ByteSize

/-- Go slice expression `s[lo:hi]` (the source only cuts inside the string). -/
def slice (s : String) (lo hi : Int) : String :=
  String.mk ((s.data.take hi.toNat).drop lo.toNat)

/-- Go slice expression `s[lo:len(s)]`. -/
def sliceFrom (s : String) (lo : Int) : String :=
  String.mk (s.data.drop lo.toNat)

/-- Go `strings.Split(s, sep)` for a one-character separator. -/
def splitOnChar (sep : Char) : List Char → List (List Char)
  | [] => [[]]
  | c :: cs =>
    if c = sep then [] :: splitOnChar sep cs
    else match splitOnChar sep cs with
      | [] => [[c]]
      | t :: ts => (c :: t) :: ts

/-- Go `strings.Trim(s, " ")`. -/
def trimSpaces (cs : List Char) : List Char :=
  ((cs.dropWhile (fun c => c == ' ')).reverse.dropWhile (fun c => c == ' ')).reverse

/-- Go `unicode.IsSpace` above U+007F. -/
def unicodeIsSpaceHigh (r : Char) : Bool :=
  let n := r.toNat
  n == 0x85 || n == 0xA0 || n == 0x1680 || (0x2000 ≤ n && n ≤ 0x200A) ||
  n == 0x2028 || n == 0x2029 || n == 0x202F || n == 0x205F || n == 0x3000

/-- The `isSeparator` helper of Go `strings.Title`. -/
def isSeparator (r : Char) : Bool :=
  if r.toNat ≤ 0x7F then
    !(r.isDigit || r.isLower || r.isUpper || r == '_')
  else
    unicodeIsSpaceHigh r

/-- Go `unicode.ToTitle` on the ASCII range; the Unicode case tables are
outside the repository and a rune above U+007F is left as it is. -/
def toTitle (r : Char) : Char := r.toUpper

/-- The rune map of Go `strings.Title`, `prev` being the rune before. -/
def titleFrom : Char → List Char → List Char
  | _, [] => []
  | prev, r :: rs => (if isSeparator prev then toTitle r else r) :: titleFrom r rs

/-- Go `strings.Title`. -/
def title (cs : List Char) : List Char := titleFrom ' ' cs

/-- `utils.CamelCase`: convert a `_` delimited string to camel case. -/
def CamelCase (s : String) : String :=
  String.mk (((splitOnChar '_' s.data).map (fun t => title (trimSpaces t))).flatten)

/-! ## Data model -/

/-- A foreign key column of a table. -/
structure ForeignKey where
  Name : String := ""
  RefSchema : String := ""
  RefTable : String := ""
  RefColumn : String := ""
  deriving DecidableEq

/-- The ORM attribute tag of a column (`Typ` is the field `Type` of the source). -/
structure OrmTag where
  Auto : Bool := false
  Pk : Bool := false
  Null : Bool := false
  Index : Bool := false
  Unique : Bool := false
  Column : String := ""
  Size : String := ""
  Decimals : String := ""
  Digits : String := ""
  AutoNow : Bool := false
  AutoNowAdd : Bool := false
  Typ : String := ""
  Default : String := ""
  RelOne : Bool := false
  ReverseOne : Bool := false
  RelFk : Bool := false
  ReverseMany : Bool := false
  RelM2M : Bool := false
  Comment : String := ""
  M2M : Bool := false
  M2MThroungh : String := ""
  deriving DecidableEq

/-- A column of a table (`Typ` is the field `Type` of the source). -/
structure Column where
  Name : String := ""
  Typ : String := ""
  Tag : OrmTag := {}
  IsNeed : Bool := false
  deriving DecidableEq

/-- The relation between two tables. -/
structure TableRelation where
  MarkName : String := ""
  SourceName : String := ""
  RelationName : String := ""
  RelOne : Bool := false
  ReverseOne : Bool := false
  RelO2M : Bool := false
  ReverseMany : Bool := false
  RelM2M : Bool := false
  IsCorrect : Bool := false
  M2MThroungh : String := ""
  deriving DecidableEq

/-- A database table; `Fk` is a Go map, kept as an association list. -/
structure Table where
  Name : String := ""
  Pk : String := ""
  Uk : List String := []
  Fk : List (String × ForeignKey) := []
  Columns : List Column := []
  Comments : String := ""
  ImportTimePkg : Bool := false
  Relation : List String := []
  deriving DecidableEq

/-- Assignment `m[k] = v` on a Go map kept as an association list. -/
def mapSet {β : Type} (k : String) (v : β) : List (String × β) → List (String × β)
  | [] => [(k, v)]
  | (k', v') :: rest => if k' = k then (k, v) :: rest else (k', v') :: mapSet k v rest

/-- Lookup `m[k]` on a Go map kept as an association list. -/
def mapGet {β : Type} (k : String) : List (String × β) → Option β
  | [] => none
  | (k', v') :: rest => if k' = k then some v' else mapGet k rest

/-! ## Type mapping and column-type helpers -/

/-- The table `typeMappingMysql`: SQL data type to Go data type. -/
def typeMappingMysql : List (String × String) :=
  [("int", "int"), ("integer", "int"), ("tinyint", "int8"), ("smallint", "int16"),
   ("mediumint", "int32"), ("bigint", "int64"), ("int unsigned", "uint"),
   ("integer unsigned", "uint"), ("tinyint unsigned", "uint8"),
   ("smallint unsigned", "uint16"), ("mediumint unsigned", "uint32"),
   ("bigint unsigned", "uint64"), ("bit", "uint64"), ("bool", "bool"),
   ("enum", "string"), ("set", "string"), ("varchar", "string"), ("char", "string"),
   ("tinytext", "string"), ("mediumtext", "string"), ("text", "string"),
   ("longtext", "string"), ("blob", "string"), ("tinyblob", "string"),
   ("mediumblob", "string"), ("longblob", "string"), ("date", "time.Time"),
   ("datetime", "time.Time"), ("timestamp", "time.Time"), ("time", "time.Time"),
   ("float", "float32"), ("double", "float64"), ("decimal", "float64"),
   ("binary", "string"), ("varbinary", "string"), ("year", "int16")]

/-- `GetGoDataType`: `none` is the error "data type not found". -/
def GetGoDataType (sqlType : String) : Option String :=
  mapGet sqlType typeMappingMysql

def isSQLTemporalType (t : String) : Bool :=
  t == "date" || t == "datetime" || t == "timestamp" || t == "time"

def isSQLStringType (t : String) : Bool :=
  t == "char" || t == "varchar"

def isSQLSignedIntType (t : String) : Bool :=
  t == "int" || t == "tinyint" || t == "smallint" || t == "mediumint" || t == "bigint"

def isSQLDecimal (t : String) : Bool :=
  t == "decimal"

def isSQLBinaryType (t : String) : Bool :=
  t == "binary" || t == "varbinary"

def isSQLBitType (t : String) : Bool :=
  t == "bit"

/-- The rest of `s` after the leading `p`, when `s` starts with `p`. -/
def dropHead : List Char → List Char → Option (List Char)
  | [], s => some s
  | _ :: _, [] => none
  | p :: ps, c :: cs => if p = c then dropHead ps cs else none

/-- The pattern `[0-9]+` at the head: the digits and the rest. -/
def digitsHead (cs : List Char) : Option (List Char × List Char) :=
  match cs.takeWhile Char.isDigit with
  | [] => none
  | d :: ds => some (d :: ds, cs.dropWhile Char.isDigit)

/-- `extractColSize`: the group of `^[a-z]+\(([0-9]+)\)$`; `none` is the
index panic of `size[1]` when the expression does not match. -/
def extractColSize (colType : String) : Option String :=
  match colType.data.takeWhile Char.isLower, colType.data.dropWhile Char.isLower with
  | _ :: _, '(' :: rest =>
    match digitsHead rest with
    | some (ds, [')']) => some (String.mk ds)
    | _ => none
  | _, _ => none

/-- The pattern `(int|smallint|mediumint|bigint)\([0-9]+\)` at the head:
what follows the match. -/
def intHead (cs : List Char) : Option (List Char) :=
  ["int", "smallint", "mediumint", "bigint"].findSome? fun alt =>
    match dropHead alt.data cs with
    | some ('(' :: rest) =>
      match digitsHead rest with
      | some (_, ')' :: after) => some after
      | _ => none
    | _ => none

/-- Leftmost match of `(int|smallint|mediumint|bigint)\([0-9]+\)(.*)`: its
second group, which runs to the end of the line. -/
def intSignFrom : List Char → Option (List Char)
  | [] => none
  | c :: cs =>
    match intHead (c :: cs) with
    | some after => some (after.takeWhile (fun x => x != '\n'))
    | none => intSignFrom cs

/-- `extractIntSignness`; `none` is the index panic of `signRegex[2]`. -/
def extractIntSignness (colType : String) : Option String :=
  (intSignFrom colType.data).map (fun g => String.mk (trimSpaces g))

/-- The pattern `decimal\(([0-9]+),([0-9]+)\)` at the head: its two groups. -/
def decimalHead (cs : List Char) : Option (List Char × List Char) :=
  match dropHead "decimal(".data cs with
  | some rest =>
    match digitsHead rest with
    | some (ds, ',' :: rest2) =>
      match digitsHead rest2 with
      | some (es, ')' :: _) => some (ds, es)
      | _ => none
    | _ => none
  | none => none

/-- Leftmost match of `decimal\(([0-9]+),([0-9]+)\)`. -/
def decimalFrom : List Char → Option (List Char × List Char)
  | [] => none
  | c :: cs =>
    match decimalHead (c :: cs) with
    | some g => some g
    | none => decimalFrom cs

/-- `extractDecimal`; `none` is the index panic of `decimal[1]`. -/
def extractDecimal (colType : String) : Option (String × String) :=
  (decimalFrom colType.data).map (fun g => (String.mk g.1, String.mk g.2))

/-! ## The catalog -/

/-- A row of the constraint query of `GetConstraints`. -/
structure ConstraintRow where
  constraintType : String := ""
  columnName : String := ""
  refTableSchema : String := ""
  refTableName : String := ""
  refColumnName : String := ""
  refOrdinalPos : String := ""
  deriving DecidableEq

/-- A row of the column query of `GetColumns`. -/
structure ColumnRow where
  colName : String := ""
  dataType : String := ""
  columnType : String := ""
  isNullable : String := ""
  columnDefault : String := ""
  extra : String := ""
  columnComment : String := ""
  deriving DecidableEq

/-- What the database connection answers: `SHOW TABLES` and, per table name,
the rows of the comment, constraint and column queries. -/
structure Catalog where
  tableNames : List String
  commentRows : String → List String
  constraintRows : String → List ConstraintRow
  columnRows : String → List ColumnRow

/-- `GetTbComments`: the comment of the last row, empty without a row. -/
def GetTbComments (db : Catalog) (table : Table) : String :=
  (db.commentRows table.Name).foldl (fun _ c => c) ""

/-- The body of the row loop of `GetConstraints`. -/
def GetConstraints.row (st : Table × List String) (r : ConstraintRow) : Table × List String :=
  let table := st.1
  let blackList := st.2
  if r.constraintType = "PRIMARY KEY" then
    if r.refOrdinalPos = "1" then
      ({ table with Pk := r.columnName }, blackList)
    else
      ({ table with Pk := "" }, table.Name :: blackList)
  else if r.constraintType = "UNIQUE" then
    ({ table with Uk := table.Uk ++ [r.columnName] }, blackList)
  else if r.constraintType = "FOREIGN KEY" then
    let fk : ForeignKey :=
      { Name := r.columnName, RefSchema := r.refTableSchema,
        RefTable := r.refTableName, RefColumn := r.refColumnName }
    ({ table with Fk := mapSet r.columnName fk table.Fk }, blackList)
  else
    (table, blackList)

/-- `GetConstraints`: fills primary, unique and foreign keys of the table and
adds the table to the black list (a Go map used as a set of names). -/
def GetConstraints (db : Catalog) (table : Table) (blackList : List String) :
    Table × List String :=
  (db.constraintRows table.Name).foldl GetConstraints.row (table, blackList)

/-! ## Column scan -/

/-- The head of `GetColumns`: a table whose name holds `_has_` is a join
table and adds one many-to-many relation to `trlist`. -/
def GetColumns.joinTable (table : Table) (trlist : List TableRelation) : List TableRelation :=
  if Strings.Contains table.Name "_has_" && decide (len table.Name > 5) then
    trlist ++ [{ M2MThroungh := table.Name, MarkName := "m2m",
                 SourceName := slice table.Name 0 (Strings.LastIndex table.Name "_has_"),
                 RelationName := sliceFrom table.Name (Strings.LastIndex table.Name "_has_" + 5),
                 RelM2M := true, ReverseMany := true }]
  else trlist

/-- The signed-integer step of `GetColumns`: an unsigned column that is not
auto-incremented takes the unsigned Go type. -/
def GetColumns.signedType (r : ColumnRow) (col : Column) : Option Column :=
  if isSQLSignedIntType r.dataType then
    match extractIntSignness r.columnType with
    | none => none
    | some sign =>
      if sign = "unsigned" ∧ r.extra ≠ "auto_increment" then
        match GetGoDataType (r.dataType ++ " " ++ sign) with
        | none => none
        | some ty => some { col with Typ := ty }
      else some col
  else some col

/-- A step `if cond { tag.Size = extractColSize(columnType) }` of `GetColumns`. -/
def GetColumns.sized (cond : Bool) (r : ColumnRow) (tag : OrmTag) : Option OrmTag :=
  if cond then
    match extractColSize r.columnType with
    | none => none
    | some size => some { tag with Size := size }
  else some tag

/-- The temporal step of `GetColumns`: type and `auto_now`, `auto_now_add`. -/
def GetColumns.temporal (r : ColumnRow) (tag : OrmTag) : OrmTag :=
  if isSQLTemporalType r.dataType then
    let tag := { tag with Typ := r.dataType }
    if r.columnDefault = "CURRENT_TIMESTAMP" ∧ r.extra = "on update CURRENT_TIMESTAMP" then
      { tag with AutoNow := true }
    else if r.columnDefault = "CURRENT_TIMESTAMP" then
      { tag with AutoNowAdd := true }
    else tag
  else tag

/-- The decimal step of `GetColumns`. -/
def GetColumns.decimal (r : ColumnRow) (tag : OrmTag) : Option OrmTag :=
  if isSQLDecimal r.dataType then
    match extractDecimal r.columnType with
    | none => none
    | some dd => some { tag with Digits := dd.1, Decimals := dd.2 }
  else some tag

/-- The branch of `GetColumns` for a column that is neither the primary key
nor a usable foreign key: the column, its tag and whether the table now
needs the time package. -/
def GetColumns.plain (r : ColumnRow) (col : Column) (tag : OrmTag) :
    Option (Column × OrmTag × Bool) :=
  let col := if r.colName = "id" then { col with Name := "Id_RENAME" } else col
  let tag := if r.isNullable = "YES" then { tag with Null := true } else tag
  match GetColumns.signedType r col with
  | none => none
  | some col =>
    match GetColumns.sized (isSQLStringType r.dataType) r tag with
    | none => none
    | some tag =>
      match GetColumns.decimal r (GetColumns.temporal r tag) with
      | none => none
      | some tag =>
        match GetColumns.sized (isSQLBinaryType r.dataType) r tag with
        | none => none
        | some tag =>
          match GetColumns.sized (isSQLBitType r.dataType) r tag with
          | none => none
          | some tag => some (col, tag, isSQLTemporalType r.dataType)

/-- The key part of the row loop of `GetColumns`, for a table with primary
key `pk` and foreign keys `fk`: primary key, then usable foreign key, then
plain column. -/
def GetColumns.keys (pk : String) (fk : List (String × ForeignKey))
    (blackList : List String) (r : ColumnRow) (col : Column) (tag : OrmTag) :
    Option (Column × OrmTag × Bool) :=
  if pk = r.colName then
    some ({ col with Name := "Id", Typ := "int" },
          { tag with Pk := true, Auto := decide (r.extra = "auto_increment") }, false)
  else
    match mapGet r.colName fk with
    | some fkCol =>
      if fkCol.RefTable ∈ blackList then GetColumns.plain r col tag
      else
        some ({ col with Name := CamelCase r.colName, Typ := "*" ++ CamelCase fkCol.RefTable },
              { tag with RelFk := true }, false)
    | none => GetColumns.plain r col tag

/-- The naming-convention part of the row loop of `GetColumns`, for the
table named `tableName`: the relation, whether it is recorded (`trFlag`)
and the column. -/
def GetColumns.convention (tableName colName : String) (tr : TableRelation)
    (col : Column) : TableRelation × Bool × Column :=
  if !Strings.Contains tableName "_has_" then
    if Strings.HasSuffix colName "_one" then
      ({ tr with MarkName := "one2one",
                 RelationName := slice colName 0 (Strings.LastIndex colName "_one"),
                 RelOne := true, ReverseOne := true },
       true, { col with IsNeed := false })
    else if Strings.HasSuffix colName "_id" then
      ({ tr with MarkName := "one2many",
                 RelationName := slice colName 0 (Strings.LastIndex colName "_id"),
                 RelO2M := true, ReverseMany := true },
       true, { col with IsNeed := true })
    else (tr, false, col)
  else
    if Strings.HasSuffix colName "_id" then
      ({ tr with MarkName := "one2many",
                 RelationName := slice colName 0 (Strings.LastIndex colName "_id"),
                 RelO2M := true, ReverseMany := false },
       true, { col with IsNeed := false })
    else (tr, false, col)

/-- The initial relation `tr` of the row loop of `GetColumns`. -/
def GetColumns.initialRelation (tableName : String) : TableRelation :=
  { MarkName := "default", SourceName := tableName, RelationName := "inexistence",
    RelOne := false, ReverseOne := false, RelO2M := false, ReverseMany := false,
    RelM2M := false, IsCorrect := false }

/-- The body of the row loop of `GetColumns`, on the table and `trlist`. -/
def GetColumns.row (blackList : List String) (st : Table × List TableRelation)
    (r : ColumnRow) : Option (Table × List TableRelation) :=
  let table := st.1
  let trlist := st.2
  let tr := GetColumns.initialRelation table.Name
  match GetGoDataType r.dataType with
  | none => none
  | some ty =>
    let col : Column := { Name := CamelCase r.colName, Typ := ty, IsNeed := true }
    let tag : OrmTag :=
      { Column := r.colName, Comment := r.columnComment, Default := r.columnDefault }
    match GetColumns.keys table.Pk table.Fk blackList r col tag with
    | none => none
    | some (col, tag, importTime) =>
      let table := if importTime then { table with ImportTimePkg := true } else table
      let conv := GetColumns.convention table.Name r.colName tr col
      let table :=
        if conv.2.2.IsNeed then
          { table with Columns := table.Columns ++ [{ conv.2.2 with Tag := tag }] }
        else table
      let trlist := if conv.2.1 then trlist ++ [conv.1] else trlist
      some (table, trlist)

/-- The row loop of `GetColumns`. -/
def GetColumns.rows (blackList : List String) :
    List ColumnRow → Table × List TableRelation → Option (Table × List TableRelation)
  | [], st => some st
  | r :: rs, st =>
    match GetColumns.row blackList st r with
    | none => none
    | some st => GetColumns.rows blackList rs st

/-- `GetColumns`: retrieves the columns of the table and records the
relations its names imply in `trlist`. -/
def GetColumns (db : Catalog) (table : Table) (blackList : List String)
    (trlist : List TableRelation) : Option (Table × List TableRelation) :=
  GetColumns.rows blackList (db.columnRows table.Name)
    (table, GetColumns.joinTable table trlist)

/-- The column `rcol` that `GetRelationColumns` builds for `tr`,
`getDirection` 1 being the forward and -1 the reverse direction. -/
def GetRelationColumns.rcol (tr : TableRelation) (getDirection : Int) : Column :=
  let tag : OrmTag :=
    { Auto := false, AutoNow := false, AutoNowAdd := false, Pk := false,
      Null := true, Unique := false }
  let rcol : Column := { IsNeed := true }
  let rt : Column × OrmTag :=
    if getDirection = 1 then
      let rcol := { rcol with Name := CamelCase tr.RelationName }
      if tr.RelOne then
        ({ rcol with Typ := "*" ++ CamelCase tr.RelationName },
         { tag with
           Comment := "与[" ++ tr.RelationName ++ "] 一对一 关系，该表为扩展表，该表" ++
             tr.RelationName ++ "_id为关联字段。",
           RelOne := true })
      else if tr.RelO2M then
        ({ rcol with Typ := "*" ++ CamelCase tr.RelationName },
         { tag with
           RelFk := true,
           Comment :=
             if Strings.Contains tr.SourceName "_has_" then
               tr.RelationName ++ "_id为中间表关联字段。"
             else
               "与[" ++ tr.RelationName ++ "] 一对多 关系，该表为从表，该表" ++
                 tr.RelationName ++ "_id为关联字段。" })
      else if tr.ReverseMany then
        ({ rcol with Name := rcol.Name ++ "s", Typ := "[]*" ++ CamelCase tr.RelationName },
         { tag with
           Comment := "与[" ++ tr.RelationName ++ "] 多对多 关系，中间表是：" ++ tr.M2MThroungh,
           ReverseMany := true, M2M := true })
      else (rcol, tag)
    else if getDirection = -1 then
      let rcol := { rcol with Name := CamelCase tr.SourceName }
      if tr.ReverseOne then
        ({ rcol with Typ := "*" ++ CamelCase tr.SourceName },
         { tag with
           Comment := "与[" ++ tr.SourceName ++ "] 一对一 关系，该表为主表，该表id为关联字段。",
           ReverseOne := true })
      else if tr.RelM2M then
        ({ rcol with Name := rcol.Name ++ "s", Typ := "[]*" ++ CamelCase tr.SourceName },
         { tag with
           Comment := "与[" ++ tr.SourceName ++ "] 多对多 关系，中间表是：" ++ tr.M2MThroungh,
           M2MThroungh := tr.M2MThroungh, RelM2M := true, M2M := true })
      else if tr.ReverseMany then
        ({ rcol with Name := rcol.Name ++ "s", Typ := "[]*" ++ CamelCase tr.SourceName },
         { tag with
           Comment := "与[" ++ tr.SourceName ++ "] 一对多 关系，该表为主表，该表id为关联字段。",
           ReverseMany := true })
      else (rcol, tag)
    else (rcol, tag)
  { rt.1 with Tag := rt.2 }

/-- `GetRelationColumns`: appends the relation column for `tr` to the
columns of the table and its name to `Relation`. -/
def GetRelationColumns (table : Table) (tr : TableRelation) (getDirection : Int) : Table :=
  let rcol := GetRelationColumns.rcol tr getDirection
  { table with
    Relation := table.Relation ++ [rcol.Name],
    Columns := table.Columns ++ [rcol] }

/-! ## Relation inference -/

/-- The three package-level collections `trlist`, `trmap`, `correcttrlist`. -/
structure Globals where
  trlist : List TableRelation := []
  trmap : List (String × TableRelation) := []
  correcttrlist : List TableRelation := []

/-- The order in which `for _, tr := range trmap` visits the entries of the
map: Go leaves it unspecified, so it is any rearrangement of the entries,
chosen anew for each table (`visit i` is the order used for table `i`). -/
structure RangeOrder where
  visit : Nat → List (String × TableRelation) → List (String × TableRelation)
  perm : ∀ i m, (visit i m).Perm m

/-- The range order that visits the entries in insertion order. -/
def RangeOrder.insertion : RangeOrder :=
  { visit := fun _ m => m, perm := fun _ m => List.Perm.refl m }

/-- First loop of `getTableObjects`: one table per name, with its comment
and constraints; collects the black list. -/
def constraintsLoop (db : Catalog) : List String → List String → List Table × List String
  | [], blackList => ([], blackList)
  | tableName :: rest, blackList =>
    let tb : Table := { Name := tableName, Fk := [] }
    let tb := { tb with Comments := GetTbComments db tb }
    let r := GetConstraints db tb blackList
    let rs := constraintsLoop db rest r.2
    (r.1 :: rs.1, rs.2)

/-- Second loop of `getTableObjects`: the columns of every table. -/
def columnsLoop (db : Catalog) (blackList : List String) :
    List Table → List TableRelation → Option (List Table × List TableRelation)
  | [], trlist => some ([], trlist)
  | tb :: rest, trlist =>
    match GetColumns db tb blackList trlist with
    | none => none
    | some (tb, trlist) =>
      match columnsLoop db blackList rest trlist with
      | none => none
      | some (tbs, trlist) => some (tb :: tbs, trlist)

/-- The body of the de-duplication loop of `getTableObjects`. -/
def dedupStep (trmap : List (String × TableRelation)) (tr : TableRelation) :
    List (String × TableRelation) :=
  match mapGet (tr.SourceName ++ tr.RelationName) trmap with
  | some old =>
    if old.MarkName = "one2many" then mapSet (tr.SourceName ++ tr.RelationName) tr trmap
    else trmap
  | none => mapSet (tr.SourceName ++ tr.RelationName) tr trmap

/-- The de-duplication loop of `getTableObjects`: `trlist` into `trmap`. -/
def dedupLoop (trmap : List (String × TableRelation)) (trlist : List TableRelation) :
    List (String × TableRelation) :=
  trlist.foldl dedupStep trmap

/-- The inner loop of the reverse pass for one table, over the entries of
`trmap` in the order they are visited. -/
def reverseTable : List (String × TableRelation) → Table → List TableRelation →
    Table × List TableRelation
  | [], tb, correcttrlist => (tb, correcttrlist)
  | (_, tr) :: rest, tb, correcttrlist =>
    if tb.Name = tr.RelationName then
      let tb :=
        if !Strings.Contains tr.SourceName "_has_" then GetRelationColumns tb tr (-1)
        else tb
      reverseTable rest tb (correcttrlist ++ [{ tr with IsCorrect := true }])
    else reverseTable rest tb correcttrlist

/-- The reverse pass of `getTableObjects`; `i` is the index of the first
table of the list. -/
def reverseLoop (o : RangeOrder) (trmap : List (String × TableRelation)) :
    Nat → List Table → List TableRelation → List Table × List TableRelation
  | _, [], correcttrlist => ([], correcttrlist)
  | i, tb :: rest, correcttrlist =>
    let r := reverseTable (o.visit i trmap) tb correcttrlist
    let rs := reverseLoop o trmap (i + 1) rest r.2
    (r.1 :: rs.1, rs.2)

/-- The loop that takes the physical `_id` column of a relation out of the
struct. -/
def suppressId (relationName : String) (cols : List Column) : List Column :=
  cols.map fun c =>
    if c.Tag.Column = relationName ++ "_id" then { c with IsNeed := false } else c

/-- The inner loop of the forward pass for one table. -/
def forwardTable : List TableRelation → Table → Table
  | [], tb => tb
  | tr :: rest, tb =>
    if tb.Name = tr.SourceName ∧ tr.IsCorrect = true then
      let tb := GetRelationColumns tb tr 1
      forwardTable rest { tb with Columns := suppressId tr.RelationName tb.Columns }
    else forwardTable rest tb

/-- The forward pass of `getTableObjects`. -/
def forwardLoop (correcttrlist : List TableRelation) (tables : List Table) : List Table :=
  tables.map (forwardTable correcttrlist)

/-- The first two loops of `getTableObjects`: the scanned tables and the
relations found so far (`trlist`). -/
def scanTables (g : Globals) (db : Catalog) : Option (List Table × List TableRelation) :=
  let c := constraintsLoop db db.tableNames []
  columnsLoop db c.2 c.1 g.trlist

/-- `getTableObjects`: reverse engineers the tables into Go objects.  The
result is `none` when a column scan ends the process; otherwise the tables
and the content of the three collections. -/
def getTableObjects (o : RangeOrder) (g : Globals) (db : Catalog) :
    Option (List Table × Globals) :=
  match scanTables g db with
  | none => none
  | some (tables, trlist) =>
    let trmap := dedupLoop g.trmap trlist
    let r := reverseLoop o trmap 0 tables g.correcttrlist
    some (forwardLoop r.2 r.1,
          { trlist := trlist, trmap := trmap, correcttrlist := r.2 })

/-- The state of the collections when the process starts. -/
def Globals.initial : Globals := {}

/-! ## Controller and router emission -/

/-- The scan of Go `strings.Replace(s, old, new, -1)` for a non-empty `old`:
`skip` counts the characters of a match still to be passed over. -/
def replaceFrom (old new : List Char) : Nat → List Char → List Char
  | _, [] => []
  | skip + 1, _ :: cs => replaceFrom old new skip cs
  | 0, c :: cs =>
    if old.isPrefixOf (c :: cs) then new ++ replaceFrom old new (old.length - 1) cs
    else c :: replaceFrom old new 0 cs

/-- Go `strings.Replace(s, old, new, -1)` for a non-empty `old`. -/
def Strings.ReplaceAll (s old new : String) : String :=
  String.mk (replaceFrom old.data new.data 0 s.data)

/-- The template `NamespaceTPL`. -/
def NamespaceTPL : String :=
  "\n\t\tbeego.NSNamespace(\"/\x7b\x7bnameSpace\x7d\x7d\",\n\t\t\tbeego.NSInclude(\n\t\t\t\t&controllers.\x7b\x7bctrlName\x7d\x7dController\x7b\x7d,\n\t\t\t),\n\t\t),\n"

/-- The loop of `getFileName`; every round takes one `_` out of the name, so
the length of the name bounds the number of rounds. -/
def getFileName.loop : Nat → String → String
  | 0, filename => filename
  | fuel + 1, filename =>
    if Strings.HasSuffix filename "_test" then
      let pos := Strings.LastIndex filename "_"
      getFileName.loop fuel (slice filename 0 pos ++ sliceFrom filename (pos + 1))
    else filename

/-- `getFileName`: the file name of a table, which must not end in `_test`. -/
def getFileName (tbName : String) : String :=
  getFileName.loop tbName.length tbName

/-- The loop of `writeControllerFiles` that builds `colNamesString`; `i` is
the index of the first column of the list. -/
def colNamesLoop : Nat → List Column → String → String
  | _, [], acc => acc
  | i, v :: rest, acc =>
    if !(!v.IsNeed || v.Tag.ReverseOne) then
      let acc := if i ≠ 0 then acc ++ "," else acc
      colNamesLoop (i + 1) rest (acc ++ "\"" ++ v.Name ++ "\"")
    else colNamesLoop (i + 1) rest acc

/-- The text `colNamesString` of `writeControllerFiles`. -/
def colNamesString (tb : Table) : String :=
  colNamesLoop 0 tb.Columns "[]string\x7b" ++ "\x7d"

/-- A controller file written by `writeControllerFiles`: its name and the
texts put in place of `ctrlName` and `colNamesString` in `CtrlTPL`. -/
structure ControllerFile where
  fileName : String
  ctrlName : String
  colNames : String
  deriving DecidableEq

/-- `writeControllerFiles`: the controller files written for the tables,
apart from `BaseController.go`; a table without primary key and a join table
are skipped. -/
def writeControllerFiles : List Table → List ControllerFile
  | [] => []
  | tb :: rest =>
    if tb.Pk = "" || Strings.Contains tb.Name "_has_" then writeControllerFiles rest
    else
      { fileName := getFileName tb.Name ++ ".go", ctrlName := CamelCase tb.Name,
        colNames := colNamesString tb } :: writeControllerFiles rest

/-- `writeRouterFile`: the list `nameSpaces` whose concatenation is put into
`RouterTPL`; a table without primary key and a join table are skipped. -/
def writeRouterFile : List Table → List String
  | [] => []
  | tb :: rest =>
    if tb.Pk = "" || Strings.Contains tb.Name "_has_" then writeRouterFile rest
    else
      Strings.ReplaceAll (Strings.ReplaceAll NamespaceTPL "\x7b\x7bnameSpace\x7d\x7d" tb.Name)
        "\x7b\x7bctrlName\x7d\x7d" (CamelCase tb.Name) :: writeRouterFile rest

/-! ## Vocabulary of the statements -/

/-- The relation recorded for a column `rel_one` of the table `src`. -/
def oneToOneOf (src rel : String) : TableRelation :=
  { MarkName := "one2one", SourceName := src, RelationName := rel,
    RelOne := true, ReverseOne := true }

/-- The relation recorded for a column `rel_id` of the table `src`, which is
not a join table. -/
def oneToManyOf (src rel : String) : TableRelation :=
  { MarkName := "one2many", SourceName := src, RelationName := rel,
    RelO2M := true, ReverseMany := true }

/-- The relation recorded for a column `rel_id` of the join table `src`. -/
def joinColumnOf (src rel : String) : TableRelation :=
  { MarkName := "one2many", SourceName := src, RelationName := rel, RelO2M := true }

/-- The relation recorded for the join table named `name`. -/
def manyToManyOf (name : String) : TableRelation :=
  { MarkName := "m2m", M2MThroungh := name,
    SourceName := slice name 0 (Strings.LastIndex name "_has_"),
    RelationName := sliceFrom name (Strings.LastIndex name "_has_" + 5),
    RelM2M := true, ReverseMany := true }

/-- The relation, if any, that the row loop of `GetColumns` records for the
column `colName` of the table `tableName`. -/
def rowRelation (tableName colName : String) : Option TableRelation :=
  let conv := GetColumns.convention tableName colName
    (GetColumns.initialRelation tableName) {}
  if conv.2.1 then some conv.1 else none

/-- The relations a run of `GetColumns` can record. -/
def Discovered (tr : TableRelation) : Prop :=
  (∃ j, tr = manyToManyOf j) ∨
  (∃ src rel, Strings.Contains src "_has_" = false ∧
    (tr = oneToOneOf src rel ∨ tr = oneToManyOf src rel)) ∨
  (∃ src rel, Strings.Contains src "_has_" = true ∧ tr = joinColumnOf src rel)

/-- The column `c` is what the row loop of `GetColumns` appends for the row
`r` of a table with the given name, primary key and foreign keys. -/
def Scanned (name pk : String) (fk : List (String × ForeignKey)) (blackList : List String)
    (r : ColumnRow) (c : Column) : Prop :=
  ∃ ty col tag imp,
    GetGoDataType r.dataType = some ty ∧
    GetColumns.keys pk fk blackList r
      { Name := CamelCase r.colName, Typ := ty, IsNeed := true }
      { Column := r.colName, Comment := r.columnComment, Default := r.columnDefault }
      = some (col, tag, imp) ∧
    (GetColumns.convention name r.colName (GetColumns.initialRelation name) col).2.2.IsNeed
      = true ∧
    c = { (GetColumns.convention name r.colName (GetColumns.initialRelation name) col).2.2
          with Tag := tag }

/-- The relations the head of `GetColumns` records for the table `name`. -/
def joinRelations (name : String) : List TableRelation :=
  GetColumns.joinTable { Name := name } []

/-- The relations `GetColumns` records for the table `name`. -/
def tableRelations (db : Catalog) (name : String) : List TableRelation :=
  joinRelations name ++ (db.columnRows name).filterMap (fun r => rowRelation name r.colName)

/-- The table `tb'` is the table `tb` after a successful `GetColumns`. -/
def ScannedTable (db : Catalog) (blackList : List String) (tb tb' : Table) : Prop :=
  tb'.Name = tb.Name ∧ tb'.Pk = tb.Pk ∧ tb'.Fk = tb.Fk ∧
  ∃ cols, tb'.Columns = tb.Columns ++ cols ∧
    (∀ c ∈ cols, ∃ r ∈ db.columnRows tb.Name, Scanned tb.Name tb.Pk tb.Fk blackList r c) ∧
    (∀ r ∈ db.columnRows tb.Name, ∀ c, Scanned tb.Name tb.Pk tb.Fk blackList r c → c ∈ cols)

/-- The table object the first loop of `getTableObjects` creates for a name,
before its constraints are read. -/
def newTable (db : Catalog) (tableName : String) : Table :=
  { Name := tableName, Fk := [], Comments := GetTbComments db { Name := tableName, Fk := [] } }

/-- Whether the forward pass over `correcttrlist` takes the column `c` of
the table `name` out of the struct. -/
def suppressedBy (correcttrlist : List TableRelation) (name : String) (c : Column) : Bool :=
  correcttrlist.any fun tr =>
    decide (name = tr.SourceName ∧ tr.IsCorrect = true ∧
      c.Tag.Column = tr.RelationName ++ "_id")

/-- The column `c` of the table `name` as the forward pass leaves it. -/
def afterForward (correcttrlist : List TableRelation) (name : String) (c : Column) : Column :=
  if suppressedBy correcttrlist name c then { c with IsNeed := false } else c

/-- The row `r` passes the type mapping and the key part of the row loop of
`GetColumns` without ending the process. -/
def RowOk (pk : String) (fk : List (String × ForeignKey)) (blackList : List String)
    (r : ColumnRow) : Prop :=
  ∃ ty col tag imp,
    GetGoDataType r.dataType = some ty ∧
    GetColumns.keys pk fk blackList r
      { Name := CamelCase r.colName, Typ := ty, IsNeed := true }
      { Column := r.colName, Comment := r.columnComment, Default := r.columnDefault }
      = some (col, tag, imp)

/-- The first relation of `trlist` with the map key `k` whose `MarkName` is
not `one2many`: the de-duplication loop keeps it under `k`. -/
def firstSticky (k : String) (trlist : List TableRelation) : Option TableRelation :=
  trlist.find? fun tr =>
    decide (tr.SourceName ++ tr.RelationName = k ∧ tr.MarkName ≠ "one2many")

/-! ## Example catalogs -/

/-- A catalog given by its table names and the constraint and column rows
of each table; no table has a comment. -/
def catalogOf (names : List String) (constraints : List (String × List ConstraintRow))
    (columns : List (String × List ColumnRow)) : Catalog :=
  { tableNames := names
    commentRows := fun _ => []
    constraintRows := fun n => (mapGet n constraints).getD []
    columnRows := fun n => (mapGet n columns).getD [] }

/-- The constraint row of a single-column primary key. -/
def primaryKeyRow (column : String) : ConstraintRow :=
  { constraintType := "PRIMARY KEY", columnName := column, refOrdinalPos := "1" }

/-- The column row of an `int(11)` column that is not nullable. -/
def intColumnRow (column : String) : ColumnRow :=
  { colName := column, dataType := "int", columnType := "int(11)", isNullable := "NO" }

/-- The tables of a result of `getTableObjects` (none when the run ended the
process). -/
def tablesOf (r : Option (List Table × Globals)) : List Table :=
  match r with
  | some (tables, _) => tables
  | none => []

/-- The collections of a result of `getTableObjects`. -/
def globalsOf (r : Option (List Table × Globals)) : Globals :=
  match r with
  | some (_, g) => g
  | none => {}

/-- A run of `getTableObjects` in a fresh process, the map being visited in
insertion order. -/
def freshRun (db : Catalog) : Option (List Table × Globals) :=
  getTableObjects RangeOrder.insertion Globals.initial db

/-- The schema `user(id)`, `order(id, user_id)`. -/
def shopCatalog : Catalog :=
  catalogOf ["user", "order"]
    [("user", [primaryKeyRow "id"]), ("order", [primaryKeyRow "id"])]
    [("user", [intColumnRow "id"]), ("order", [intColumnRow "id", intColumnRow "user_id"])]

/-- The schema `order(id, user_id)`, `order_has_user(order_id, user_id)`,
`user(id)`: a one-to-many column and a join table for the same pair. -/
def shopJoinCatalog : Catalog :=
  catalogOf ["order", "order_has_user", "user"]
    [("user", [primaryKeyRow "id"]), ("order", [primaryKeyRow "id"])]
    [("user", [intColumnRow "id"]), ("order", [intColumnRow "id", intColumnRow "user_id"]),
     ("order_has_user", [intColumnRow "order_id", intColumnRow "user_id"])]

/-- The schema `user(id, name)`, `profile(id, user_one, bio)`. -/
def profileCatalog : Catalog :=
  catalogOf ["user", "profile"]
    [("user", [primaryKeyRow "id"]), ("profile", [primaryKeyRow "id"])]
    [("user", [intColumnRow "id",
        { colName := "name", dataType := "varchar", columnType := "varchar(64)" }]),
     ("profile", [intColumnRow "id", intColumnRow "user_one",
        { colName := "bio", dataType := "text", columnType := "text" }])]

/-- The schema of `profileCatalog` with a join table `profile_has_user`
listed before the table `profile`. -/
def profileJoinFirstCatalog : Catalog :=
  catalogOf ["profile_has_user", "profile", "user"]
    [("user", [primaryKeyRow "id"]), ("profile", [primaryKeyRow "id"])]
    [("user", [intColumnRow "id"]),
     ("profile", [intColumnRow "id", intColumnRow "user_one"]),
     ("profile_has_user", [intColumnRow "profile_id", intColumnRow "user_id"])]

/-- The schema `course(id)`, `student(id)`,
`student_has_course(student_id, course_id)`. -/
def schoolCatalog : Catalog :=
  catalogOf ["course", "student", "student_has_course"]
    [("course", [primaryKeyRow "id"]), ("student", [primaryKeyRow "id"])]
    [("course", [intColumnRow "id"]), ("student", [intColumnRow "id"]),
     ("student_has_course", [intColumnRow "student_id", intColumnRow "course_id"])]

/-- The schema of `schoolCatalog` in which `student` also has a column
`course_one`. -/
def schoolOneCatalog : Catalog :=
  catalogOf ["course", "student", "student_has_course"]
    [("course", [primaryKeyRow "id"]), ("student", [primaryKeyRow "id"])]
    [("course", [intColumnRow "id"]),
     ("student", [intColumnRow "id", intColumnRow "course_one"]),
     ("student_has_course", [intColumnRow "student_id", intColumnRow "course_id"])]

/-- The schema `account_has_owner(account_id, owner_id)`,
`account(id, owner_one, owner_id)`, `owner(id)`, the join table listed first. -/
def accountJoinFirstCatalog : Catalog :=
  catalogOf ["account_has_owner", "account", "owner"]
    [("owner", [primaryKeyRow "id"]), ("account", [primaryKeyRow "id"])]
    [("owner", [intColumnRow "id"]),
     ("account", [intColumnRow "id", intColumnRow "owner_one", intColumnRow "owner_id"]),
     ("account_has_owner", [intColumnRow "account_id", intColumnRow "owner_id"])]

/-- The schema `account(id, owner_id, owner_one)`, `owner(id)`. -/
def accountCatalog : Catalog :=
  catalogOf ["account", "owner"]
    [("owner", [primaryKeyRow "id"]), ("account", [primaryKeyRow "id"])]
    [("owner", [intColumnRow "id"]),
     ("account", [intColumnRow "id", intColumnRow "owner_id", intColumnRow "owner_one"])]

/-- The schema `invoice(id, customer_id)` without a table `customer`. -/
def invoiceCatalog : Catalog :=
  catalogOf ["invoice"]
    [("invoice", [primaryKeyRow "id"])]
    [("invoice", [intColumnRow "id", intColumnRow "customer_id"])]

/-- The schema `user(id)`, `user_profile(user_id, bio)` whose primary key is
the column `user_id`. -/
def userProfileCatalog : Catalog :=
  catalogOf ["user", "user_profile"]
    [("user", [primaryKeyRow "id"]), ("user_profile", [primaryKeyRow "user_id"])]
    [("user", [intColumnRow "id"]),
     ("user_profile", [intColumnRow "user_id",
        { colName := "bio", dataType := "text", columnType := "text" }])]

/-- The schema `badge(holder_one, label)` whose primary key is the column
`holder_one`. -/
def badgeCatalog : Catalog :=
  catalogOf ["badge"]
    [("badge", [primaryKeyRow "holder_one"])]
    [("badge", [intColumnRow "holder_one",
        { colName := "label", dataType := "text", columnType := "text" }])]

/-- The schema `profile(id, ghost_one)` without a table `ghost`. -/
def ghostCatalog : Catalog :=
  catalogOf ["profile"]
    [("profile", [primaryKeyRow "id"])]
    [("profile", [intColumnRow "id", intColumnRow "ghost_one"])]

/-- The schema `entry(id, ledger_id, log_id)`, `ledger(book, page)` with the
composite primary key (`book`, `page`), `log(message)` without primary key. -/
def ledgerCatalog : Catalog :=
  catalogOf ["entry", "ledger", "log"]
    [("entry", [primaryKeyRow "id"]),
     ("ledger", [primaryKeyRow "book",
        { constraintType := "PRIMARY KEY", columnName := "page", refOrdinalPos := "2" }])]
    [("entry", [intColumnRow "id", intColumnRow "ledger_id", intColumnRow "log_id"]),
     ("ledger", [intColumnRow "book", intColumnRow "page"]),
     ("log", [{ colName := "message", dataType := "text", columnType := "text" }])]

/-- The schema `pair(a, b)` with the composite primary key (`a`, `b`) whose
constraint rows come back with the second key column first. -/
def pairCatalog : Catalog :=
  catalogOf ["pair"]
    [("pair", [{ constraintType := "PRIMARY KEY", columnName := "b", refOrdinalPos := "2" },
        { constraintType := "PRIMARY KEY", columnName := "a", refOrdinalPos := "1" }])]
    [("pair", [intColumnRow "a", intColumnRow "b"])]

/-! ## Struct emission and the results of the type mapping -/

/-- The two results of `GetGoDataType` as the source returns them: the Go
type and the error, `none` being `nil`. -/
def GetGoDataType.results (sqlType : String) : String × Option String :=
  match mapGet sqlType typeMappingMysql with
  | some v => (v, none)
  | none => ("", some ("data type '" ++ sqlType ++ "' not found"))

/-- The list `ormOptions` that `OrmTag.String` builds. -/
def OrmTag.ormOptions (tag : OrmTag) : List String :=
  (if tag.Column ≠ "" then ["column(" ++ tag.Column ++ ")"] else []) ++
  (if tag.Auto then ["auto"] else []) ++
  (if tag.Size ≠ "" then ["size(" ++ tag.Size ++ ")"] else []) ++
  (if tag.Typ ≠ "" then ["type(" ++ tag.Typ ++ ")"] else []) ++
  (if tag.Null then ["null"] else []) ++
  (if tag.AutoNow then ["auto_now"] else []) ++
  (if tag.AutoNowAdd then ["auto_now_add"] else []) ++
  (if tag.Decimals ≠ "" then
    ["digits(" ++ tag.Digits ++ ");decimals(" ++ tag.Decimals ++ ")"] else []) ++
  (if tag.RelFk then ["rel(fk)"] else []) ++
  (if tag.RelOne then ["rel(one)"] else []) ++
  (if tag.ReverseOne then ["reverse(one)"] else []) ++
  (if tag.ReverseMany then ["reverse(many)"] else []) ++
  (if tag.RelM2M then ["rel(m2m)", "rel_table(" ++ tag.M2MThroungh ++ ")"] else []) ++
  (if tag.Pk then ["pk"] else []) ++
  (if tag.Unique then ["unique"] else []) ++
  (if tag.Default ≠ "" then ["default(" ++ tag.Default ++ ")"] else [])

/-- `OrmTag.String`: the ORM tag string of a column. -/
def OrmTag.String (tag : OrmTag) : String :=
  if tag.ormOptions.length = 0 then ""
  else if tag.Comment ≠ "" then
    "`orm:\"" ++ ";".intercalate tag.ormOptions ++ "\" description:\"" ++ tag.Comment ++ "\"`"
  else
    "`orm:\"" ++ ";".intercalate tag.ormOptions ++ "\"`"

/-- `Column.String`: the source line of a struct field. -/
def Column.String (col : Column) : String :=
  col.Name ++ " " ++ col.Typ ++ " " ++ col.Tag.String

/-- `Table.String`: the source text of the struct of a table. -/
def Table.String (tb : Table) : String :=
  tb.Columns.foldl
    (fun rv v => if !v.IsNeed then rv ++ "" else rv ++ v.String ++ "\n")
    ("type " ++ CamelCase tb.Name ++ " struct \x7b\n") ++ "\x7d\n"

/-- Concatenation of a list of texts, first to last. -/
def concatAll : List String → String
  | [] => ""
  | s :: rest => s ++ concatAll rest

/-! ## More example catalogs -/

/-- The schema `a(id, bc_id)`, `ab(id, c_id)`, `bc(id)`, `c(id)`: the pairs
(`a`, `bc`) and (`ab`, `c`) concatenate to the same text. -/
def collisionCatalog : Catalog :=
  catalogOf ["a", "ab", "bc", "c"]
    [("a", [primaryKeyRow "id"]), ("ab", [primaryKeyRow "id"]),
     ("bc", [primaryKeyRow "id"]), ("c", [primaryKeyRow "id"])]
    [("a", [intColumnRow "id", intColumnRow "bc_id"]),
     ("ab", [intColumnRow "id", intColumnRow "c_id"]),
     ("bc", [intColumnRow "id"]), ("c", [intColumnRow "id"])]

/-- The schema `user(id)`, `order(id, user_id)` in which `user_id` is a
declared foreign key to `user.id`. -/
def shopForeignKeyCatalog : Catalog :=
  catalogOf ["user", "order"]
    [("user", [primaryKeyRow "id"]),
     ("order", [primaryKeyRow "id",
        { constraintType := "FOREIGN KEY", columnName := "user_id", refTableSchema := "shop",
          refTableName := "user", refColumnName := "id", refOrdinalPos := "1" }])]
    [("user", [intColumnRow "id"]), ("order", [intColumnRow "id", intColumnRow "user_id"])]

/-- The schema `user(id)`, `order(id, user_id)`, `post(id, user_id)`. -/
def blogCatalog : Catalog :=
  catalogOf ["user", "order", "post"]
    [("user", [primaryKeyRow "id"]), ("order", [primaryKeyRow "id"]),
     ("post", [primaryKeyRow "id"])]
    [("user", [intColumnRow "id"]), ("order", [intColumnRow "id", intColumnRow "user_id"]),
     ("post", [intColumnRow "id", intColumnRow "user_id"])]

/-- The range order that visits the entries in reverse insertion order. -/
def RangeOrder.reversed : RangeOrder :=
  { visit := fun _ m => m.reverse, perm := fun _ m => List.reverse_perm m }

/-- The table object of `order` with primary key `id` and the declared
foreign key `user_id` to `user.id`, before its columns are scanned. -/
def orderWithForeignKey : Table :=
  { Name := "order", Pk := "id",
    Fk := [("user_id",
      { Name := "user_id", RefSchema := "shop", RefTable := "user", RefColumn := "id" })] }

/-! ## The injected columns as lists -/

/-- The reverse relation columns that the reverse pass appends to the table
`name` when it visits the entries `es` in this order. -/
def reverseColumns (es : List (String × TableRelation)) (name : String) : List Column :=
  (es.filter fun e =>
    decide (name = e.2.RelationName) && !Strings.Contains e.2.SourceName "_has_").map
    fun e => GetRelationColumns.rcol e.2 (-1)

/-- The table `tb` as the reverse pass leaves it when it visits the entries
`es` in this order. -/
def reversedTable (es : List (String × TableRelation)) (tb : Table) : Table :=
  { tb with
    Columns := tb.Columns ++ reverseColumns es tb.Name,
    Relation := tb.Relation ++ (reverseColumns es tb.Name).map (fun c => c.Name) }

/-- The relations that the reverse pass appends to `correcttrlist` for the
table `name` when it visits the entries `es` in this order. -/
def confirmedBy (es : List (String × TableRelation)) (name : String) : List TableRelation :=
  (es.filter fun e => decide (name = e.2.RelationName)).map
    fun e => { e.2 with IsCorrect := true }

/-- The relations that the reverse pass appends to `correcttrlist` for the
tables named `names`, the first of them having index `i`. -/
def confirmedAll (o : RangeOrder) (trmap : List (String × TableRelation)) :
    Nat → List String → List TableRelation
  | _, [] => []
  | i, name :: rest =>
    confirmedBy (o.visit i trmap) name ++ confirmedAll o trmap (i + 1) rest

/-- The forward relation columns that the forward pass over `correcttrlist`
appends to the table `name`. -/
def forwardColumns (correcttrlist : List TableRelation) (name : String) : List Column :=
  (correcttrlist.filter fun tr =>
    decide (name = tr.SourceName ∧ tr.IsCorrect = true)).map
    fun tr => GetRelationColumns.rcol tr 1

/-- Two result tables that differ at most in the order of their injected
relation columns: `phys` are the columns stored under a column name of the
catalog table, the same in both and in the same order, `inj1` and `inj2` the
injected columns, the same up to their order. -/
def SameUpToInjectionOrder (db : Catalog) (t1 t2 : Table) : Prop :=
  t1.Name = t2.Name ∧ t1.Pk = t2.Pk ∧ t1.Uk = t2.Uk ∧ t1.Fk = t2.Fk ∧
  t1.Comments = t2.Comments ∧ t1.ImportTimePkg = t2.ImportTimePkg ∧
  t1.Relation.Perm t2.Relation ∧
  ∃ phys inj1 inj2, t1.Columns = phys ++ inj1 ∧ t2.Columns = phys ++ inj2 ∧
    inj1.Perm inj2 ∧ (∀ c ∈ inj1, c.Tag.Column = "") ∧
    ∀ c ∈ phys, ∃ r ∈ db.columnRows t1.Name, c.Tag.Column = r.colName

/-! ## The rule splicer (`g_fixrule.go`) -/

/-- The scan of Go `strings.Split(s, sep)` for a non-empty `sep`: `skip`
counts the characters of a separator still to be passed over. -/
def splitL (sep : List Char) : Nat → List Char → List (List Char)
  | _, [] => [[]]
  | skip + 1, _ :: cs => splitL sep skip cs
  | 0, c :: cs =>
    if sep.isPrefixOf (c :: cs) then [] :: splitL sep (sep.length - 1) cs
    else match splitL sep 0 cs with
      | [] => [[c]]
      | t :: ts => (c :: t) :: ts

/-- Go `strings.Split(s, sep)` for a non-empty `sep`. -/
def Strings.Split (s sep : String) : List String :=
  (splitL sep.data 0 s.data).map String.mk

/-- Go `strings.ToLower` on the ASCII range; the Unicode case tables are
outside the repository and a rune above U+007F is left as it is. -/
def Strings.ToLower (s : String) : String :=
  String.mk (s.data.map Char.toLower)

/-- A rule of `rule.yml` taken apart. -/
structure CodeRule where
  Name : String := ""
  Args : List String := []
  Func : String := ""
  Back : String := ""
  Pre : String := ""
  deriving DecidableEq, Repr

/-- An api entry of a controller in `rule.yml`. -/
structure CodeApi where
  Name : String := ""
  Pos : String := ""
  Rule : String := ""
  Imports : String := ""
  deriving DecidableEq, Repr

/-- The `CodeApi` that `FixController` builds from the entry `api1` read
under the key `apiName`: the marker is `// ` followed by the `pos` value. -/
def FixController.newApi (apiName : String) (api1 : CodeApi) : CodeApi :=
  { Name := apiName, Pos := "// " ++ api1.Pos, Rule := api1.Rule, Imports := api1.Imports }

/-- The part of `FixController` that takes the rule string apart; `none`
when an index is out of range, which ends the process. -/
def FixController.rule (api : CodeApi) : Option CodeRule :=
  match (Strings.Split api.Rule " ")[0]? with
  | none => none
  | some name =>
    match (Strings.Split api.Rule " ")[1]? with
    | none => none
    | some second =>
      match (Strings.Split second "->")[1]? with
      | none => none
      | some func =>
        let back :=
          if (Strings.Split second "->").length > 2 then (Strings.Split second "->")[2]?
          else some "-1"
        match back with
        | none => none
        | some back =>
          match (Strings.Split second "->")[0]? with
          | none => none
          | some first =>
            some { Name := name, Func := func, Back := back, Args := Strings.Split first "," }

/-- The loop of `FixController` over `rule.Args` that builds `fields`;
`none` when an argument has no `:`, which ends the process. -/
def FixController.fieldsLoop : List String → String → Option String
  | [], fields => some fields
  | arg :: rest, fields =>
    match (Strings.Split arg ":")[0]?, (Strings.Split arg ":")[1]? with
    | some fieldName, some fieldValue =>
      FixController.fieldsLoop rest
        (fields ++ Strings.ReplaceAll fieldName "&#58;" ":" ++ ": " ++
          Strings.ReplaceAll fieldValue "&#58;" ":" ++ "," ++ "\n")
    | _, _ => none

/-- The snippet `ruleTpl` that `FixController` builds for a rule. -/
def FixController.ruleTpl (api : CodeApi) (rule : CodeRule) : Option String :=
  if rule.Name = "Func" then
    let ruleTpl := api.Pos ++ "\n" ++ rule.Func ++ "\n"
    if rule.Back ≠ "-1" then some (rule.Back ++ "=" ++ ruleTpl) else some ruleTpl
  else
    let ruleNameLower := Strings.ToLower rule.Name
    match FixController.fieldsLoop rule.Args "" with
    | none => none
    | some fields =>
      let ruleTpl := api.Pos ++ "\n" ++ ruleNameLower ++ " := &rules." ++ rule.Name ++
        "Rule\x7b" ++ "\n" ++ fields ++ "\x7d" ++ "\n"
      if rule.Back ≠ "-1" then
        some (ruleTpl ++ rule.Back ++ " = " ++ ruleNameLower ++ "." ++ rule.Func ++ "\n\t")
      else some (ruleTpl ++ ruleNameLower ++ "." ++ rule.Func)

/-- The snippet of an api entry: the rule taken apart, then `ruleTpl`. -/
def FixController.snippet (api : CodeApi) : Option String :=
  match FixController.rule api with
  | none => none
  | some rule => FixController.ruleTpl api rule

/-- The loop of `FixController` over `posImports`, `text` being the content
of the controller file. -/
def FixController.importsLoop : List String → String → String
  | [], text => text
  | pim :: rest, text =>
    if Strings.Contains text pim then FixController.importsLoop rest text
    else
      FixController.importsLoop rest
        (Strings.ReplaceAll text "// posimport" ("// posimport\n" ++ "\"" ++ pim ++ "\""))

/-- The replacement step of `FixController` at the marker of the api. -/
def FixController.pos (text : String) (api : CodeApi) (ruleTpl : String) : String :=
  if Strings.Contains text api.Pos then Strings.ReplaceAll text api.Pos ruleTpl else text

/-- The body of the inner loop of `FixController` for one api entry, as a
function of the content of the controller file; `none` when the rule string
ends the process. -/
def FixController.api (text : String) (apiName : String) (api1 : CodeApi) : Option String :=
  let api := FixController.newApi apiName api1
  match FixController.snippet api with
  | none => none
  | some ruleTpl =>
    some (FixController.pos
      (FixController.importsLoop (Strings.Split api.Imports ",") text) api ruleTpl)

/-- The string has no space and no `->`. -/
abbrev plainToken (s : String) : Prop :=
  ' ' ∉ s.data ∧ indexL "->".data s.data = none

/-- The string has no space, comma, colon or `->`. -/
abbrev plainField (s : String) : Prop :=
  plainToken s ∧ ',' ∉ s.data ∧ ':' ∉ s.data

/-- The argument list `f1:v1,...,fn:vn` of a rule. -/
def argumentList : List (String × String) → String
  | [] => ""
  | [p] => p.1 ++ ":" ++ p.2
  | p :: q :: rest => p.1 ++ ":" ++ p.2 ++ "," ++ argumentList (q :: rest)

/-- A controller file with the import marker and the insertion marker
`// pos11`. -/
def postController : String :=
  "import (\n// posimport\n)\nfunc Post() \x7b\n// pos11\n\x7d\n"

/-- The entry `Post` of the example in `rule.yml`. -/
def postEntry : CodeApi :=
  { Pos := "pos11", Rule := "Func ->HookApi(&v)->-1", Imports := "xx_api/rules" }

/-! ## Catalogs and tables for the later statements -/

/-- The column rows of `event(id, created_at, starts_on)`: an `int` key, a
`datetime` and a `date` column. -/
def eventRows : List ColumnRow :=
  [intColumnRow "id",
   { colName := "created_at", dataType := "datetime", columnType := "datetime",
     isNullable := "NO", columnDefault := "CURRENT_TIMESTAMP" },
   { colName := "starts_on", dataType := "date", columnType := "date", isNullable := "YES" }]

/-- The schema `event(id, created_at, starts_on)`. -/
def eventCatalog : Catalog :=
  catalogOf ["event"] [("event", [primaryKeyRow "id"])] [("event", eventRows)]

/-- The table object of `event` as `GetConstraints` leaves it. -/
def eventTable : Table :=
  { Name := "event", Pk := "id" }

/-- The tokens joined by `_`. -/
def underscoreJoin : List (List Char) → List Char
  | [] => []
  | [t] => t
  | t :: u :: rest => t ++ '_' :: underscoreJoin (u :: rest)

/-- The token with its first letter in upper case. -/
def capitalize : List Char → List Char
  | [] => []
  | c :: cs => c.toUpper :: cs

/-- The schema `user(id)`, `order(user_id, id)`: the relation column is the
first column of `order`. -/
def orderFirstCatalog : Catalog :=
  catalogOf ["user", "order"]
    [("user", [primaryKeyRow "id"]), ("order", [primaryKeyRow "id"])]
    [("user", [intColumnRow "id"]), ("order", [intColumnRow "user_id", intColumnRow "id"])]

/-- The schema `class(id)`, `student(id)`,
`student_has_class(student_id, class_id)`. -/
def classCatalog : Catalog :=
  catalogOf ["class", "student", "student_has_class"]
    [("class", [primaryKeyRow "id"]), ("student", [primaryKeyRow "id"])]
    [("class", [intColumnRow "id"]), ("student", [intColumnRow "id"]),
     ("student_has_class", [intColumnRow "student_id", intColumnRow "class_id"])]

/-- The schema `tag(id)`, `post_has_tag(post_id, tag_id)` without a table
`post`. -/
def orphanJoinCatalog : Catalog :=
  catalogOf ["tag", "post_has_tag"]
    [("tag", [primaryKeyRow "id"])]
    [("tag", [intColumnRow "id"]),
     ("post_has_tag", [intColumnRow "post_id", intColumnRow "tag_id"])]

/-- The schema `user(id)`, `member(id, user, user_id)`: a scalar column
`user` beside the relation column `user_id`. -/
def memberCatalog : Catalog :=
  catalogOf ["user", "member"]
    [("user", [primaryKeyRow "id"]), ("member", [primaryKeyRow "id"])]
    [("user", [intColumnRow "id"]),
     ("member", [intColumnRow "id",
        { colName := "user", dataType := "varchar", columnType := "varchar(64)" },
        intColumnRow "user_id"])]

/-- The schema `node(id, node_one)`: a one-to-one column that names its own
table. -/
def nodeOneCatalog : Catalog :=
  catalogOf ["node"] [("node", [primaryKeyRow "id"])]
    [("node", [intColumnRow "id", intColumnRow "node_one"])]

/-- The schema `node(id, node_id)`: a column that names its own table. -/
def nodeCatalog : Catalog :=
  catalogOf ["node"] [("node", [primaryKeyRow "id"])]
    [("node", [intColumnRow "id", intColumnRow "node_id"])]

/-- The schema `node(id, node_id, node_one)`. -/
def nodeBothCatalog : Catalog :=
  catalogOf ["node"] [("node", [primaryKeyRow "id"])]
    [("node", [intColumnRow "id", intColumnRow "node_id", intColumnRow "node_one"])]

/-! ## The attach and detach block of `writeModelFiles` -/

/-- Go `strings.TrimRight(s, cutset)`: all trailing characters that are in
`cutset` are taken off. -/
def Strings.TrimRight (s cutset : String) : String :=
  String.mk ((s.data.reverse.dropWhile (fun c => cutset.data.contains c)).reverse)

/-- The text that `fmt.Sprintf` makes of the template of the attach and
detach block for the field `name` and the element type `element`. -/
def m2mPartBlock (name element : String) : String :=
  "\n\t\t\t\tif field == \"" ++ name ++
  "\" \x7b\n\t\t\t\t\tm2m := o.QueryM2M(m, \"" ++ name ++
  "\")\n\t\t\t\t\tif lenDel != 0 \x7b\n\t\t\t\t\t\tfor _, did := range DelIds \x7b\n\t\t\t\t\t\t\tdelone := &" ++ element ++
  "\x7bId: did\x7d\n\t\t\t\t\t\t\tif m2m.Exist(delone) \x7b\n\t\t\t\t\t\t\t\t_, err = m2m.Remove(delone)\n\t\t\t\t\t\t\t\tif err != nil \x7b\n\t\t\t\t\t\t\t\t\to.Rollback()\n\t\t\t\t\t\t\t\t\treturn\n\t\t\t\t\t\t\t\t\x7d\n\t\t\t\t\t\t\t\x7d\n\t\t\t\t\t\t\x7d\n\t\t\t\t\t\x7d\n\t\t\t\t\tif lenAdd != 0 \x7b\n\t\t\t\t\t\tfor _, aid := range AddIds \x7b\n\t\t\t\t\t\t\taddone := &" ++ element ++
  "\x7bId: aid\x7d\n\t\t\t\t\t\t\tif !m2m.Exist(addone) \x7b\n\t\t\t\t\t\t\t\t_, err = m2m.Add(addone)\n\t\t\t\t\t\t\t\tif err != nil \x7b\n\t\t\t\t\t\t\t\t\to.Rollback()\n\t\t\t\t\t\t\t\t\treturn\n\t\t\t\t\t\t\t\t\x7d\n\t\t\t\t\t\t\t\x7d\n\t\t\t\t\t\t\x7d\n\t\t\t\t\t\x7d\n\t\t\t\t\x7d"

/-- The loop of `writeModelFiles` that builds `every_m2m_part`. -/
def everyM2MPartLoop : List Column → String → String
  | [], part => part
  | v :: rest, part =>
    if v.Tag.M2M then
      let part := part ++ ("// m2m_" ++ v.Name ++ v.Tag.Column)
      everyM2MPartLoop rest
        (part ++ (m2mPartBlock v.Name (Strings.TrimRight v.Name "s") ++ "\n"))
    else everyM2MPartLoop rest part

/-- The text `every_m2m_part` of `writeModelFiles` for a table. -/
def everyM2MPart (tb : Table) : String :=
  everyM2MPartLoop tb.Columns "// every_m2m_part  \n"

/-! ## The router step of the rule splicer (`FixRouteAndAddCtls`) -/

/-- The scan of Go `strings.Replace(s, old, new, 1)` for a non-empty `old`:
the first occurrence is replaced. -/
def replaceFirst (old new : List Char) : List Char → List Char
  | [] => []
  | c :: cs =>
    if old.isPrefixOf (c :: cs) then new ++ (c :: cs).drop old.length
    else c :: replaceFirst old new cs

/-- Go `strings.Replace(s, old, new, 1)` for a non-empty `old`. -/
def Strings.ReplaceFirst (s old new : String) : String :=
  String.mk (replaceFirst old.data new.data s.data)

/-- Go `strings.Title`. -/
def Strings.Title (s : String) : String :=
  String.mk (title s.data)

/-- The template `RoutePartialTPL`. -/
def RoutePartialTPL : String :=
  "// posrouter\nbeego.NSNamespace(\"/\x7b\x7broute\x7d\x7d\",\nbeego.NSInclude(\n&controllers.\x7b\x7bRoute\x7d\x7dController\x7b\x7d,\n),\n),"

/-- The body of the loop of `FixRouteAndAddCtls` that adds the declared
controllers, as a function of the router text `newRouterFile`; the
controller file the loop also creates is left out. -/
def FixRouteAndAddCtls.addController (newRouterFile tpl : String) : String :=
  if Strings.Contains newRouterFile ("/" ++ Strings.ToLower tpl) || tpl == "" then
    newRouterFile
  else
    let tplStr := Strings.Title tpl
    let routerStr := Strings.ReplaceAll RoutePartialTPL "\x7b\x7bRoute\x7d\x7d" tplStr
    let routerStr :=
      Strings.ReplaceAll routerStr "\x7b\x7broute\x7d\x7d" (Strings.ToLower tplStr)
    if Strings.Contains newRouterFile "// posrouter" then
      Strings.ReplaceFirst newRouterFile "// posrouter" routerStr
    else newRouterFile

/-- Whether an occurrence of `old` starts inside `pre` when `rest` follows. -/
def startsIn (old : List Char) : List Char → List Char → Bool
  | [], _ => false
  | c :: cs, rest => old.isPrefixOf (c :: cs ++ rest) || startsIn old cs rest

/-- The namespace block of the controller `ctrl` at the path `/route`,
headed by the marker. -/
def namespaceBlock (route ctrl : String) : String :=
  "// posrouter\nbeego.NSNamespace(\"/" ++ route ++ "\",\nbeego.NSInclude(\n&controllers." ++
    ctrl ++ "Controller\x7b\x7d,\n),\n),"

/-- A router file with the marker and the namespace of `user`. -/
def routerText : String :=
  "ns := beego.NewNamespace(\"/v1\",\nbeego.NSNamespace(\"/user\",\n),\n// posrouter\n)\n"

/-! ## The import step of the rule splicer -/

/-- The import line of the path `p` as `FixController` inserts it after the
marker: a newline and the path in double quotes. -/
def importLine (p : String) : String :=
  "\n" ++ "\"" ++ p ++ "\""

/-- The paths that get an import line, the latest first, when the paths of
the list are taken one after the other and a path is left out when it is
already among `shown`. -/
def importedPaths : List String → List String → List String
  | [], shown => shown
  | p :: rest, shown =>
    if p ∈ shown then importedPaths rest shown else importedPaths rest (p :: shown)

/-- A controller file with the import marker. -/
def importText : String :=
  "package controllers\nimport (\n// posimport\n)\n"

/-- The controller text `pre`, marker, `post` with the import lines of the
paths `shown` after the marker. -/
def withImports (pre post : String) (shown : List String) : String :=
  pre ++ "// posimport" ++ concatAll (shown.map importLine) ++ post

/-! ## Key columns of the catalog and further example catalogs -/

/-- The columns that the constraint rows of the table `name` give as
primary key columns. -/
def keyColumns (db : Catalog) (name : String) : List String :=
  ((db.constraintRows name).filter fun cr => cr.constraintType = "PRIMARY KEY").map
    fun cr => cr.columnName

/-- Whether the row `r` passes the row loop of `GetColumns` for a table with
primary key `pk` and foreign keys `fk`: its data type is in the type mapping
and the key part returns (the sign, size and decimal expressions match). -/
def GetColumns.rowPasses (pk : String) (fk : List (String × ForeignKey))
    (blackList : List String) (r : ColumnRow) : Bool :=
  match GetGoDataType r.dataType with
  | none => false
  | some ty =>
    (GetColumns.keys pk fk blackList r
      { Name := CamelCase r.colName, Typ := ty, IsNeed := true }
      { Column := r.colName, Comment := r.columnComment, Default := r.columnDefault }).isSome

/-- Every column row of every table of the catalog passes the row loop of
`GetColumns`, with the keys and the black list that the constraint rows
give: no column ends the process. -/
def ScanPasses (db : Catalog) : Prop :=
  ∀ tb ∈ (constraintsLoop db db.tableNames []).1, ∀ r ∈ db.columnRows tb.Name,
    GetColumns.rowPasses tb.Pk tb.Fk (constraintsLoop db db.tableNames []).2 r = true

/-- The schema `account(id, owner_one, owner_id)`, `owner(id, account_id)`:
`owner` refers back to `account`. -/
def accountBackCatalog : Catalog :=
  catalogOf ["account", "owner"]
    [("owner", [primaryKeyRow "id"]), ("account", [primaryKeyRow "id"])]
    [("owner", [intColumnRow "id", intColumnRow "account_id"]),
     ("account", [intColumnRow "id", intColumnRow "owner_one", intColumnRow "owner_id"])]

/-- The schema `invoice(id, customer_id)` with the join table
`customer_has_invoice(customer_id, invoice_id)` and no table `customer`. -/
def invoiceJoinCatalog : Catalog :=
  catalogOf ["invoice", "customer_has_invoice"]
    [("invoice", [primaryKeyRow "id"])]
    [("invoice", [intColumnRow "id", intColumnRow "customer_id"]),
     ("customer_has_invoice", [intColumnRow "customer_id", intColumnRow "invoice_id"])]

/-- The schema `invoice(id, customer_id, payload)` whose column `payload`
has the data type `json`, and no table `customer`. -/
def invoiceJsonCatalog : Catalog :=
  catalogOf ["invoice"]
    [("invoice", [primaryKeyRow "id"])]
    [("invoice", [intColumnRow "id", intColumnRow "customer_id",
        { colName := "payload", dataType := "json", columnType := "json" }])]

/-! ## Lemmas on the string functions -/


theorem isPrefixOf_length_lt (pat s : List Char) (h : s.length < pat.length) :
    pat.isPrefixOf s = false := by
  cases hp : pat.isPrefixOf s with
  | false => rfl
  | true =>
    have := (List.isPrefixOf_iff_prefix.mp hp).length_le
    omega

theorem lastIndexL_short (pat : List Char) :
    ∀ s : List Char, s.length < pat.length → lastIndexL pat s = none
  | [], h => by
    simp [lastIndexL, isPrefixOf_length_lt pat [] h]
  | c :: cs, h => by
    have h1 : cs.length < pat.length := by simp at h; omega
    simp [lastIndexL, lastIndexL_short pat cs h1, isPrefixOf_length_lt pat (c :: cs) h]

theorem isPrefixOf_self (pat : List Char) : pat.isPrefixOf pat = true :=
  List.isPrefixOf_iff_prefix.mpr (List.prefix_refl pat)

theorem lastIndexL_self (pat : List Char) : lastIndexL pat pat = some 0 := by
  cases pat with
  | nil => simp [lastIndexL]
  | cons p ps =>
    have h := lastIndexL_short (p :: ps) ps (by simp)
    have h2 := isPrefixOf_self (p :: ps)
    simp only [lastIndexL, h, h2, if_true]

theorem lastIndexL_append_self (pat : List Char) :
    ∀ a : List Char, lastIndexL pat (a ++ pat) = some a.length
  | [] => by simpa using lastIndexL_self pat
  | c :: cs => by
    simp [lastIndexL, lastIndexL_append_self pat cs]

theorem hasSuffix_append (x suf : String) : Strings.HasSuffix (x ++ suf) suf = true := by
  simp [Strings.HasSuffix, List.isSuffixOf_iff_suffix, String.data_append]

theorem slice_lastIndex_append (x suf : String) :
    slice (x ++ suf) 0 (Strings.LastIndex (x ++ suf) suf) = x := by
  simp [slice, Strings.LastIndex, String.data_append, lastIndexL_append_self]

theorem hasSuffix_split (s suf : String) (h : Strings.HasSuffix s suf = true) :
    s = slice s 0 (Strings.LastIndex s suf) ++ suf := by
  obtain ⟨t, ht⟩ := List.isSuffixOf_iff_suffix.mp h
  have hs : s = String.mk t ++ suf := by
    apply String.ext
    simp [String.data_append, ht]
  rw [hs, slice_lastIndex_append]

theorem append_right_cancel (x y suf : String) (h : x ++ suf = y ++ suf) : x = y := by
  apply String.ext
  have := congrArg String.data h
  simpa [String.data_append] using this

theorem empty_ne_append_id (r : String) : "" ≠ r ++ "_id" := by
  intro h
  have h1 := congrArg String.length h
  have h2 : "_id".length = 3 := rfl
  have h3 : "".length = 0 := rfl
  rw [String.length_append, h2, h3] at h1
  omega
  
theorem GetColumns.signedType_spec (r : ColumnRow) (col col' : Column)
    (h : GetColumns.signedType r col = some col') :
    col'.Name = col.Name ∧ col'.IsNeed = col.IsNeed ∧ col'.Tag = col.Tag ∧
    (col'.Typ = col.Typ ∨ GetGoDataType (r.dataType ++ " " ++ "unsigned") = some col'.Typ) := by
  unfold GetColumns.signedType at h
  split at h
  · split at h
    · cases h
    · rename_i sign _
      split at h
      · rename_i hs
        split at h
        · cases h
        · rename_i ty hty
          cases h
          refine ⟨rfl, rfl, rfl, Or.inr ?_⟩
          rw [← hs.1]
          exact hty
      · cases h
        exact ⟨rfl, rfl, rfl, Or.inl rfl⟩
  · cases h
    exact ⟨rfl, rfl, rfl, Or.inl rfl⟩

theorem GetColumns.sized_column (cond : Bool) (r : ColumnRow) (tag tag' : OrmTag)
    (h : GetColumns.sized cond r tag = some tag') : tag'.Column = tag.Column := by
  unfold GetColumns.sized at h
  split at h
  · split at h
    · cases h
    · cases h
      rfl
  · cases h
    rfl

theorem GetColumns.temporal_column (r : ColumnRow) (tag : OrmTag) :
    (GetColumns.temporal r tag).Column = tag.Column := by
  unfold GetColumns.temporal
  repeat' split
  all_goals rfl

theorem GetColumns.decimal_column (r : ColumnRow) (tag tag' : OrmTag)
    (h : GetColumns.decimal r tag = some tag') : tag'.Column = tag.Column := by
  unfold GetColumns.decimal at h
  split at h
  · split at h
    · cases h
    · cases h
      rfl
  · cases h
    rfl

theorem GetColumns.plain_spec (r : ColumnRow) (col : Column) (tag : OrmTag)
    (col' : Column) (tag' : OrmTag) (imp : Bool)
    (h : GetColumns.plain r col tag = some (col', tag', imp)) :
    tag'.Column = tag.Column ∧ col'.IsNeed = col.IsNeed ∧
    (col'.Typ = col.Typ ∨ GetGoDataType (r.dataType ++ " " ++ "unsigned") = some col'.Typ) := by
  unfold GetColumns.plain at h
  simp only at h
  split at h
  · cases h
  · rename_i c1 hc1
    split at h
    · cases h
    · rename_i t1 ht1
      split at h
      · cases h
      · rename_i t2 ht2
        split at h
        · cases h
        · rename_i t3 ht3
          split at h
          · cases h
          · rename_i t4 ht4
            cases h
            have e1 := GetColumns.sized_column _ _ _ _ ht1
            have e2 := GetColumns.decimal_column _ _ _ ht2
            have e3 := GetColumns.sized_column _ _ _ _ ht3
            have e4 := GetColumns.sized_column _ _ _ _ ht4
            have e0 := GetColumns.temporal_column r t1
            obtain ⟨_, s2, _, s4⟩ := GetColumns.signedType_spec _ _ _ hc1
            refine ⟨?_, ?_, ?_⟩
            · rw [e4, e3, e2, e0, e1]
              split <;> rfl
            · rw [s2]
              split <;> rfl
            · rcases s4 with s4 | s4
              · left
                rw [s4]
                split <;> rfl
              · exact Or.inr s4
theorem GetColumns.keys_spec (pk : String) (fk : List (String × ForeignKey))
    (bl : List String) (r : ColumnRow) (col : Column) (tag : OrmTag)
    (col' : Column) (tag' : OrmTag) (imp : Bool)
    (h : GetColumns.keys pk fk bl r col tag = some (col', tag', imp)) :
    tag'.Column = tag.Column ∧ col'.IsNeed = col.IsNeed := by
  unfold GetColumns.keys at h
  split at h
  · cases h
    exact ⟨rfl, rfl⟩
  · split at h
    · split at h
      · exact ⟨(GetColumns.plain_spec _ _ _ _ _ _ h).1, (GetColumns.plain_spec _ _ _ _ _ _ h).2.1⟩
      · cases h
        exact ⟨rfl, rfl⟩
    · exact ⟨(GetColumns.plain_spec _ _ _ _ _ _ h).1, (GetColumns.plain_spec _ _ _ _ _ _ h).2.1⟩

theorem GetColumns.keys_plain (pk : String) (fk : List (String × ForeignKey))
    (bl : List String) (r : ColumnRow) (col : Column) (tag : OrmTag)
    (hpk : pk ≠ r.colName) (hfk : mapGet r.colName fk = none) :
    GetColumns.keys pk fk bl r col tag = GetColumns.plain r col tag := by
  unfold GetColumns.keys
  rw [if_neg hpk, hfk]

theorem GetColumns.convention_rel (name colName : String) (tr : TableRelation)
    (col col' : Column) :
    (GetColumns.convention name colName tr col).1 =
      (GetColumns.convention name colName tr col').1 ∧
    (GetColumns.convention name colName tr col).2.1 =
      (GetColumns.convention name colName tr col').2.1 := by
  unfold GetColumns.convention
  repeat' split
  all_goals exact ⟨rfl, rfl⟩

theorem GetColumns.convention_col (name colName : String) (tr : TableRelation)
    (col : Column) :
    (GetColumns.convention name colName tr col).2.2.Name = col.Name ∧
    (GetColumns.convention name colName tr col).2.2.Typ = col.Typ ∧
    (GetColumns.convention name colName tr col).2.2.Tag = col.Tag := by
  unfold GetColumns.convention
  repeat' split
  all_goals exact ⟨rfl, rfl, rfl⟩

theorem hasSuffix_id_not_one (x : String) : Strings.HasSuffix (x ++ "_id") "_one" = false := by
  cases h : Strings.HasSuffix (x ++ "_id") "_one" with
  | false => rfl
  | true =>
    exfalso
    obtain ⟨t, ht⟩ := List.isSuffixOf_iff_suffix.mp h
    have h1 := congrArg List.getLast? ht
    simp [String.data_append] at h1
theorem rowRelation_id (name x : String) (hj : Strings.Contains name "_has_" = false) :
    rowRelation name (x ++ "_id") = some (oneToManyOf name x) := by
  simp [rowRelation, GetColumns.convention, hj, hasSuffix_id_not_one, hasSuffix_append,
    slice_lastIndex_append, oneToManyOf, GetColumns.initialRelation]

theorem rowRelation_one (name x : String) (hj : Strings.Contains name "_has_" = false) :
    rowRelation name (x ++ "_one") = some (oneToOneOf name x) := by
  simp [rowRelation, GetColumns.convention, hj, hasSuffix_append,
    slice_lastIndex_append, oneToOneOf, GetColumns.initialRelation]

theorem rowRelation_join_id (name x : String) (hj : Strings.Contains name "_has_" = true) :
    rowRelation name (x ++ "_id") = some (joinColumnOf name x) := by
  simp [rowRelation, GetColumns.convention, hj, hasSuffix_append,
    slice_lastIndex_append, joinColumnOf, GetColumns.initialRelation]

theorem rowRelation_discovered (name colName : String) (tr : TableRelation)
    (h : rowRelation name colName = some tr) :
    Discovered tr ∧ tr.SourceName = name := by
  unfold rowRelation GetColumns.convention at h
  cases hj : Strings.Contains name "_has_" with
  | false =>
    cases h1 : Strings.HasSuffix colName "_one" with
    | true =>
      simp only [hj, h1, Bool.not_false, if_true, Option.some.injEq] at h
      subst h
      exact ⟨Or.inr (Or.inl ⟨name, _, hj, Or.inl rfl⟩), rfl⟩
    | false =>
      cases h2 : Strings.HasSuffix colName "_id" with
      | true =>
        simp only [hj, h1, h2, Bool.not_false, if_true, Option.some.injEq,
          Bool.false_eq_true, if_false] at h
        subst h
        exact ⟨Or.inr (Or.inl ⟨name, _, hj, Or.inr rfl⟩), rfl⟩
      | false =>
        simp [hj, h1, h2] at h
  | true =>
    cases h2 : Strings.HasSuffix colName "_id" with
    | true =>
      simp only [hj, h2, Bool.not_true, if_true, Option.some.injEq,
        Bool.false_eq_true, if_false] at h
      subst h
      exact ⟨Or.inr (Or.inr ⟨name, _, hj, rfl⟩), rfl⟩
    | false =>
      simp [hj, h2] at h

theorem convention_need_one (name x : String) (tr : TableRelation) (col : Column)
    (hj : Strings.Contains name "_has_" = false) :
    (GetColumns.convention name (x ++ "_one") tr col).2.2.IsNeed = false := by
  simp [GetColumns.convention, hj, hasSuffix_append]

theorem convention_need_id (name x : String) (tr : TableRelation) (col : Column)
    (hj : Strings.Contains name "_has_" = false) :
    (GetColumns.convention name (x ++ "_id") tr col).2.2.IsNeed = true := by
  simp [GetColumns.convention, hj, hasSuffix_append, hasSuffix_id_not_one]

theorem convention_need_join_id (name x : String) (tr : TableRelation) (col : Column)
    (hj : Strings.Contains name "_has_" = true) :
    (GetColumns.convention name (x ++ "_id") tr col).2.2.IsNeed = false := by
  simp [GetColumns.convention, hj, hasSuffix_append]

theorem Scanned.column {name pk : String} {fk : List (String × ForeignKey)}
    {bl : List String} {r : ColumnRow} {c : Column} (h : Scanned name pk fk bl r c) :
    c.Tag.Column = r.colName ∧ c.IsNeed = true := by
  obtain ⟨ty, col, tag, imp, _, hk, hn, rfl⟩ := h
  exact ⟨(GetColumns.keys_spec _ _ _ _ _ _ _ _ _ hk).1, hn⟩

theorem Scanned.not_one {name pk : String} {fk : List (String × ForeignKey)}
    {bl : List String} {r : ColumnRow} {c : Column} (h : Scanned name pk fk bl r c)
    (hj : Strings.Contains name "_has_" = false) (x : String) : r.colName ≠ x ++ "_one" := by
  obtain ⟨ty, col, tag, imp, _, hk, hn, rfl⟩ := h
  intro he
  rw [he, convention_need_one _ _ _ _ hj] at hn
  cases hn

theorem GetColumns.row_spec (bl : List String) (st st' : Table × List TableRelation)
    (r : ColumnRow) (h : GetColumns.row bl st r = some st') :
    st'.1.Name = st.1.Name ∧ st'.1.Pk = st.1.Pk ∧ st'.1.Fk = st.1.Fk ∧
    st'.2 = st.2 ++ (rowRelation st.1.Name r.colName).toList ∧
    ∃ cols, st'.1.Columns = st.1.Columns ++ cols ∧
      (∀ c ∈ cols, Scanned st.1.Name st.1.Pk st.1.Fk bl r c) ∧
      (∀ c, Scanned st.1.Name st.1.Pk st.1.Fk bl r c → c ∈ cols) := by
  unfold GetColumns.row at h
  simp only at h
  split at h
  · cases h
  · rename_i ty hty
    split at h
    · cases h
    · rename_i col tag imp hk
      simp only [Option.some.injEq] at h
      subst h
      have hrel : (rowRelation st.1.Name r.colName).toList =
          if (GetColumns.convention st.1.Name r.colName
            (GetColumns.initialRelation st.1.Name) col).2.1 = true
          then [(GetColumns.convention st.1.Name r.colName
            (GetColumns.initialRelation st.1.Name) col).1] else [] := by
        unfold rowRelation
        simp only
        rw [(GetColumns.convention_rel st.1.Name r.colName _ col {}).1,
          (GetColumns.convention_rel st.1.Name r.colName _ col {}).2]
        split <;> simp
      have hsc : ∀ c, Scanned st.1.Name st.1.Pk st.1.Fk bl r c ↔
          ((GetColumns.convention st.1.Name r.colName
            (GetColumns.initialRelation st.1.Name) col).2.2.IsNeed = true ∧
           c = { (GetColumns.convention st.1.Name r.colName
            (GetColumns.initialRelation st.1.Name) col).2.2 with Tag := tag }) := by
        intro c
        constructor
        · rintro ⟨ty', col', tag', imp', hty', hk', hn', rfl⟩
          rw [hty] at hty'
          cases hty'
          rw [hk] at hk'
          cases hk'
          exact ⟨hn', rfl⟩
        · rintro ⟨hn, hc⟩
          exact ⟨ty, col, tag, imp, hty, hk, hn, hc⟩
      simp only [hsc, hrel]
      cases imp <;>
      by_cases hn : (GetColumns.convention st.1.Name r.colName
            (GetColumns.initialRelation st.1.Name) col).2.2.IsNeed = true <;>
      by_cases hf : (GetColumns.convention st.1.Name r.colName
            (GetColumns.initialRelation st.1.Name) col).2.1 = true <;>
      simp [hn, hf]
theorem GetColumns.rows_spec (bl : List String) :
    ∀ (rows : List ColumnRow) (st st' : Table × List TableRelation),
    GetColumns.rows bl rows st = some st' →
    st'.1.Name = st.1.Name ∧ st'.1.Pk = st.1.Pk ∧ st'.1.Fk = st.1.Fk ∧
    st'.2 = st.2 ++ rows.filterMap (fun r => rowRelation st.1.Name r.colName) ∧
    ∃ cols, st'.1.Columns = st.1.Columns ++ cols ∧
      (∀ c ∈ cols, ∃ r ∈ rows, Scanned st.1.Name st.1.Pk st.1.Fk bl r c) ∧
      (∀ r ∈ rows, ∀ c, Scanned st.1.Name st.1.Pk st.1.Fk bl r c → c ∈ cols)
  | [], st, st', h => by
    simp only [GetColumns.rows, Option.some.injEq] at h
    subst h
    exact ⟨rfl, rfl, rfl, by simp, [], by simp, by simp, by simp⟩
  | r :: rs, st, st', h => by
    simp only [GetColumns.rows] at h
    split at h
    · cases h
    · rename_i st1 h1
      obtain ⟨n1, p1, f1, t1, cols1, c1, a1, b1⟩ := GetColumns.row_spec bl st st1 r h1
      obtain ⟨n2, p2, f2, t2, cols2, c2, a2, b2⟩ := GetColumns.rows_spec bl rs st1 st' h
      rw [n1, p1, f1] at a2 b2
      rw [n1] at t2
      refine ⟨n2.trans n1, p2.trans p1, f2.trans f1, ?_, cols1 ++ cols2, ?_, ?_, ?_⟩
      · rw [t2, t1, List.filterMap_cons]
        cases rowRelation st.1.Name r.colName <;> simp
      · rw [c2, c1, List.append_assoc]
      · intro c hc
        rcases List.mem_append.mp hc with hc | hc
        · exact ⟨r, List.mem_cons_self _ _, a1 c hc⟩
        · obtain ⟨r', hr', hs⟩ := a2 c hc
          exact ⟨r', List.mem_cons_of_mem _ hr', hs⟩
      · intro r' hr' c hs
        rcases List.mem_cons.mp hr' with rfl | hr'
        · exact List.mem_append_left _ (b1 c hs)
        · exact List.mem_append_right _ (b2 r' hr' c hs)

theorem GetColumns.joinTable_eq (tb : Table) (trl : List TableRelation) :
    GetColumns.joinTable tb trl = trl ++ joinRelations tb.Name := by
  unfold joinRelations GetColumns.joinTable
  split <;> simp

theorem GetColumns_spec (db : Catalog) (tb : Table) (bl : List String)
    (trl : List TableRelation) (tb' : Table) (trl' : List TableRelation)
    (h : GetColumns db tb bl trl = some (tb', trl')) :
    trl' = trl ++ tableRelations db tb.Name ∧ ScannedTable db bl tb tb' := by
  unfold GetColumns at h
  obtain ⟨n, p, f, t, cols, c, a, b⟩ := GetColumns.rows_spec bl _ _ _ h
  refine ⟨?_, n, p, f, cols, c, a, b⟩
  simp only at t
  rw [t, GetColumns.joinTable_eq, tableRelations, List.append_assoc]

theorem columnsLoop_spec (db : Catalog) (bl : List String) :
    ∀ (tbs : List Table) (trl : List TableRelation) (tbs' : List Table)
      (trl' : List TableRelation),
    columnsLoop db bl tbs trl = some (tbs', trl') →
    trl' = trl ++ (tbs.map (fun tb => tb.Name)).flatMap (tableRelations db) ∧
    tbs'.map (fun tb => tb.Name) = tbs.map (fun tb => tb.Name) ∧
    ∀ tb' ∈ tbs', ∃ tb ∈ tbs, ScannedTable db bl tb tb'
  | [], trl, tbs', trl', h => by
    simp only [columnsLoop, Option.some.injEq, Prod.mk.injEq] at h
    obtain ⟨rfl, rfl⟩ := h
    simp
  | tb :: rest, trl, tbs', trl', h => by
    simp only [columnsLoop] at h
    split at h
    · cases h
    · rename_i tb1 trl1 h1
      split at h
      · cases h
      · rename_i tbs2 trl2 h2
        simp only [Option.some.injEq, Prod.mk.injEq] at h
        obtain ⟨rfl, rfl⟩ := h
        obtain ⟨e1, s1⟩ := GetColumns_spec db tb bl trl tb1 trl1 h1
        obtain ⟨e2, m2, s2⟩ := columnsLoop_spec db bl rest trl1 tbs2 trl2 h2
        refine ⟨?_, ?_, ?_⟩
        · rw [e2, e1]
          simp [List.flatMap_cons, List.append_assoc]
        · simp [m2, s1.1]
        · intro tb' htb'
          rcases List.mem_cons.mp htb' with rfl | htb'
          · exact ⟨tb, List.mem_cons_self _ _, s1⟩
          · obtain ⟨tb0, h0, hs⟩ := s2 tb' htb'
            exact ⟨tb0, List.mem_cons_of_mem _ h0, hs⟩
/-! ## Lemmas on maps and on the constraint loop -/

theorem mapGet_mapSet_self {β : Type} (k : String) (v : β) :
    ∀ m : List (String × β), mapGet k (mapSet k v m) = some v
  | [] => by simp [mapSet, mapGet]
  | (k', v') :: rest => by
    by_cases h : k' = k
    · simp [mapSet, mapGet, h]
    · simp [mapSet, mapGet, h, mapGet_mapSet_self k v rest]

theorem mapGet_mapSet_ne {β : Type} (k k' : String) (v : β) (hne : k' ≠ k) :
    ∀ m : List (String × β), mapGet k (mapSet k' v m) = mapGet k m
  | [] => by simp [mapSet, mapGet, hne]
  | (k2, v2) :: rest => by
    by_cases h : k2 = k'
    · subst h
      simp [mapSet, mapGet, hne]
    · by_cases h2 : k2 = k
      · subst h2
        simp [mapSet, mapGet, h]
      · simp [mapSet, mapGet, h, h2, mapGet_mapSet_ne k k' v hne rest]

theorem mem_of_mapGet {β : Type} (k : String) (v : β) :
    ∀ m : List (String × β), mapGet k m = some v → (k, v) ∈ m
  | [], h => by simp [mapGet] at h
  | (k', v') :: rest, h => by
    by_cases hk : k' = k
    · simp only [mapGet, hk, if_true, Option.some.injEq] at h
      subst hk
      subst h
      exact List.mem_cons_self _ _
    · simp only [mapGet, hk, if_false] at h
      exact List.mem_cons_of_mem _ (mem_of_mapGet k v rest h)

theorem mapGet_none_of_not_mem {β : Type} (k : String) :
    ∀ m : List (String × β), k ∉ m.map Prod.fst → mapGet k m = none
  | [], _ => rfl
  | (k', v') :: rest, h => by
    simp only [List.map_cons, List.mem_cons, not_or] at h
    have hk : ¬ k' = k := fun e => h.1 e.symm
    simp only [mapGet, hk, if_false]
    exact mapGet_none_of_not_mem k rest h.2

theorem mapGet_of_mem {β : Type} (k : String) (v : β) :
    ∀ m : List (String × β), (m.map Prod.fst).Nodup → (k, v) ∈ m → mapGet k m = some v
  | [], _, h => by cases h
  | (k', v') :: rest, hnd, h => by
    simp only [List.map_cons, List.nodup_cons] at hnd
    rcases List.mem_cons.mp h with h | h
    · cases h
      simp [mapGet]
    · have hk : ¬ k' = k := by
        intro e
        subst e
        exact hnd.1 (List.mem_map_of_mem Prod.fst h)
      simp only [mapGet, hk, if_false]
      exact mapGet_of_mem k v rest hnd.2 h

theorem mem_mapSet {β : Type} (k : String) (v : β) (e : String × β) :
    ∀ m : List (String × β), e ∈ mapSet k v m → e = (k, v) ∨ e ∈ m
  | [], h => by
    simp only [mapSet, List.mem_singleton] at h
    exact Or.inl h
  | (k', v') :: rest, h => by
    by_cases hk : k' = k
    · simp only [mapSet, hk, if_true] at h
      rcases List.mem_cons.mp h with h | h
      · exact Or.inl h
      · exact Or.inr (List.mem_cons_of_mem _ h)
    · simp only [mapSet, hk, if_false] at h
      rcases List.mem_cons.mp h with h | h
      · exact Or.inr (h ▸ List.mem_cons_self _ _)
      · rcases mem_mapSet k v e rest h with h | h
        · exact Or.inl h
        · exact Or.inr (List.mem_cons_of_mem _ h)

theorem keys_mapSet {β : Type} (k : String) (v : β) (x : String) :
    ∀ m : List (String × β), x ∈ (mapSet k v m).map Prod.fst → x = k ∨ x ∈ m.map Prod.fst := by
  intro m h
  obtain ⟨e, he, rfl⟩ := List.mem_map.mp h
  rcases mem_mapSet k v e m he with h | h
  · exact Or.inl (by rw [h])
  · exact Or.inr (List.mem_map_of_mem Prod.fst h)

theorem nodup_mapSet {β : Type} (k : String) (v : β) :
    ∀ m : List (String × β), (m.map Prod.fst).Nodup → ((mapSet k v m).map Prod.fst).Nodup
  | [], _ => by simp [mapSet]
  | (k', v') :: rest, h => by
    simp only [List.map_cons, List.nodup_cons] at h
    by_cases hk : k' = k
    · simp only [mapSet, hk, if_true, List.map_cons, List.nodup_cons]
      exact ⟨hk ▸ h.1, h.2⟩
    · simp only [mapSet, hk, if_false, List.map_cons, List.nodup_cons]
      refine ⟨?_, nodup_mapSet k v rest h.2⟩
      intro hx
      rcases keys_mapSet k v k' rest hx with hx | hx
      · exact hk hx
      · exact h.1 hx

theorem GetConstraints.row_fixed (st : Table × List String) (r : ConstraintRow) :
    (GetConstraints.row st r).1.Name = st.1.Name ∧
    (GetConstraints.row st r).1.Columns = st.1.Columns := by
  unfold GetConstraints.row
  repeat' split
  all_goals exact ⟨rfl, rfl⟩

theorem GetConstraints.foldl_fixed :
    ∀ (rows : List ConstraintRow) (st : Table × List String),
    (rows.foldl GetConstraints.row st).1.Name = st.1.Name ∧
    (rows.foldl GetConstraints.row st).1.Columns = st.1.Columns
  | [], _ => ⟨rfl, rfl⟩
  | r :: rs, st => by
    have h1 := GetConstraints.row_fixed st r
    have h2 := GetConstraints.foldl_fixed rs (GetConstraints.row st r)
    simp only [List.foldl_cons]
    exact ⟨h2.1.trans h1.1, h2.2.trans h1.2⟩

theorem GetConstraints_fixed (db : Catalog) (tb : Table) (bl : List String) :
    (GetConstraints db tb bl).1.Name = tb.Name ∧
    (GetConstraints db tb bl).1.Columns = tb.Columns :=
  GetConstraints.foldl_fixed _ _

theorem GetConstraints.foldl_keys (c : String) (hc : c ≠ "") :
    ∀ (rows : List ConstraintRow) (st : Table × List String),
    (∀ cr ∈ rows, cr.constraintType = "PRIMARY KEY" ∨ cr.constraintType = "FOREIGN KEY" →
      cr.columnName ≠ c) →
    st.1.Pk ≠ c → mapGet c st.1.Fk = none →
    (rows.foldl GetConstraints.row st).1.Pk ≠ c ∧
    mapGet c (rows.foldl GetConstraints.row st).1.Fk = none
  | [], _, _, h1, h2 => ⟨h1, h2⟩
  | r :: rs, st, hr, h1, h2 => by
    simp only [List.foldl_cons]
    apply GetConstraints.foldl_keys c hc rs
    · intro cr hcr
      exact hr cr (List.mem_cons_of_mem _ hcr)
    · unfold GetConstraints.row
      simp only
      split
      · rename_i hp
        split
        · exact hr r (List.mem_cons_self _ _) (Or.inl hp)
        · exact fun e => hc e.symm
      · split
        · exact h1
        · split
          · exact h1
          · exact h1
    · unfold GetConstraints.row
      simp only
      split
      · split
        · exact h2
        · exact h2
      · split
        · exact h2
        · split
          · rename_i hf
            simp only
            rw [mapGet_mapSet_ne c r.columnName _ (hr r (List.mem_cons_self _ _) (Or.inr hf))]
            exact h2
          · exact h2

theorem constraintsLoop_spec (db : Catalog) :
    ∀ (names : List String) (bl : List String),
    (constraintsLoop db names bl).1.map (fun tb => tb.Name) = names ∧
    ∀ tb ∈ (constraintsLoop db names bl).1,
      ∃ bl0, tb = (GetConstraints db (newTable db tb.Name) bl0).1
  | [], _ => by simp [constraintsLoop]
  | n :: ns, bl => by
    obtain ⟨h1, h2⟩ := constraintsLoop_spec db ns
      (GetConstraints db (newTable db n) bl).2
    have hn : (GetConstraints db (newTable db n) bl).1.Name = n :=
      (GetConstraints_fixed db (newTable db n) bl).1
    refine ⟨?_, ?_⟩
    · simp only [constraintsLoop, List.map_cons]
      rw [show ({ Name := n, Fk := [], Comments := GetTbComments db { Name := n, Fk := [] } }
        : Table) = newTable db n from rfl, hn, h1]
    · intro tb htb
      simp only [constraintsLoop] at htb
      rw [show ({ Name := n, Fk := [], Comments := GetTbComments db { Name := n, Fk := [] } }
        : Table) = newTable db n from rfl] at htb
      rcases List.mem_cons.mp htb with rfl | htb
      · exact ⟨bl, by rw [hn]⟩
      · exact h2 tb htb
/-! ## Lemmas on the de-duplication loop -/

theorem dedupStep_get (k : String) (m : List (String × TableRelation)) (tr : TableRelation) :
    mapGet k (dedupStep m tr) =
      if tr.SourceName ++ tr.RelationName = k then
        match mapGet k m with
        | some old => if old.MarkName = "one2many" then some tr else some old
        | none => some tr
      else mapGet k m := by
  unfold dedupStep
  by_cases hk : tr.SourceName ++ tr.RelationName = k
  · subst hk
    simp only [if_true]
    cases hm : mapGet (tr.SourceName ++ tr.RelationName) m with
    | none => simp [mapGet_mapSet_self]
    | some old =>
      simp only
      split
      · exact mapGet_mapSet_self _ _ _
      · exact hm
  · simp only [hk, if_false]
    split
    · split
      · exact mapGet_mapSet_ne _ _ _ hk _
      · rfl
    · exact mapGet_mapSet_ne _ _ _ hk _

theorem dedupLoop_get_mem (k : String) :
    ∀ (trl : List TableRelation) (m : List (String × TableRelation)) (v : TableRelation),
    mapGet k (dedupLoop m trl) = some v →
    mapGet k m = some v ∨ (v ∈ trl ∧ v.SourceName ++ v.RelationName = k)
  | [], m, v, h => Or.inl h
  | tr :: rest, m, v, h => by
    simp only [dedupLoop, List.foldl_cons] at h
    rcases dedupLoop_get_mem k rest (dedupStep m tr) v h with h1 | h1
    · rw [dedupStep_get] at h1
      split at h1
      · rename_i hk
        split at h1
        · split at h1
          · cases h1
            exact Or.inr ⟨List.mem_cons_self _ _, hk⟩
          · rename_i hm _
            exact Or.inl (hm.trans h1)
        · cases h1
          exact Or.inr ⟨List.mem_cons_self _ _, hk⟩
      · exact Or.inl h1
    · exact Or.inr ⟨List.mem_cons_of_mem _ h1.1, h1.2⟩

theorem dedupLoop_get_some (k : String) :
    ∀ (trl : List TableRelation) (m : List (String × TableRelation)),
    ((∃ v, mapGet k m = some v) ∨ ∃ tr ∈ trl, tr.SourceName ++ tr.RelationName = k) →
    ∃ v, mapGet k (dedupLoop m trl) = some v
  | [], m, h => by
    rcases h with h | ⟨tr, htr, _⟩
    · exact h
    · cases htr
  | tr :: rest, m, h => by
    simp only [dedupLoop, List.foldl_cons]
    apply dedupLoop_get_some k rest (dedupStep m tr)
    by_cases hk : tr.SourceName ++ tr.RelationName = k
    · left
      rw [dedupStep_get, if_pos hk]
      cases mapGet k m with
      | none => exact ⟨tr, rfl⟩
      | some old =>
        simp only
        split
        · exact ⟨tr, rfl⟩
        · exact ⟨old, rfl⟩
    · rcases h with ⟨v, hv⟩ | ⟨tr', htr', hk'⟩
      · left
        rw [dedupStep_get, if_neg hk]
        exact ⟨v, hv⟩
      · rcases List.mem_cons.mp htr' with rfl | htr'
        · exact absurd hk' hk
        · exact Or.inr ⟨tr', htr', hk'⟩

theorem dedupLoop_sticky (k : String) (P : TableRelation → Prop)
    (hP : ∀ tr, P tr → tr.MarkName ≠ "one2many") :
    ∀ (trl : List TableRelation) (m : List (String × TableRelation)),
    (∀ tr ∈ trl, tr.SourceName ++ tr.RelationName = k → P tr ∨ tr.MarkName = "one2many") →
    ((∃ v, mapGet k m = some v ∧ P v) ∨
      ((mapGet k m = none ∨ ∃ old, mapGet k m = some old ∧ old.MarkName = "one2many") ∧
        ∃ tr ∈ trl, tr.SourceName ++ tr.RelationName = k ∧ P tr)) →
    ∃ v, mapGet k (dedupLoop m trl) = some v ∧ P v
  | [], m, _, h => by
    rcases h with h | ⟨_, tr, htr, _⟩
    · exact h
    · cases htr
  | tr :: rest, m, hall, h => by
    simp only [dedupLoop, List.foldl_cons]
    apply dedupLoop_sticky k P hP rest (dedupStep m tr)
    · intro tr' htr'
      exact hall tr' (List.mem_cons_of_mem _ htr')
    · rw [dedupStep_get]
      by_cases hk : tr.SourceName ++ tr.RelationName = k
      · rw [if_pos hk]
        rcases h with ⟨v, hv, hPv⟩ | ⟨hm, tr', htr', hk', hP'⟩
        · left
          rw [hv]
          simp only [hP v hPv, if_false]
          exact ⟨v, rfl, hPv⟩
        · have hcur : (match mapGet k m with
              | some old => if old.MarkName = "one2many" then some tr else some old
              | none => some tr) = some tr := by
            rcases hm with hm | ⟨old, hm, ho⟩
            · rw [hm]
            · rw [hm]
              simp only [ho, if_true]
          rw [hcur]
          rcases hall tr (List.mem_cons_self _ _) hk with hPt | hmany
          · exact Or.inl ⟨tr, rfl, hPt⟩
          · right
            refine ⟨Or.inr ⟨tr, rfl, hmany⟩, ?_⟩
            rcases List.mem_cons.mp htr' with rfl | htr'
            · exact absurd hmany (hP _ hP')
            · exact ⟨tr', htr', hk', hP'⟩
      · rw [if_neg hk]
        rcases h with h | ⟨hm, tr', htr', hk', hP'⟩
        · exact Or.inl h
        · right
          refine ⟨hm, ?_⟩
          rcases List.mem_cons.mp htr' with rfl | htr'
          · exact absurd hk' hk
          · exact ⟨tr', htr', hk', hP'⟩

theorem dedupStep_mem (m : List (String × TableRelation)) (tr : TableRelation)
    (e : String × TableRelation) (h : e ∈ dedupStep m tr) :
    e ∈ m ∨ e = (tr.SourceName ++ tr.RelationName, tr) := by
  unfold dedupStep at h
  split at h
  · split at h
    · exact (mem_mapSet _ _ _ _ h).symm
    · exact Or.inl h
  · exact (mem_mapSet _ _ _ _ h).symm

theorem dedupStep_nodup (m : List (String × TableRelation)) (tr : TableRelation)
    (h : (m.map Prod.fst).Nodup) : ((dedupStep m tr).map Prod.fst).Nodup := by
  unfold dedupStep
  split
  · split
    · exact nodup_mapSet _ _ _ h
    · exact h
  · exact nodup_mapSet _ _ _ h

theorem dedupLoop_mem :
    ∀ (trl : List TableRelation) (m : List (String × TableRelation))
      (e : String × TableRelation),
    e ∈ dedupLoop m trl → e ∈ m ∨ (e.2 ∈ trl ∧ e.1 = e.2.SourceName ++ e.2.RelationName)
  | [], _, _, h => Or.inl h
  | tr :: rest, m, e, h => by
    simp only [dedupLoop, List.foldl_cons] at h
    rcases dedupLoop_mem rest (dedupStep m tr) e h with h1 | h1
    · rcases dedupStep_mem m tr e h1 with h2 | h2
      · exact Or.inl h2
      · subst h2
        exact Or.inr ⟨List.mem_cons_self _ _, rfl⟩
    · exact Or.inr ⟨List.mem_cons_of_mem _ h1.1, h1.2⟩

theorem dedupLoop_nodup :
    ∀ (trl : List TableRelation) (m : List (String × TableRelation)),
    (m.map Prod.fst).Nodup → ((dedupLoop m trl).map Prod.fst).Nodup
  | [], _, h => h
  | tr :: rest, m, h => by
    simp only [dedupLoop, List.foldl_cons]
    exact dedupLoop_nodup rest (dedupStep m tr) (dedupStep_nodup m tr h)
/-! ## Lemmas on the reverse and the forward pass -/

theorem rcol_column (tr : TableRelation) (d : Int) :
    (GetRelationColumns.rcol tr d).Tag.Column = "" := by
  unfold GetRelationColumns.rcol
  simp only
  repeat' split
  all_goals rfl

theorem rcol_isNeed (tr : TableRelation) (d : Int) :
    (GetRelationColumns.rcol tr d).IsNeed = true := by
  unfold GetRelationColumns.rcol
  simp only
  repeat' split
  all_goals rfl

theorem reverseTable_spec :
    ∀ (es : List (String × TableRelation)) (tb : Table) (ctl : List TableRelation),
    (reverseTable es tb ctl).1.Name = tb.Name ∧
    (reverseTable es tb ctl).1.Pk = tb.Pk ∧
    (∀ c, c ∈ (reverseTable es tb ctl).1.Columns ↔
      c ∈ tb.Columns ∨ ∃ e ∈ es, tb.Name = e.2.RelationName ∧
        Strings.Contains e.2.SourceName "_has_" = false ∧
        c = GetRelationColumns.rcol e.2 (-1)) ∧
    (∀ t, t ∈ (reverseTable es tb ctl).2 ↔
      t ∈ ctl ∨ ∃ e ∈ es, tb.Name = e.2.RelationName ∧ t = { e.2 with IsCorrect := true })
  | [], tb, ctl => by simp [reverseTable]
  | (k, tr) :: rest, tb, ctl => by
    by_cases hn : tb.Name = tr.RelationName
    · cases hj : Strings.Contains tr.SourceName "_has_" with
      | false =>
        obtain ⟨h1, h2, h3, h4⟩ := reverseTable_spec rest (GetRelationColumns tb tr (-1))
          (ctl ++ [{ tr with IsCorrect := true }])
        simp only [reverseTable, hn, hj, if_true, Bool.not_false]
        have g1 : (GetRelationColumns tb tr (-1)).Name = tb.Name := rfl
        have g2 : (GetRelationColumns tb tr (-1)).Pk = tb.Pk := rfl
        have g3 : (GetRelationColumns tb tr (-1)).Columns =
            tb.Columns ++ [GetRelationColumns.rcol tr (-1)] := rfl
        rw [g1] at h1
        rw [g2] at h2
        simp only [g1, g3] at h3 h4
        simp only [hn] at h1 h3 h4
        refine ⟨h1, h2, ?_, ?_⟩
        · intro c
          rw [h3 c]
          simp only [List.mem_append, List.mem_singleton, List.mem_cons, exists_eq_or_imp,
            hj, true_and]
          tauto
        · intro t
          rw [h4 t]
          simp only [List.mem_append, List.mem_singleton, List.mem_cons, exists_eq_or_imp,
            true_and]
          tauto
      | true =>
        obtain ⟨h1, h2, h3, h4⟩ := reverseTable_spec rest tb
          (ctl ++ [{ tr with IsCorrect := true }])
        simp only [reverseTable, hn, hj, if_true, Bool.not_true, Bool.false_eq_true, if_false]
        simp only [hn] at h1 h2 h3 h4
        refine ⟨h1, h2, ?_, ?_⟩
        · intro c
          rw [h3 c]
          simp only [List.mem_cons, exists_eq_or_imp, hj, Bool.true_eq_false, false_and,
            and_false, false_or]
        · intro t
          rw [h4 t]
          simp only [List.mem_append, List.mem_singleton, List.mem_cons, exists_eq_or_imp,
            true_and]
          tauto
    · obtain ⟨h1, h2, h3, h4⟩ := reverseTable_spec rest tb ctl
      simp only [reverseTable, hn, if_false]
      refine ⟨h1, h2, ?_, ?_⟩
      · intro c
        rw [h3 c]
        simp only [List.mem_cons, exists_eq_or_imp, hn, false_and, false_or]
      · intro t
        rw [h4 t]
        simp only [List.mem_cons, exists_eq_or_imp, hn, false_and, false_or]

theorem reverseLoop_spec (o : RangeOrder) (m : List (String × TableRelation)) :
    ∀ (tbs : List Table) (i : Nat) (ctl : List TableRelation),
    (reverseLoop o m i tbs ctl).1.map (fun tb => tb.Name) = tbs.map (fun tb => tb.Name) ∧
    (∀ tb' ∈ (reverseLoop o m i tbs ctl).1, ∃ tb ∈ tbs, tb'.Name = tb.Name ∧ tb'.Pk = tb.Pk ∧
      ∀ c, c ∈ tb'.Columns ↔
        c ∈ tb.Columns ∨ ∃ e ∈ m, tb.Name = e.2.RelationName ∧
          Strings.Contains e.2.SourceName "_has_" = false ∧
          c = GetRelationColumns.rcol e.2 (-1)) ∧
    (∀ t, t ∈ (reverseLoop o m i tbs ctl).2 ↔
      t ∈ ctl ∨ ∃ e ∈ m, e.2.RelationName ∈ tbs.map (fun tb => tb.Name) ∧
        t = { e.2 with IsCorrect := true })
  | [], i, ctl => by simp [reverseLoop]
  | tb :: rest, i, ctl => by
    obtain ⟨a1, a2, a3, a4⟩ := reverseTable_spec (o.visit i m) tb ctl
    obtain ⟨b1, b2, b3⟩ := reverseLoop_spec o m rest (i + 1)
      (reverseTable (o.visit i m) tb ctl).2
    have hp : ∀ e, e ∈ o.visit i m ↔ e ∈ m := fun e => (o.perm i m).mem_iff
    simp only [reverseLoop]
    refine ⟨?_, ?_, ?_⟩
    · simp only [List.map_cons, a1, b1]
    · intro tb' htb'
      rcases List.mem_cons.mp htb' with rfl | htb'
      · refine ⟨tb, List.mem_cons_self _ _, a1, a2, ?_⟩
        intro c
        rw [a3 c]
        simp only [hp]
      · obtain ⟨tb0, h0, hs⟩ := b2 tb' htb'
        exact ⟨tb0, List.mem_cons_of_mem _ h0, hs⟩
    · intro t
      rw [b3 t, a4 t]
      simp only [hp, List.map_cons, List.mem_cons]
      constructor
      · rintro ((h | ⟨e, he, hn, ht⟩) | ⟨e, he, hn, ht⟩)
        · exact Or.inl h
        · exact Or.inr ⟨e, he, Or.inl hn.symm, ht⟩
        · exact Or.inr ⟨e, he, Or.inr hn, ht⟩
      · rintro (h | ⟨e, he, hn | hn, ht⟩)
        · exact Or.inl (Or.inl h)
        · exact Or.inl (Or.inr ⟨e, he, hn.symm, ht⟩)
        · exact Or.inr ⟨e, he, hn, ht⟩
theorem suppressedBy_cons (tr : TableRelation) (rest : List TableRelation) (name : String)
    (c : Column) :
    suppressedBy (tr :: rest) name c =
      (decide (name = tr.SourceName ∧ tr.IsCorrect = true ∧
        c.Tag.Column = tr.RelationName ++ "_id") || suppressedBy rest name c) := by
  simp [suppressedBy]

theorem suppressedBy_iff (ctl : List TableRelation) (name : String) (c : Column) :
    suppressedBy ctl name c = true ↔
      ∃ tr ∈ ctl, name = tr.SourceName ∧ tr.IsCorrect = true ∧
        c.Tag.Column = tr.RelationName ++ "_id" := by
  simp [suppressedBy]

theorem suppressedBy_rcol (ctl : List TableRelation) (name : String) (tr : TableRelation)
    (d : Int) : suppressedBy ctl name (GetRelationColumns.rcol tr d) = false := by
  cases h : suppressedBy ctl name (GetRelationColumns.rcol tr d) with
  | false => rfl
  | true =>
    obtain ⟨tr', _, _, _, hc⟩ := (suppressedBy_iff _ _ _).mp h
    rw [rcol_column] at hc
    exact absurd hc (empty_ne_append_id _)

theorem afterForward_rcol (ctl : List TableRelation) (name : String) (tr : TableRelation)
    (d : Int) :
    afterForward ctl name (GetRelationColumns.rcol tr d) = GetRelationColumns.rcol tr d := by
  unfold afterForward
  rw [suppressedBy_rcol]
  rfl

theorem afterForward_cons_match (tr : TableRelation) (rest : List TableRelation)
    (name : String) (c : Column) (hm : name = tr.SourceName ∧ tr.IsCorrect = true) :
    afterForward rest name
        (if c.Tag.Column = tr.RelationName ++ "_id" then { c with IsNeed := false } else c) =
      afterForward (tr :: rest) name c := by
  by_cases hc : c.Tag.Column = tr.RelationName ++ "_id"
  · have h1 : suppressedBy (tr :: rest) name c = true := by
      rw [suppressedBy_cons]
      simp only [hc, hm, and_self, decide_True, Bool.true_or]
    have h2 : afterForward rest name { c with IsNeed := false } = { c with IsNeed := false } := by
      unfold afterForward
      split <;> rfl
    rw [if_pos hc, h2]
    unfold afterForward
    rw [h1]
    rfl
  · have h1 : suppressedBy (tr :: rest) name c = suppressedBy rest name c := by
      rw [suppressedBy_cons]
      simp only [hc, and_false, decide_False, Bool.false_or]
    rw [if_neg hc]
    unfold afterForward
    rw [h1]

theorem afterForward_cons_skip (tr : TableRelation) (rest : List TableRelation)
    (name : String) (c : Column) (hm : ¬ (name = tr.SourceName ∧ tr.IsCorrect = true)) :
    afterForward (tr :: rest) name c = afterForward rest name c := by
  unfold afterForward
  rw [suppressedBy_cons]
  have : decide (name = tr.SourceName ∧ tr.IsCorrect = true ∧
      c.Tag.Column = tr.RelationName ++ "_id") = false := by
    apply decide_eq_false
    intro h
    exact hm ⟨h.1, h.2.1⟩
  rw [this, Bool.false_or]

theorem forwardTable_cons_match (tr : TableRelation) (rest : List TableRelation) (tb : Table)
    (hm : tb.Name = tr.SourceName ∧ tr.IsCorrect = true) :
    forwardTable (tr :: rest) tb =
      forwardTable rest
        { Name := tb.Name, Pk := tb.Pk, Uk := tb.Uk, Fk := tb.Fk,
          Columns := suppressId tr.RelationName (tb.Columns ++ [GetRelationColumns.rcol tr 1]),
          Comments := tb.Comments, ImportTimePkg := tb.ImportTimePkg,
          Relation := tb.Relation ++ [(GetRelationColumns.rcol tr 1).Name] } := by
  simp only [forwardTable, hm, and_self, if_true, GetRelationColumns]

theorem forwardTable_cons_skip (tr : TableRelation) (rest : List TableRelation) (tb : Table)
    (hm : ¬ (tb.Name = tr.SourceName ∧ tr.IsCorrect = true)) :
    forwardTable (tr :: rest) tb = forwardTable rest tb := by
  simp only [forwardTable, hm, if_false]

theorem forwardTable_spec :
    ∀ (ctl : List TableRelation) (tb : Table),
    (forwardTable ctl tb).Name = tb.Name ∧ (forwardTable ctl tb).Pk = tb.Pk ∧
    ∀ c', c' ∈ (forwardTable ctl tb).Columns ↔
      (∃ c ∈ tb.Columns, c' = afterForward ctl tb.Name c) ∨
      (∃ tr ∈ ctl, tb.Name = tr.SourceName ∧ tr.IsCorrect = true ∧
        c' = GetRelationColumns.rcol tr 1)
  | [], tb => by
    refine ⟨rfl, rfl, ?_⟩
    intro c'
    simp [forwardTable, afterForward, suppressedBy]
  | tr :: rest, tb => by
    by_cases hm : tb.Name = tr.SourceName ∧ tr.IsCorrect = true
    · obtain ⟨h1, h2, h3⟩ := forwardTable_spec rest
        { Name := tb.Name, Pk := tb.Pk, Uk := tb.Uk, Fk := tb.Fk,
          Columns := suppressId tr.RelationName (tb.Columns ++ [GetRelationColumns.rcol tr 1]),
          Comments := tb.Comments, ImportTimePkg := tb.ImportTimePkg,
          Relation := tb.Relation ++ [(GetRelationColumns.rcol tr 1).Name] }
      rw [forwardTable_cons_match tr rest tb hm]
      refine ⟨h1, h2, ?_⟩
      intro c'
      rw [h3 c']
      have hr : (if (GetRelationColumns.rcol tr 1).Tag.Column = tr.RelationName ++ "_id"
          then { GetRelationColumns.rcol tr 1 with IsNeed := false }
          else GetRelationColumns.rcol tr 1) = GetRelationColumns.rcol tr 1 := by
        rw [rcol_column, if_neg (empty_ne_append_id _)]
      simp only [suppressId, List.map_append, List.map_cons, List.map_nil,
        List.mem_append, List.mem_map, List.mem_singleton, List.mem_cons, exists_eq_or_imp, hr,
        List.not_mem_nil, or_false]
      constructor
      · rintro (⟨c, hc, rfl⟩ | h)
        · rcases hc with ⟨c0, hc0, rfl⟩ | rfl
          · left
            exact ⟨c0, hc0, afterForward_cons_match tr rest tb.Name c0 hm⟩
          · right
            left
            rw [afterForward_rcol]
            exact ⟨hm.1, hm.2, rfl⟩
        · exact Or.inr (Or.inr h)
      · rintro (⟨c0, hc0, rfl⟩ | ⟨_, _, rfl⟩ | h)
        · left
          exact ⟨_, Or.inl ⟨c0, hc0, rfl⟩, (afterForward_cons_match tr rest tb.Name c0 hm).symm⟩
        · left
          refine ⟨_, Or.inr rfl, ?_⟩
          rw [afterForward_rcol]
        · exact Or.inr h
    · obtain ⟨h1, h2, h3⟩ := forwardTable_spec rest tb
      rw [forwardTable_cons_skip tr rest tb hm]
      refine ⟨h1, h2, ?_⟩
      intro c'
      rw [h3 c']
      simp only [List.mem_cons, exists_eq_or_imp, afterForward_cons_skip tr rest tb.Name _ hm]
      constructor
      · rintro (h | h)
        · exact Or.inl h
        · exact Or.inr (Or.inr h)
      · rintro (h | ⟨h, h', _⟩ | h)
        · exact Or.inl h
        · exact absurd ⟨h, h'⟩ hm
        · exact Or.inr h
/-! ## The result of `getTableObjects` in a fresh process -/

theorem scanTables_spec (db : Catalog) (tbs1 : List Table) (trl : List TableRelation)
    (h : scanTables Globals.initial db = some (tbs1, trl)) :
    trl = db.tableNames.flatMap (tableRelations db) ∧
    tbs1.map (fun tb => tb.Name) = db.tableNames ∧
    ∀ tb1 ∈ tbs1,
      (∃ bl0, tb1.Pk = (GetConstraints db (newTable db tb1.Name) bl0).1.Pk ∧
        tb1.Fk = (GetConstraints db (newTable db tb1.Name) bl0).1.Fk) ∧
      ∀ c, c ∈ tb1.Columns ↔ ∃ r ∈ db.columnRows tb1.Name,
        Scanned tb1.Name tb1.Pk tb1.Fk (constraintsLoop db db.tableNames []).2 r c := by
  unfold scanTables at h
  simp only at h
  obtain ⟨e1, e2, e3⟩ := columnsLoop_spec db _ _ _ _ _ h
  obtain ⟨c1, c2⟩ := constraintsLoop_spec db db.tableNames []
  refine ⟨?_, ?_, ?_⟩
  · rw [e1, c1]
    rfl
  · rw [e2, c1]
  · intro tb1 h1
    obtain ⟨tb0, h0, hn, hp, hf, cols, hc, ha, hb⟩ := e3 tb1 h1
    obtain ⟨bl0, hbl⟩ := c2 tb0 h0
    have hcol0 : tb0.Columns = [] := by
      rw [hbl, (GetConstraints_fixed db _ bl0).2]
      rfl
    rw [hcol0, List.nil_append] at hc
    refine ⟨⟨bl0, ?_, ?_⟩, ?_⟩
    · rw [hp, hn]
      exact congrArg Table.Pk hbl
    · rw [hf, hn]
      exact congrArg Table.Fk hbl
    · intro c
      rw [hc, hn, hp, hf]
      constructor
      · intro hcc
        exact ha c hcc
      · rintro ⟨r, hr, hs⟩
        exact hb r hr c hs

theorem getTableObjects_spec (o : RangeOrder) (db : Catalog) (tables : List Table)
    (g : Globals) (h : getTableObjects o Globals.initial db = some (tables, g)) :
    ∃ tbs1,
      scanTables Globals.initial db = some (tbs1, g.trlist) ∧
      g.trmap = dedupLoop [] g.trlist ∧
      tables.map (fun tb => tb.Name) = db.tableNames ∧
      (∀ t, t ∈ g.correcttrlist ↔
        ∃ e ∈ g.trmap, e.2.RelationName ∈ db.tableNames ∧ t = { e.2 with IsCorrect := true }) ∧
      ∀ tb ∈ tables, ∃ tb1 ∈ tbs1, tb.Name = tb1.Name ∧ tb.Pk = tb1.Pk ∧
        ∀ c, c ∈ tb.Columns ↔
          (∃ c1 ∈ tb1.Columns, c = afterForward g.correcttrlist tb.Name c1) ∨
          (∃ e ∈ g.trmap, tb.Name = e.2.RelationName ∧
            Strings.Contains e.2.SourceName "_has_" = false ∧
            c = GetRelationColumns.rcol e.2 (-1)) ∨
          (∃ tr ∈ g.correcttrlist, tb.Name = tr.SourceName ∧
            c = GetRelationColumns.rcol tr 1) := by
  unfold getTableObjects at h
  split at h
  · cases h
  · rename_i tbs1 trl hscan
    simp only [Option.some.injEq, Prod.mk.injEq] at h
    obtain ⟨ht, hg⟩ := h
    subst hg
    subst ht
    obtain ⟨s1, s2, s3⟩ := scanTables_spec db tbs1 trl hscan
    obtain ⟨r1, r2, r3⟩ := reverseLoop_spec o (dedupLoop Globals.initial.trmap trl) tbs1 0
      Globals.initial.correcttrlist
    have hctl : ∀ t, t ∈ (reverseLoop o (dedupLoop Globals.initial.trmap trl) 0 tbs1
        Globals.initial.correcttrlist).2 ↔
        ∃ e ∈ dedupLoop Globals.initial.trmap trl, e.2.RelationName ∈ db.tableNames ∧
          t = { e.2 with IsCorrect := true } := by
      intro t
      rw [r3 t, s2]
      simp [Globals.initial]
    have hcorrect : ∀ t ∈ (reverseLoop o (dedupLoop Globals.initial.trmap trl) 0 tbs1
        Globals.initial.correcttrlist).2, t.IsCorrect = true := by
      intro t ht
      obtain ⟨e, _, _, rfl⟩ := (hctl t).mp ht
      rfl
    refine ⟨tbs1, hscan, rfl, ?_, hctl, ?_⟩
    · simp only [forwardLoop, List.map_map]
      rw [← s2, ← r1]
      apply List.map_congr_left
      intro tb _
      exact (forwardTable_spec _ tb).1
    · intro tb htb
      simp only [forwardLoop, List.mem_map] at htb
      obtain ⟨tb2, h2, rfl⟩ := htb
      obtain ⟨tb1, h1, hn, hp, hc⟩ := r2 tb2 h2
      obtain ⟨f1, f2, f3⟩ := forwardTable_spec
        (reverseLoop o (dedupLoop Globals.initial.trmap trl) 0 tbs1
          Globals.initial.correcttrlist).2 tb2
      refine ⟨tb1, h1, f1.trans hn, f2.trans hp, ?_⟩
      intro c
      rw [f3 c, f1]
      constructor
      · rintro (⟨c2, hc2, rfl⟩ | ⟨tr, htr, hs, _, rfl⟩)
        · rcases (hc c2).mp hc2 with hc2 | ⟨e, he, hr, hj, rfl⟩
          · exact Or.inl ⟨c2, hc2, rfl⟩
          · right
            left
            rw [afterForward_rcol]
            exact ⟨e, he, hn.trans hr, hj, rfl⟩
        · exact Or.inr (Or.inr ⟨tr, htr, hs, rfl⟩)
      · rintro (⟨c1, hc1, rfl⟩ | ⟨e, he, hr, hj, rfl⟩ | ⟨tr, htr, hs, rfl⟩)
        · exact Or.inl ⟨c1, (hc c1).mpr (Or.inl hc1), rfl⟩
        · left
          refine ⟨_, (hc _).mpr (Or.inr ⟨e, he, hn.symm.trans hr, hj, rfl⟩), ?_⟩
          rw [afterForward_rcol]
        · exact Or.inr ⟨tr, htr, hs, hcorrect tr htr, rfl⟩
theorem GetColumns.row_ok (bl : List String) (st st' : Table × List TableRelation)
    (r : ColumnRow) (h : GetColumns.row bl st r = some st') :
    RowOk st.1.Pk st.1.Fk bl r := by
  unfold GetColumns.row at h
  simp only at h
  split at h
  · cases h
  · rename_i ty hty
    split at h
    · cases h
    · rename_i col tag imp hk
      exact ⟨ty, col, tag, imp, hty, hk⟩

theorem GetColumns.rows_ok (bl : List String) :
    ∀ (rows : List ColumnRow) (st st' : Table × List TableRelation),
    GetColumns.rows bl rows st = some st' → ∀ r ∈ rows, RowOk st.1.Pk st.1.Fk bl r
  | [], _, _, _ => by simp
  | r :: rs, st, st', h => by
    simp only [GetColumns.rows] at h
    split at h
    · cases h
    · rename_i st1 h1
      obtain ⟨_, p1, f1, _⟩ := GetColumns.row_spec bl st st1 r h1
      intro r' hr'
      rcases List.mem_cons.mp hr' with rfl | hr'
      · exact GetColumns.row_ok bl st st1 _ h1
      · have := GetColumns.rows_ok bl rs st1 st' h r' hr'
        rw [p1, f1] at this
        exact this

theorem columnsLoop_ok (db : Catalog) (bl : List String) :
    ∀ (tbs : List Table) (trl : List TableRelation) (tbs' : List Table)
      (trl' : List TableRelation),
    columnsLoop db bl tbs trl = some (tbs', trl') →
    ∀ tb ∈ tbs, ∀ r ∈ db.columnRows tb.Name, RowOk tb.Pk tb.Fk bl r
  | [], _, _, _, _ => by simp
  | tb :: rest, trl, tbs', trl', h => by
    simp only [columnsLoop] at h
    split at h
    · cases h
    · rename_i tb1 trl1 h1
      split at h
      · cases h
      · rename_i tbs2 trl2 h2
        intro tb0 h0
        rcases List.mem_cons.mp h0 with rfl | h0
        · exact GetColumns.rows_ok bl _ _ _ h1
        · exact columnsLoop_ok db bl rest trl1 tbs2 trl2 h2 tb0 h0

theorem scanTables_ok (db : Catalog) (tbs1 : List Table) (trl : List TableRelation)
    (h : scanTables Globals.initial db = some (tbs1, trl)) :
    ∀ tb1 ∈ tbs1, ∀ r ∈ db.columnRows tb1.Name,
      RowOk tb1.Pk tb1.Fk (constraintsLoop db db.tableNames []).2 r := by
  unfold scanTables at h
  simp only at h
  obtain ⟨_, _, e3⟩ := columnsLoop_spec db _ _ _ _ _ h
  intro tb1 h1 r hr
  obtain ⟨tb0, h0, hn, hp, hf, _⟩ := e3 tb1 h1
  rw [hn] at hr
  rw [hp, hf]
  exact columnsLoop_ok db _ _ _ _ _ h tb0 h0 r hr

/-! ## The relations found by the column scan -/

theorem joinRelations_cases (name : String) :
    joinRelations name = [] ∨ joinRelations name = [manyToManyOf name] := by
  unfold joinRelations GetColumns.joinTable
  split
  · right
    rfl
  · left
    rfl

theorem joinRelations_join (name : String) (hj : Strings.Contains name "_has_" = true)
    (hl : len name > 5) : joinRelations name = [manyToManyOf name] := by
  unfold joinRelations GetColumns.joinTable
  simp only [hj, hl, decide_True, Bool.and_self, if_true, List.nil_append]
  rfl

theorem tableRelations_discovered (db : Catalog) (name : String) :
    ∀ tr ∈ tableRelations db name, Discovered tr := by
  intro tr htr
  unfold tableRelations at htr
  rcases List.mem_append.mp htr with h | h
  · rcases joinRelations_cases name with e | e
    · rw [e] at h
      cases h
    · rw [e, List.mem_singleton] at h
      exact Or.inl ⟨name, h⟩
  · obtain ⟨r, _, hr⟩ := List.mem_filterMap.mp h
    exact (rowRelation_discovered _ _ _ hr).1

theorem scanned_discovered (db : Catalog) :
    ∀ tr ∈ db.tableNames.flatMap (tableRelations db), Discovered tr := by
  intro tr htr
  obtain ⟨n, _, hn⟩ := List.mem_flatMap.mp htr
  exact tableRelations_discovered db n tr hn

theorem scanned_row (db : Catalog) (name : String) (r : ColumnRow) (tr : TableRelation)
    (hn : name ∈ db.tableNames) (hr : r ∈ db.columnRows name)
    (h : rowRelation name r.colName = some tr) :
    tr ∈ db.tableNames.flatMap (tableRelations db) := by
  apply List.mem_flatMap.mpr
  refine ⟨name, hn, ?_⟩
  unfold tableRelations
  exact List.mem_append_right _ (List.mem_filterMap.mpr ⟨r, hr, h⟩)

theorem scanned_join (db : Catalog) (name : String) (hn : name ∈ db.tableNames)
    (hj : Strings.Contains name "_has_" = true) (hl : len name > 5) :
    manyToManyOf name ∈ db.tableNames.flatMap (tableRelations db) := by
  apply List.mem_flatMap.mpr
  refine ⟨name, hn, ?_⟩
  unfold tableRelations
  rw [joinRelations_join name hj hl]
  exact List.mem_append_left _ (List.mem_singleton.mpr rfl)

theorem Discovered.one2many {tr : TableRelation} (h : Discovered tr)
    (hm : tr.MarkName = "one2many") (hj : Strings.Contains tr.SourceName "_has_" = false) :
    tr = oneToManyOf tr.SourceName tr.RelationName := by
  rcases h with ⟨j, rfl⟩ | ⟨src, rel, _, rfl | rfl⟩ | ⟨src, rel, hs, rfl⟩
  · simp [manyToManyOf] at hm
  · simp [oneToOneOf] at hm
  · rfl
  · simp only [joinColumnOf] at hj
    rw [hs] at hj
    cases hj

theorem Discovered.not_m2m {tr : TableRelation} (h : Discovered tr)
    (hm : tr.MarkName ≠ "m2m") (hj : Strings.Contains tr.SourceName "_has_" = false) :
    tr = oneToOneOf tr.SourceName tr.RelationName ∨
    tr = oneToManyOf tr.SourceName tr.RelationName := by
  rcases h with ⟨j, rfl⟩ | ⟨src, rel, _, rfl | rfl⟩ | ⟨src, rel, hs, rfl⟩
  · exact absurd rfl hm
  · exact Or.inl rfl
  · exact Or.inr rfl
  · simp only [joinColumnOf] at hj
    rw [hs] at hj
    cases hj
/-! ## What a confirmed relation does to the tables -/

theorem rcol_correct (tr : TableRelation) (d : Int) :
    GetRelationColumns.rcol { tr with IsCorrect := true } d = GetRelationColumns.rcol tr d :=
  rfl

theorem afterForward_tag (ctl : List TableRelation) (name : String) (c : Column) :
    (afterForward ctl name c).Tag = c.Tag ∧ (afterForward ctl name c).Name = c.Name ∧
    (afterForward ctl name c).Typ = c.Typ := by
  unfold afterForward
  split
  · exact ⟨rfl, rfl, rfl⟩
  · exact ⟨rfl, rfl, rfl⟩

theorem confirmed_forward (o : RangeOrder) (db : Catalog) (tables : List Table) (g : Globals)
    (hrun : getTableObjects o Globals.initial db = some (tables, g))
    (k : String) (tr : TableRelation) (he : (k, tr) ∈ g.trmap)
    (hx : tr.RelationName ∈ db.tableNames) :
    ∀ tb ∈ tables, tb.Name = tr.SourceName →
      GetRelationColumns.rcol tr 1 ∈ tb.Columns ∧
      ∀ c ∈ tb.Columns, c.Tag.Column = tr.RelationName ++ "_id" → c.IsNeed = false := by
  obtain ⟨tbs1, _, _, _, hctl, htabs⟩ := getTableObjects_spec o db tables g hrun
  have hc : ({ tr with IsCorrect := true } : TableRelation) ∈ g.correcttrlist :=
    (hctl _).mpr ⟨(k, tr), he, hx, rfl⟩
  intro tb htb hn
  obtain ⟨tb1, _, _, _, hcols⟩ := htabs tb htb
  refine ⟨(hcols _).mpr (Or.inr (Or.inr ⟨_, hc, hn, rfl⟩)), ?_⟩
  intro c hcm hcol
  rcases (hcols c).mp hcm with ⟨c1, _, rfl⟩ | ⟨e, _, _, _, rfl⟩ | ⟨t, _, _, rfl⟩
  · rw [(afterForward_tag _ _ _).1] at hcol
    have hs : suppressedBy g.correcttrlist tb.Name c1 = true :=
      (suppressedBy_iff _ _ _).mpr ⟨_, hc, hn, rfl, hcol⟩
    unfold afterForward
    rw [hs]
    rfl
  · rw [rcol_column] at hcol
    exact absurd hcol (empty_ne_append_id _)
  · rw [rcol_column] at hcol
    exact absurd hcol (empty_ne_append_id _)

theorem confirmed_reverse (o : RangeOrder) (db : Catalog) (tables : List Table) (g : Globals)
    (hrun : getTableObjects o Globals.initial db = some (tables, g))
    (k : String) (tr : TableRelation) (he : (k, tr) ∈ g.trmap)
    (hj : Strings.Contains tr.SourceName "_has_" = false) :
    ∀ tb ∈ tables, tb.Name = tr.RelationName →
      GetRelationColumns.rcol tr (-1) ∈ tb.Columns := by
  obtain ⟨tbs1, _, _, _, _, htabs⟩ := getTableObjects_spec o db tables g hrun
  intro tb htb hn
  obtain ⟨tb1, _, _, _, hcols⟩ := htabs tb htb
  exact (hcols _).mpr (Or.inr (Or.inl ⟨(k, tr), he, hn, hj, rfl⟩))

theorem trmap_entry_of_all (o : RangeOrder) (db : Catalog) (tables : List Table) (g : Globals)
    (hrun : getTableObjects o Globals.initial db = some (tables, g))
    (k : String) (a : TableRelation) (ha : a ∈ g.trlist)
    (hk : a.SourceName ++ a.RelationName = k)
    (hall : ∀ tr ∈ g.trlist, tr.SourceName ++ tr.RelationName = k → tr = a) :
    (k, a) ∈ g.trmap := by
  obtain ⟨tbs1, _, hmap, _⟩ := getTableObjects_spec o db tables g hrun
  rw [hmap]
  obtain ⟨v, hv⟩ := dedupLoop_get_some k g.trlist [] (Or.inr ⟨a, ha, hk⟩)
  rcases dedupLoop_get_mem k g.trlist [] v hv with h | ⟨h1, h2⟩
  · simp [mapGet] at h
  · rw [hall v h1 h2] at hv
    exact mem_of_mapGet _ _ _ hv

theorem trmap_entry_of_sticky (o : RangeOrder) (db : Catalog) (tables : List Table)
    (g : Globals) (hrun : getTableObjects o Globals.initial db = some (tables, g))
    (k : String) (a : TableRelation) (ha : a ∈ g.trlist)
    (hk : a.SourceName ++ a.RelationName = k) (hm : a.MarkName ≠ "one2many")
    (hall : ∀ tr ∈ g.trlist, tr.SourceName ++ tr.RelationName = k →
      tr = a ∨ tr.MarkName = "one2many") :
    mapGet k g.trmap = some a ∧ (k, a) ∈ g.trmap := by
  obtain ⟨tbs1, _, hmap, _⟩ := getTableObjects_spec o db tables g hrun
  rw [hmap]
  obtain ⟨v, hv, rfl⟩ := dedupLoop_sticky k (fun tr => tr = a) (fun tr e => e ▸ hm)
    g.trlist [] hall (Or.inr ⟨Or.inl rfl, a, ha, hk, rfl⟩)
  exact ⟨hv, mem_of_mapGet _ _ _ hv⟩

theorem trlist_scanned (o : RangeOrder) (db : Catalog) (tables : List Table) (g : Globals)
    (hrun : getTableObjects o Globals.initial db = some (tables, g)) :
    g.trlist = db.tableNames.flatMap (tableRelations db) := by
  obtain ⟨tbs1, hscan, _⟩ := getTableObjects_spec o db tables g hrun
  exact (scanTables_spec db tbs1 g.trlist hscan).1
theorem freshRun_eq (db : Catalog) (h : (freshRun db).isSome = true) :
    getTableObjects RangeOrder.insertion Globals.initial db =
      some (tablesOf (freshRun db), globalsOf (freshRun db)) := by
  unfold freshRun at h ⊢
  cases hr : getTableObjects RangeOrder.insertion Globals.initial db with
  | none =>
    rw [hr] at h
    cases h
  | some p => rfl

theorem scanned_column_id (o : RangeOrder) (db : Catalog) (tables : List Table) (g : Globals)
    (hrun : getTableObjects o Globals.initial db = some (tables, g))
    (tb : Table) (htb : tb ∈ tables) (hj : Strings.Contains tb.Name "_has_" = false)
    (r : ColumnRow) (hr : r ∈ db.columnRows tb.Name) (x : String)
    (hcol : r.colName = x ++ "_id") :
    ∃ pk fk bl c1, Scanned tb.Name pk fk bl r c1 ∧
      afterForward g.correcttrlist tb.Name c1 ∈ tb.Columns ∧
      ∃ bl0, pk = (GetConstraints db (newTable db tb.Name) bl0).1.Pk ∧
        fk = (GetConstraints db (newTable db tb.Name) bl0).1.Fk := by
  obtain ⟨tbs1, hscan, _, _, _, htabs⟩ := getTableObjects_spec o db tables g hrun
  obtain ⟨tb1, h1, hn, _, hcols⟩ := htabs tb htb
  obtain ⟨_, _, s3⟩ := scanTables_spec db tbs1 g.trlist hscan
  obtain ⟨⟨bl0, hp, hf⟩, hsc⟩ := s3 tb1 h1
  rw [hn] at hr hj hcols ⊢
  obtain ⟨ty, col, tag, imp, hty, hk⟩ := scanTables_ok db tbs1 g.trlist hscan tb1 h1 r hr
  have hneed := convention_need_id tb1.Name x (GetColumns.initialRelation tb1.Name) col hj
  rw [← hcol] at hneed
  have hS : Scanned tb1.Name tb1.Pk tb1.Fk (constraintsLoop db db.tableNames []).2 r
      { (GetColumns.convention tb1.Name r.colName
          (GetColumns.initialRelation tb1.Name) col).2.2 with Tag := tag } :=
    ⟨ty, col, tag, imp, hty, hk, hneed, rfl⟩
  exact ⟨tb1.Pk, tb1.Fk, _, _, hS,
    (hcols _).mpr (Or.inl ⟨_, (hsc _).mpr ⟨r, hr, hS⟩, rfl⟩), bl0, hp, hf⟩

theorem rcol_oneToMany_forward (t x : String) :
    (GetRelationColumns.rcol (oneToManyOf t x) 1).Name = CamelCase x ∧
    (GetRelationColumns.rcol (oneToManyOf t x) 1).Typ = "*" ++ CamelCase x ∧
    (GetRelationColumns.rcol (oneToManyOf t x) 1).Tag.RelFk = true :=
  ⟨rfl, rfl, rfl⟩

theorem rcol_oneToMany_reverse (t x : String) :
    (GetRelationColumns.rcol (oneToManyOf t x) (-1)).Name = CamelCase t ++ "s" ∧
    (GetRelationColumns.rcol (oneToManyOf t x) (-1)).Typ = "[]*" ++ CamelCase t ∧
    (GetRelationColumns.rcol (oneToManyOf t x) (-1)).Tag.ReverseMany = true :=
  ⟨rfl, rfl, rfl⟩

/-- C1 (amended): in a fresh process, for two distinct scanned tables `T` and
`X` whose names have no `_has_`, each with a single-column primary key, `T`
with a non-key column `X_id`, provided every relation of `trlist` whose map
key `SourceName + RelationName` equals `T + X` is a one-to-many relation of
`T` to `X`: every result table named `T` has a needed column `CamelCase X` of
type `*CamelCase X` tagged `rel(fk)`, its physical column `X_id` is there with
`IsNeed = false`, and every result table named `X` has a needed column
`CamelCase T + s` of type `[]*CamelCase T` tagged `reverse(many)`. -/
theorem one_to_many_inference (o : RangeOrder) (db : Catalog) (tables : List Table)
    (g : Globals) (T X : String) (r : ColumnRow)
    (hrun : getTableObjects o Globals.initial db = some (tables, g))
    (hT : T ∈ db.tableNames) (hX : X ∈ db.tableNames) (_hTX : T ≠ X)
    (hTj : Strings.Contains T "_has_" = false) (_hXj : Strings.Contains X "_has_" = false)
    (_hTk : (keyColumns db T).length = 1) (_hXk : (keyColumns db X).length = 1)
    (hr : r ∈ db.columnRows T) (hcol : r.colName = X ++ "_id")
    (_hnk : r.colName ∉ keyColumns db T)
    (hkey : ∀ tr ∈ g.trlist, tr.SourceName ++ tr.RelationName = T ++ X →
      tr.SourceName = T ∧ tr.RelationName = X ∧ tr.MarkName = "one2many") :
    tables.map (fun tb => tb.Name) = db.tableNames ∧
    (∀ tb ∈ tables, tb.Name = T →
      (∃ c ∈ tb.Columns, c.IsNeed = true ∧ c.Name = CamelCase X ∧
        c.Typ = "*" ++ CamelCase X ∧ c.Tag.RelFk = true) ∧
      (∃ c ∈ tb.Columns, c.Tag.Column = X ++ "_id") ∧
      (∀ c ∈ tb.Columns, c.Tag.Column = X ++ "_id" → c.IsNeed = false)) ∧
    (∀ tb ∈ tables, tb.Name = X →
      ∃ c ∈ tb.Columns, c.IsNeed = true ∧ c.Name = CamelCase T ++ "s" ∧
        c.Typ = "[]*" ++ CamelCase T ∧ c.Tag.ReverseMany = true) := by
  have htl := trlist_scanned o db tables g hrun
  have hcand : oneToManyOf T X ∈ g.trlist := by
    rw [htl]
    exact scanned_row db T r _ hT hr (by rw [hcol]; exact rowRelation_id T X hTj)
  have hall : ∀ tr ∈ g.trlist, tr.SourceName ++ tr.RelationName = T ++ X →
      tr = oneToManyOf T X := by
    intro tr htr hk
    obtain ⟨a, b, c⟩ := hkey tr htr hk
    have hd := scanned_discovered db tr (htl ▸ htr)
    have := hd.one2many c (by rw [a]; exact hTj)
    rw [a, b] at this
    exact this
  have hentry := trmap_entry_of_all o db tables g hrun (T ++ X) (oneToManyOf T X) hcand rfl hall
  obtain ⟨_, _, _, hnames, _⟩ := getTableObjects_spec o db tables g hrun
  refine ⟨hnames, ?_, ?_⟩
  · intro tb htb hn
    obtain ⟨f1, f2⟩ := confirmed_forward o db tables g hrun _ _ hentry hX tb htb hn
    refine ⟨⟨_, f1, rcol_isNeed _ _, rcol_oneToMany_forward T X⟩, ?_, f2⟩
    obtain ⟨pk, fk, bl, c1, hS, hmem, _⟩ := scanned_column_id o db tables g hrun tb htb
      (by rw [hn]; exact hTj) r (by rw [hn]; exact hr) X hcol
    refine ⟨_, hmem, ?_⟩
    rw [(afterForward_tag _ _ _).1, hS.column.1, hcol]
  · intro tb htb hn
    have := confirmed_reverse o db tables g hrun _ _ hentry hTj tb htb hn
    exact ⟨_, this, rcol_isNeed _ _, rcol_oneToMany_reverse T X⟩

set_option maxRecDepth 100000 in
/-- Witness of C1 on `user(id)`, `order(id, user_id)`: `order` gets
`User *User`, its `user_id` column is taken out, `user` gets `Orders []*Order`. -/
theorem one_to_many_inference_witness :
    (tablesOf (freshRun shopCatalog)).map (fun tb => tb.Name) = ["user", "order"] ∧
    (∀ tb ∈ tablesOf (freshRun shopCatalog), tb.Name = "order" →
      (∃ c ∈ tb.Columns, c.IsNeed = true ∧ c.Name = CamelCase "user" ∧
        c.Typ = "*" ++ CamelCase "user" ∧ c.Tag.RelFk = true) ∧
      (∃ c ∈ tb.Columns, c.Tag.Column = "user" ++ "_id") ∧
      (∀ c ∈ tb.Columns, c.Tag.Column = "user" ++ "_id" → c.IsNeed = false)) ∧
    (∀ tb ∈ tablesOf (freshRun shopCatalog), tb.Name = "user" →
      ∃ c ∈ tb.Columns, c.IsNeed = true ∧ c.Name = CamelCase "order" ++ "s" ∧
        c.Typ = "[]*" ++ CamelCase "order" ∧ c.Tag.ReverseMany = true) :=
  one_to_many_inference RangeOrder.insertion shopCatalog (tablesOf (freshRun shopCatalog))
    (globalsOf (freshRun shopCatalog)) "order" "user" (intColumnRow "user_id")
    (freshRun_eq shopCatalog (by decide)) (by decide) (by decide) (by decide) (by decide)
    (by decide) (by decide) (by decide) (by decide) (by decide) (by decide) (by decide)

set_option maxRecDepth 100000 in
/-- Counterexample to C1 as stated: with `order(id, user_id)`, `user(id)` and
a join table `order_has_user`, the run succeeds and `order` has no needed
column `User` of type `*User` tagged `rel(fk)`. -/
theorem one_to_many_inference_counterexample :
    (freshRun shopJoinCatalog).isSome = true ∧
    ∃ tb ∈ tablesOf (freshRun shopJoinCatalog), tb.Name = "order" ∧
      ¬ ∃ c ∈ tb.Columns, c.IsNeed = true ∧ c.Name = CamelCase "user" ∧
        c.Typ = "*" ++ CamelCase "user" ∧ c.Tag.RelFk = true := by
  decide
theorem dedupLoop_stuck (k : String) (a : TableRelation) (hm : a.MarkName ≠ "one2many") :
    ∀ (trl : List TableRelation) (m : List (String × TableRelation)),
    mapGet k m = some a → mapGet k (dedupLoop m trl) = some a
  | [], _, h => h
  | tr :: rest, m, h => by
    simp only [dedupLoop, List.foldl_cons]
    apply dedupLoop_stuck k a hm rest
    rw [dedupStep_get, h]
    simp only [hm, if_false]
    split <;> rfl

theorem dedupLoop_first (k : String) (a : TableRelation) :
    ∀ (trl : List TableRelation) (m : List (String × TableRelation)),
    (mapGet k m = none ∨ ∃ old, mapGet k m = some old ∧ old.MarkName = "one2many") →
    firstSticky k trl = some a → mapGet k (dedupLoop m trl) = some a
  | [], _, _, h => by simp [firstSticky] at h
  | tr :: rest, m, hm, h => by
    simp only [dedupLoop, List.foldl_cons]
    unfold firstSticky at h
    rw [List.find?_cons] at h
    by_cases hp : tr.SourceName ++ tr.RelationName = k ∧ tr.MarkName ≠ "one2many"
    · simp only [hp, ne_eq, not_false_eq_true, and_self, decide_True, Option.some.injEq] at h
      subst h
      apply dedupLoop_stuck k tr hp.2 rest
      rw [dedupStep_get, if_pos hp.1]
      rcases hm with hm | ⟨old, hm, ho⟩
      · rw [hm]
      · rw [hm]
        simp only [ho, if_true]
    · have hd : decide (tr.SourceName ++ tr.RelationName = k ∧ tr.MarkName ≠ "one2many")
          = false := decide_eq_false hp
      rw [hd] at h
      apply dedupLoop_first k a rest (dedupStep m tr) ?_ h
      rw [dedupStep_get]
      by_cases hk : tr.SourceName ++ tr.RelationName = k
      · have hmany : tr.MarkName = "one2many" := by
          by_contra hne
          exact hp ⟨hk, hne⟩
        rw [if_pos hk]
        rcases hm with hm | ⟨old, hm, ho⟩
        · rw [hm]
          exact Or.inr ⟨tr, rfl, hmany⟩
        · rw [hm]
          simp only [ho, if_true]
          exact Or.inr ⟨tr, rfl, hmany⟩
      · rw [if_neg hk]
        exact hm

theorem trmap_entry_of_first (o : RangeOrder) (db : Catalog) (tables : List Table)
    (g : Globals) (hrun : getTableObjects o Globals.initial db = some (tables, g))
    (k : String) (a : TableRelation) (hfirst : firstSticky k g.trlist = some a) :
    mapGet k g.trmap = some a ∧ (k, a) ∈ g.trmap := by
  obtain ⟨tbs1, _, hmap, _⟩ := getTableObjects_spec o db tables g hrun
  rw [hmap]
  have := dedupLoop_first k a g.trlist [] (Or.inl rfl) hfirst
  exact ⟨this, mem_of_mapGet _ _ _ this⟩

theorem empty_ne_append_one (r : String) : "" ≠ r ++ "_one" := by
  intro h
  have h1 := congrArg String.length h
  have h2 : "_one".length = 4 := rfl
  have h3 : "".length = 0 := rfl
  rw [String.length_append, h2, h3] at h1
  omega

theorem no_one_column (o : RangeOrder) (db : Catalog) (tables : List Table) (g : Globals)
    (hrun : getTableObjects o Globals.initial db = some (tables, g))
    (tb : Table) (htb : tb ∈ tables) (hj : Strings.Contains tb.Name "_has_" = false)
    (x : String) : ∀ c ∈ tb.Columns, c.Tag.Column ≠ x ++ "_one" := by
  obtain ⟨tbs1, hscan, _, _, _, htabs⟩ := getTableObjects_spec o db tables g hrun
  obtain ⟨tb1, h1, hn, _, hcols⟩ := htabs tb htb
  obtain ⟨_, _, s3⟩ := scanTables_spec db tbs1 g.trlist hscan
  obtain ⟨_, hsc⟩ := s3 tb1 h1
  intro c hc
  rcases (hcols c).mp hc with ⟨c1, hc1, rfl⟩ | ⟨e, _, _, _, rfl⟩ | ⟨t, _, _, rfl⟩
  · obtain ⟨r, _, hS⟩ := (hsc c1).mp hc1
    rw [(afterForward_tag _ _ _).1, hS.column.1]
    exact hS.not_one (by rw [← hn]; exact hj) x
  · rw [rcol_column]
    exact empty_ne_append_one x
  · rw [rcol_column]
    exact empty_ne_append_one x

theorem rcol_oneToOne_forward (t x : String) :
    (GetRelationColumns.rcol (oneToOneOf t x) 1).Name = CamelCase x ∧
    (GetRelationColumns.rcol (oneToOneOf t x) 1).Typ = "*" ++ CamelCase x ∧
    (GetRelationColumns.rcol (oneToOneOf t x) 1).Tag.RelOne = true :=
  ⟨rfl, rfl, rfl⟩

theorem rcol_oneToOne_reverse (t x : String) :
    (GetRelationColumns.rcol (oneToOneOf t x) (-1)).Name = CamelCase t ∧
    (GetRelationColumns.rcol (oneToOneOf t x) (-1)).Typ = "*" ++ CamelCase t ∧
    (GetRelationColumns.rcol (oneToOneOf t x) (-1)).Tag.ReverseOne = true :=
  ⟨rfl, rfl, rfl⟩

/-- C2 (amended): in a fresh process, for a scanned table `T` whose name has
no `_has_` and a scanned table `X`, provided the first relation of `trlist`
with the map key `T + X` and a `MarkName` other than `one2many` is the
one-to-one relation of `T` to `X` (the one a column `X_one` of `T` records):
every result table named `T` has a needed column `CamelCase X` of type
`*CamelCase X` tagged `rel(one)` and no column stored as `X_one` at all, and
every result table named `X` has a needed column `CamelCase T` of type
`*CamelCase T` tagged `reverse(one)`. -/
theorem one_to_one_inference (o : RangeOrder) (db : Catalog) (tables : List Table)
    (g : Globals) (T X : String)
    (hrun : getTableObjects o Globals.initial db = some (tables, g))
    (hX : X ∈ db.tableNames) (hTj : Strings.Contains T "_has_" = false)
    (hfirst : firstSticky (T ++ X) g.trlist = some (oneToOneOf T X)) :
    tables.map (fun tb => tb.Name) = db.tableNames ∧
    (∀ tb ∈ tables, tb.Name = T →
      (∃ c ∈ tb.Columns, c.IsNeed = true ∧ c.Name = CamelCase X ∧
        c.Typ = "*" ++ CamelCase X ∧ c.Tag.RelOne = true) ∧
      (∀ c ∈ tb.Columns, c.Tag.Column ≠ X ++ "_one")) ∧
    (∀ tb ∈ tables, tb.Name = X →
      ∃ c ∈ tb.Columns, c.IsNeed = true ∧ c.Name = CamelCase T ∧
        c.Typ = "*" ++ CamelCase T ∧ c.Tag.ReverseOne = true) := by
  obtain ⟨_, hentry⟩ := trmap_entry_of_first o db tables g hrun _ _ hfirst
  obtain ⟨_, _, _, hnames, _⟩ := getTableObjects_spec o db tables g hrun
  refine ⟨hnames, ?_, ?_⟩
  · intro tb htb hn
    obtain ⟨f1, _⟩ := confirmed_forward o db tables g hrun _ _ hentry hX tb htb hn
    exact ⟨⟨_, f1, rcol_isNeed _ _, rcol_oneToOne_forward T X⟩,
      no_one_column o db tables g hrun tb htb (by rw [hn]; exact hTj) X⟩
  · intro tb htb hn
    have := confirmed_reverse o db tables g hrun _ _ hentry hTj tb htb hn
    exact ⟨_, this, rcol_isNeed _ _, rcol_oneToOne_reverse T X⟩

set_option maxRecDepth 100000 in
/-- Witness of C2 on `user(id, name)`, `profile(id, user_one, bio)`:
`profile` gets `User *User`, `user` gets `Profile *Profile`. -/
theorem one_to_one_inference_witness :
    (tablesOf (freshRun profileCatalog)).map (fun tb => tb.Name) = ["user", "profile"] ∧
    (∀ tb ∈ tablesOf (freshRun profileCatalog), tb.Name = "profile" →
      (∃ c ∈ tb.Columns, c.IsNeed = true ∧ c.Name = CamelCase "user" ∧
        c.Typ = "*" ++ CamelCase "user" ∧ c.Tag.RelOne = true) ∧
      (∀ c ∈ tb.Columns, c.Tag.Column ≠ "user" ++ "_one")) ∧
    (∀ tb ∈ tablesOf (freshRun profileCatalog), tb.Name = "user" →
      ∃ c ∈ tb.Columns, c.IsNeed = true ∧ c.Name = CamelCase "profile" ∧
        c.Typ = "*" ++ CamelCase "profile" ∧ c.Tag.ReverseOne = true) :=
  one_to_one_inference RangeOrder.insertion profileCatalog (tablesOf (freshRun profileCatalog))
    (globalsOf (freshRun profileCatalog)) "profile" "user"
    (freshRun_eq profileCatalog (by decide)) (by decide) (by decide) (by decide)

set_option maxRecDepth 100000 in
/-- Counterexample to C2 as stated: `profile(id, user_one)` and `user(id)`
with a join table `profile_has_user` scanned before `profile`; the run
succeeds and `profile` has no needed column `User` of type `*User`. -/
theorem one_to_one_inference_counterexample :
    (freshRun profileJoinFirstCatalog).isSome = true ∧
    ∃ tb ∈ tablesOf (freshRun profileJoinFirstCatalog), tb.Name = "profile" ∧
      ¬ ∃ c ∈ tb.Columns, c.IsNeed = true ∧ c.Name = CamelCase "user" ∧
        c.Typ = "*" ++ CamelCase "user" := by
  decide
theorem indexL_none_iff (pat : List Char) :
    ∀ s : List Char, indexL pat s = none ↔ lastIndexL pat s = none
  | [] => by simp [indexL, lastIndexL]
  | c :: cs => by
    have ih := indexL_none_iff pat cs
    cases hp : pat.isPrefixOf (c :: cs) with
    | true =>
      simp only [indexL, lastIndexL, hp, if_true]
      cases lastIndexL pat cs <;> simp
    | false =>
      simp only [indexL, lastIndexL, hp, Bool.false_eq_true, if_false]
      cases hi : indexL pat cs with
      | none =>
        rw [ih.mp hi]
      | some n =>
        cases hl : lastIndexL pat cs with
        | none => exact absurd (ih.mpr hl) (by rw [hi]; simp)
        | some m => simp

theorem lastIndexL_append_left (pat s : List Char) (n : Nat)
    (h : lastIndexL pat s = some n) :
    ∀ a : List Char, lastIndexL pat (a ++ s) = some (a.length + n)
  | [] => by simpa using h
  | c :: cs => by
    have ih := lastIndexL_append_left pat s n h cs
    show lastIndexL pat (c :: (cs ++ s)) = some ((c :: cs).length + n)
    simp only [lastIndexL, ih, List.length_cons]
    rw [Nat.add_right_comm]

theorem lastIndexL_cons_none (pat cs : List Char) (c : Char)
    (h : lastIndexL pat cs = none) (hp : pat.isPrefixOf (c :: cs) = true) :
    lastIndexL pat (c :: cs) = some 0 := by
  simp only [lastIndexL, h, hp, if_true]

theorem contains_false_iff (s sub : String) :
    Strings.Contains s sub = false ↔ indexL sub.data s.data = none := by
  unfold Strings.Contains Strings.Index
  cases indexL sub.data s.data with
  | none => simp
  | some n => simp

theorem manyToManyOf_split (A B : String)
    (hB : Strings.Contains ("has_" ++ B) "_has_" = false) :
    (manyToManyOf (A ++ "_has_" ++ B)).SourceName = A ∧
    (manyToManyOf (A ++ "_has_" ++ B)).RelationName = B := by
  have h1 : lastIndexL "_has_".data ("has_".data ++ B.data) = none := by
    have := (contains_false_iff _ _).mp hB
    rw [String.data_append] at this
    exact (indexL_none_iff _ _).mp this
  have h2 : lastIndexL "_has_".data ("_has_".data ++ B.data) = some 0 := by
    have hd : "_has_".data ++ B.data = '_' :: ("has_".data ++ B.data) := rfl
    have hp : ("_has_".data).isPrefixOf ('_' :: ("has_".data ++ B.data)) = true := by
      rw [← hd]
      exact List.isPrefixOf_iff_prefix.mpr (List.prefix_append _ _)
    rw [hd]
    exact lastIndexL_cons_none _ _ _ h1 hp
  have h3 : lastIndexL "_has_".data (A ++ "_has_" ++ B).data = some A.data.length := by
    have := lastIndexL_append_left _ _ _ h2 A.data
    simpa [String.data_append, List.append_assoc] using this
  have h4 : Strings.LastIndex (A ++ "_has_" ++ B) "_has_" = (A.data.length : Int) := by
    unfold Strings.LastIndex
    rw [h3]
  have h5 : "_has_".data.length = 5 := rfl
  constructor
  · show slice (A ++ "_has_" ++ B) 0 (Strings.LastIndex (A ++ "_has_" ++ B) "_has_") = A
    rw [h4]
    simp [slice, String.data_append, List.append_assoc]
  · show sliceFrom (A ++ "_has_" ++ B) (Strings.LastIndex (A ++ "_has_" ++ B) "_has_" + 5) = B
    rw [h4]
    have h6 : ((A.data.length : Int) + 5).toNat = A.data.length + "_has_".data.length := by
      rw [h5]
      omega
    unfold sliceFrom
    rw [h6, String.data_append, String.data_append, List.append_assoc, List.drop_append,
      List.drop_left]
theorem column_cases (o : RangeOrder) (db : Catalog) (tables : List Table) (g : Globals)
    (hrun : getTableObjects o Globals.initial db = some (tables, g)) :
    ∀ tb ∈ tables, ∀ c ∈ tb.Columns,
      (∃ r ∈ db.columnRows tb.Name, ∃ pk fk bl c1, Scanned tb.Name pk fk bl r c1 ∧
        c = afterForward g.correcttrlist tb.Name c1) ∨
      (∃ tr ∈ g.correcttrlist, tb.Name = tr.RelationName ∧
        Strings.Contains tr.SourceName "_has_" = false ∧
        c = GetRelationColumns.rcol tr (-1)) ∨
      (∃ tr ∈ g.correcttrlist, tb.Name = tr.SourceName ∧
        c = GetRelationColumns.rcol tr 1) := by
  obtain ⟨tbs1, hscan, _, hnames, hctl, htabs⟩ := getTableObjects_spec o db tables g hrun
  obtain ⟨_, _, s3⟩ := scanTables_spec db tbs1 g.trlist hscan
  intro tb htb c hc
  obtain ⟨tb1, h1, hn, _, hcols⟩ := htabs tb htb
  obtain ⟨_, hsc⟩ := s3 tb1 h1
  rcases (hcols c).mp hc with ⟨c1, hc1, rfl⟩ | ⟨e, he, hr, hj, rfl⟩ | h
  · obtain ⟨r, hr, hS⟩ := (hsc c1).mp hc1
    left
    rw [hn]
    exact ⟨r, hr, _, _, _, c1, hS, rfl⟩
  · right
    left
    have hmem : e.2.RelationName ∈ db.tableNames := by
      rw [← hnames, ← hr]
      exact List.mem_map_of_mem (fun tb => tb.Name) htb
    exact ⟨_, (hctl _).mpr ⟨e, he, hmem, rfl⟩, hr, hj, rfl⟩
  · exact Or.inr (Or.inr h)

theorem column_stored (o : RangeOrder) (db : Catalog) (tables : List Table) (g : Globals)
    (hrun : getTableObjects o Globals.initial db = some (tables, g)) :
    ∀ tb ∈ tables, ∀ c ∈ tb.Columns,
      c.Tag.Column = "" ∨ ∃ r ∈ db.columnRows tb.Name, r.colName = c.Tag.Column := by
  intro tb htb c hc
  rcases column_cases o db tables g hrun tb htb c hc with
    ⟨r, hr, _, _, _, c1, hS, rfl⟩ | ⟨_, _, _, _, rfl⟩ | ⟨_, _, _, rfl⟩
  · right
    refine ⟨r, hr, ?_⟩
    rw [(afterForward_tag _ _ _).1, hS.column.1]
  · exact Or.inl (rcol_column _ _)
  · exact Or.inl (rcol_column _ _)

theorem rcol_manyToMany_forward (tr : TableRelation)
    (h1 : tr.RelOne = false) (h2 : tr.RelO2M = false) (h3 : tr.ReverseMany = true) :
    (GetRelationColumns.rcol tr 1).Name = CamelCase tr.RelationName ++ "s" ∧
    (GetRelationColumns.rcol tr 1).Typ = "[]*" ++ CamelCase tr.RelationName := by
  simp [GetRelationColumns.rcol, h1, h2, h3]

theorem rcol_manyToMany_reverse (tr : TableRelation)
    (h1 : tr.ReverseOne = false) (h2 : tr.RelM2M = true) :
    (GetRelationColumns.rcol tr (-1)).Name = CamelCase tr.SourceName ++ "s" ∧
    (GetRelationColumns.rcol tr (-1)).Typ = "[]*" ++ CamelCase tr.SourceName ∧
    (GetRelationColumns.rcol tr (-1)).Tag.RelM2M = true ∧
    (GetRelationColumns.rcol tr (-1)).Tag.M2MThroungh = tr.M2MThroungh := by
  simp [GetRelationColumns.rcol, h1, h2]

/-- C3 (amended): in a fresh process, for two distinct scanned tables `A` and
`B`, each with a primary key, `A` without `_has_` and `has_B` without `_has_`
(so that the name `A_has_B` is cut at its last `_has_` into `A` and `B`), and
a scanned join table `A_has_B` with the columns `A_id` and `B_id`, provided
the first relation of `trlist` with the map key `A + B` and a `MarkName`
other than `one2many` is the many-to-many relation of that join table: every
result table named `A` has a needed column `CamelCase B + s` of type
`[]*CamelCase B` and its own physical column `B_id`, if any, has
`IsNeed = false`; every result table named `B` has a needed column
`CamelCase A + s` of type `[]*CamelCase A` with `RelM2M` and
`M2MThroungh = A_has_B`; and every column of a result table is either an
injected relation column (empty `Tag.Column`) or stored under a column name
of that same table, so no column of the join table enters `A` or `B`. -/
theorem many_to_many_inference (o : RangeOrder) (db : Catalog) (tables : List Table)
    (g : Globals) (A B : String)
    (hrun : getTableObjects o Globals.initial db = some (tables, g))
    (_hA : A ∈ db.tableNames) (hB : B ∈ db.tableNames) (_hAB : A ≠ B)
    (_hAk : keyColumns db A ≠ []) (_hBk : keyColumns db B ≠ [])
    (hAj : Strings.Contains A "_has_" = false)
    (hBj : Strings.Contains ("has_" ++ B) "_has_" = false)
    (_hJ : A ++ "_has_" ++ B ∈ db.tableNames)
    (_hJa : ∃ r ∈ db.columnRows (A ++ "_has_" ++ B), r.colName = A ++ "_id")
    (_hJb : ∃ r ∈ db.columnRows (A ++ "_has_" ++ B), r.colName = B ++ "_id")
    (hfirst : firstSticky (A ++ B) g.trlist = some (manyToManyOf (A ++ "_has_" ++ B))) :
    tables.map (fun tb => tb.Name) = db.tableNames ∧
    (∀ tb ∈ tables, tb.Name = A →
      (∃ c ∈ tb.Columns, c.IsNeed = true ∧ c.Name = CamelCase B ++ "s" ∧
        c.Typ = "[]*" ++ CamelCase B) ∧
      (∀ c ∈ tb.Columns, c.Tag.Column = B ++ "_id" → c.IsNeed = false)) ∧
    (∀ tb ∈ tables, tb.Name = B →
      ∃ c ∈ tb.Columns, c.IsNeed = true ∧ c.Name = CamelCase A ++ "s" ∧
        c.Typ = "[]*" ++ CamelCase A ∧ c.Tag.RelM2M = true ∧
        c.Tag.M2MThroungh = A ++ "_has_" ++ B) ∧
    (∀ tb ∈ tables, ∀ c ∈ tb.Columns,
      c.Tag.Column = "" ∨ ∃ r ∈ db.columnRows tb.Name, r.colName = c.Tag.Column) := by
  obtain ⟨_, hentry⟩ := trmap_entry_of_first o db tables g hrun _ _ hfirst
  obtain ⟨_, _, _, hnames, _⟩ := getTableObjects_spec o db tables g hrun
  obtain ⟨hs, hr⟩ := manyToManyOf_split A B hBj
  refine ⟨hnames, ?_, ?_, column_stored o db tables g hrun⟩
  · intro tb htb hn
    obtain ⟨f1, f2⟩ := confirmed_forward o db tables g hrun _ _ hentry (by rw [hr]; exact hB)
      tb htb (by rw [hs]; exact hn)
    have hf := rcol_manyToMany_forward (manyToManyOf (A ++ "_has_" ++ B)) rfl rfl rfl
    rw [hr] at hf f2
    exact ⟨⟨_, f1, rcol_isNeed _ _, hf⟩, f2⟩
  · intro tb htb hn
    have := confirmed_reverse o db tables g hrun _ _ hentry (by rw [hs]; exact hAj) tb htb
      (by rw [hr]; exact hn)
    have hv := rcol_manyToMany_reverse (manyToManyOf (A ++ "_has_" ++ B)) rfl rfl
    rw [hs] at hv
    exact ⟨_, this, rcol_isNeed _ _, hv⟩

set_option maxRecDepth 100000 in
/-- Witness of C3 on `course`, `student`, `student_has_course`: `student`
gets `Courses []*Course` and `course` gets `Students []*Student`. -/
theorem many_to_many_inference_witness :
    (tablesOf (freshRun schoolCatalog)).map (fun tb => tb.Name) =
      ["course", "student", "student_has_course"] ∧
    (∀ tb ∈ tablesOf (freshRun schoolCatalog), tb.Name = "student" →
      (∃ c ∈ tb.Columns, c.IsNeed = true ∧ c.Name = CamelCase "course" ++ "s" ∧
        c.Typ = "[]*" ++ CamelCase "course") ∧
      (∀ c ∈ tb.Columns, c.Tag.Column = "course" ++ "_id" → c.IsNeed = false)) ∧
    (∀ tb ∈ tablesOf (freshRun schoolCatalog), tb.Name = "course" →
      ∃ c ∈ tb.Columns, c.IsNeed = true ∧ c.Name = CamelCase "student" ++ "s" ∧
        c.Typ = "[]*" ++ CamelCase "student" ∧ c.Tag.RelM2M = true ∧
        c.Tag.M2MThroungh = "student" ++ "_has_" ++ "course") ∧
    (∀ tb ∈ tablesOf (freshRun schoolCatalog), ∀ c ∈ tb.Columns,
      c.Tag.Column = "" ∨ ∃ r ∈ schoolCatalog.columnRows tb.Name, r.colName = c.Tag.Column) :=
  many_to_many_inference RangeOrder.insertion schoolCatalog (tablesOf (freshRun schoolCatalog))
    (globalsOf (freshRun schoolCatalog)) "student" "course"
    (freshRun_eq schoolCatalog (by decide)) (by decide) (by decide) (by decide) (by decide)
    (by decide) (by decide) (by decide) (by decide) (by decide) (by decide) (by decide)

set_option maxRecDepth 100000 in
/-- Counterexample to C3 as stated: `course(id)`, `student(id, course_one)`
and the join table `student_has_course`; the run succeeds and `student` has
no needed column `Courses` of type `[]*Course`. -/
theorem many_to_many_inference_counterexample :
    (freshRun schoolOneCatalog).isSome = true ∧
    ∃ tb ∈ tablesOf (freshRun schoolOneCatalog), tb.Name = "student" ∧
      ¬ ∃ c ∈ tb.Columns, c.IsNeed = true ∧ c.Name = CamelCase "course" ++ "s" ∧
        c.Typ = "[]*" ++ CamelCase "course" := by
  decide
/-- C4 (amended): when the map starts empty, for every relation list in which
every relation with the map key `S + R` has `MarkName` `one2one` or
`one2many` and at least one of them is `one2one`, the entry kept under that
key has `MarkName` `one2one`, in whatever order the relations come. -/
theorem dedup_keeps_one_to_one (trlist : List TableRelation) (S R : String)
    (hone : ∃ tr ∈ trlist, tr.SourceName ++ tr.RelationName = S ++ R ∧
      tr.MarkName = "one2one")
    (hall : ∀ tr ∈ trlist, tr.SourceName ++ tr.RelationName = S ++ R →
      tr.MarkName = "one2one" ∨ tr.MarkName = "one2many") :
    ∃ kept, mapGet (S ++ R) (dedupLoop Globals.initial.trmap trlist) = some kept ∧
      kept.MarkName = "one2one" := by
  obtain ⟨tr, htr, hk, hm⟩ := hone
  exact dedupLoop_sticky (S ++ R) (fun t => t.MarkName = "one2one")
    (fun t ht h => by rw [ht] at h; exact absurd h (by decide)) trlist [] hall
    (Or.inr ⟨Or.inl rfl, tr, htr, hk, hm⟩)

/-- Witness of C4: a one-to-many relation followed by a one-to-one relation
of `profile` to `user`. -/
theorem dedup_keeps_one_to_one_witness :
    ∃ kept, mapGet ("profile" ++ "user") (dedupLoop Globals.initial.trmap
        [oneToManyOf "profile" "user", oneToOneOf "profile" "user"]) = some kept ∧
      kept.MarkName = "one2one" :=
  dedup_keeps_one_to_one [oneToManyOf "profile" "user", oneToOneOf "profile" "user"]
    "profile" "user" (by decide) (by decide)

/-- Counterexample to C4 as stated: for the pair (`profile`, `user`) found
once as `one2one` and once as `one2many`, in either order, the entry kept in
the map is the `one2one` relation, not a `one2many` one. -/
theorem dedup_keeps_one_to_one_counterexample :
    mapGet "profileuser" (dedupLoop [] [oneToOneOf "profile" "user",
        oneToManyOf "profile" "user"]) = some (oneToOneOf "profile" "user") ∧
    mapGet "profileuser" (dedupLoop [] [oneToManyOf "profile" "user",
        oneToOneOf "profile" "user"]) = some (oneToOneOf "profile" "user") ∧
    (oneToOneOf "profile" "user").MarkName ≠ "one2many" := by
  decide

theorem confirmed_pair (o : RangeOrder) (db : Catalog) (tables : List Table) (g : Globals)
    (hrun : getTableObjects o Globals.initial db = some (tables, g))
    (a : TableRelation) (hget : mapGet (a.SourceName ++ a.RelationName) g.trmap = some a) :
    ∀ tr ∈ g.correcttrlist, tr.SourceName = a.SourceName → tr.RelationName = a.RelationName →
      tr = { a with IsCorrect := true } := by
  obtain ⟨tbs1, _, hmap, _, hctl, _⟩ := getTableObjects_spec o db tables g hrun
  intro tr htr hs hr
  obtain ⟨e, he, _, rfl⟩ := (hctl tr).mp htr
  have hnd : (g.trmap.map Prod.fst).Nodup := by
    rw [hmap]
    exact dedupLoop_nodup g.trlist [] List.nodup_nil
  have hkey : e.1 = e.2.SourceName ++ e.2.RelationName := by
    rw [hmap] at he
    rcases dedupLoop_mem g.trlist [] e he with h | h
    · cases h
    · exact h.2
  have hg := mapGet_of_mem e.1 e.2 g.trmap hnd he
  simp only at hs hr
  rw [hkey, hs, hr, hget] at hg
  cases hg
  rfl

theorem GetGoDataType_head (t v : String) (h : GetGoDataType t = some v) :
    v.data.head? ≠ some '[' := by
  have hm := mem_of_mapGet t v typeMappingMysql h
  have hall : ∀ p ∈ typeMappingMysql, p.2.data.head? ≠ some '[' := by decide
  exact hall _ hm

theorem Scanned.typ_head {name pk : String} {fk : List (String × ForeignKey)}
    {bl : List String} {r : ColumnRow} {c : Column} (h : Scanned name pk fk bl r c) :
    c.Typ.data.head? ≠ some '[' := by
  obtain ⟨ty, col, tag, imp, hty, hk, _, rfl⟩ := h
  have hc := (GetColumns.convention_col name r.colName (GetColumns.initialRelation name) col).2.1
  simp only
  rw [hc]
  have hplain : ∀ col0 tag0, GetColumns.plain r
      { Name := CamelCase r.colName, Typ := ty, IsNeed := true } tag0 = some (col0, tag, imp) →
      col0.Typ.data.head? ≠ some '[' := by
    intro col0 tag0 hp
    rcases (GetColumns.plain_spec _ _ _ _ _ _ hp).2.2 with e | e
    · rw [e]
      exact GetGoDataType_head _ _ hty
    · exact GetGoDataType_head _ _ e
  unfold GetColumns.keys at hk
  split at hk
  · cases hk
    show ("int" : String).data.head? ≠ some '['
    decide
  · split at hk
    · split at hk
      · exact hplain _ _ hk
      · cases hk
        simp [String.data_append]
    · exact hplain _ _ hk

/-- C5 (amended): in a fresh process, for a scanned table `A` whose name has
no `_has_`, with a column `X_id`, and a scanned table `X`, provided the first
relation of `trlist` with the map key `A + X` and a `MarkName` other than
`one2many` is the one-to-one relation of `A` to `X` (the one its column
`X_one` records) and every relation of `X` to `A` in `trlist`, when `X` is
not `A` itself, is the one-to-one relation of `X` to `A`: every result table
named `A` has a needed column `CamelCase X` of type `*CamelCase X` tagged
`rel(one)`, no column stored as `X_one`, and its column stored as `X_id` is
there with `IsNeed = false`; every result table named `X` has a needed column
`CamelCase A` of type `*CamelCase A` tagged `reverse(one)`; every confirmed
relation between `A` and `X`, in either direction, is a one-to-one relation,
whose forward and reverse columns are single pointers to the type of its
target and of its source; and every column of every result table is stored
under a column name of its table, with a type that does not begin with `[`,
or is the forward column of a confirmed relation on its source table or the
reverse column of one on its target table, so no collection column is made
for the pair. -/
theorem documented_one_to_one (o : RangeOrder) (db : Catalog) (tables : List Table)
    (g : Globals) (A X : String) (r : ColumnRow)
    (hrun : getTableObjects o Globals.initial db = some (tables, g))
    (hX : X ∈ db.tableNames) (hAj : Strings.Contains A "_has_" = false)
    (hr : r ∈ db.columnRows A) (hcol : r.colName = X ++ "_id")
    (hfirst : firstSticky (A ++ X) g.trlist = some (oneToOneOf A X))
    (hback : ∀ tr ∈ g.trlist, tr.SourceName = X → tr.RelationName = A →
      X = A ∨ tr = oneToOneOf X A) :
    tables.map (fun tb => tb.Name) = db.tableNames ∧
    (∀ tb ∈ tables, tb.Name = A →
      (∃ c ∈ tb.Columns, c.IsNeed = true ∧ c.Name = CamelCase X ∧
        c.Typ = "*" ++ CamelCase X ∧ c.Tag.RelOne = true) ∧
      (∀ c ∈ tb.Columns, c.Tag.Column ≠ X ++ "_one") ∧
      (∃ c ∈ tb.Columns, c.Tag.Column = X ++ "_id") ∧
      (∀ c ∈ tb.Columns, c.Tag.Column = X ++ "_id" → c.IsNeed = false)) ∧
    (∀ tb ∈ tables, tb.Name = X →
      ∃ c ∈ tb.Columns, c.IsNeed = true ∧ c.Name = CamelCase A ∧
        c.Typ = "*" ++ CamelCase A ∧ c.Tag.ReverseOne = true) ∧
    (∀ tr ∈ g.correcttrlist,
      (tr.SourceName = A ∧ tr.RelationName = X) ∨ (tr.SourceName = X ∧ tr.RelationName = A) →
      (tr = { oneToOneOf A X with IsCorrect := true } ∨
        tr = { oneToOneOf X A with IsCorrect := true }) ∧
      (GetRelationColumns.rcol tr 1).Typ = "*" ++ CamelCase tr.RelationName ∧
      (GetRelationColumns.rcol tr (-1)).Typ = "*" ++ CamelCase tr.SourceName) ∧
    (∀ tb ∈ tables, ∀ c ∈ tb.Columns,
      ((∃ r' ∈ db.columnRows tb.Name, c.Tag.Column = r'.colName) ∧
        c.Typ.data.head? ≠ some '[') ∨
      (∃ tr ∈ g.correcttrlist,
        (tb.Name = tr.SourceName ∧ c = GetRelationColumns.rcol tr 1) ∨
        (tb.Name = tr.RelationName ∧ c = GetRelationColumns.rcol tr (-1)))) := by
  obtain ⟨hget, hentry⟩ := trmap_entry_of_first o db tables g hrun _ _ hfirst
  obtain ⟨_, _, hmap, hnames, hctl, _⟩ := getTableObjects_spec o db tables g hrun
  have hpair := confirmed_pair o db tables g hrun (oneToOneOf A X) hget
  refine ⟨hnames, ?_, ?_, ?_, ?_⟩
  · intro tb htb hn
    obtain ⟨f1, f2⟩ := confirmed_forward o db tables g hrun _ _ hentry hX tb htb hn
    refine ⟨⟨_, f1, rcol_isNeed _ _, rcol_oneToOne_forward A X⟩,
      no_one_column o db tables g hrun tb htb (by rw [hn]; exact hAj) X, ?_, f2⟩
    obtain ⟨pk, fk, bl, c1, hS, hmem, _⟩ := scanned_column_id o db tables g hrun tb htb
      (by rw [hn]; exact hAj) r (by rw [hn]; exact hr) X hcol
    refine ⟨_, hmem, ?_⟩
    rw [(afterForward_tag _ _ _).1, hS.column.1, hcol]
  · intro tb htb hn
    have := confirmed_reverse o db tables g hrun _ _ hentry hAj tb htb hn
    exact ⟨_, this, rcol_isNeed _ _, rcol_oneToOne_reverse A X⟩
  · intro tr htr hdir
    have hfwd : (tr.SourceName = A ∧ tr.RelationName = X) ∨
        tr = { oneToOneOf X A with IsCorrect := true } := by
      rcases hdir with h | h
      · exact Or.inl h
      · obtain ⟨e, he, _, rfl⟩ := (hctl tr).mp htr
        rw [hmap] at he
        rcases dedupLoop_mem g.trlist [] e he with h1 | h1
        · cases h1
        · rcases hback e.2 h1.1 h.1 h.2 with hxa | hone
          · exact Or.inl ⟨h.1.trans hxa, h.2.trans hxa.symm⟩
          · right
            rw [hone]
    rcases hfwd with hfwd | e
    · have e := hpair tr htr hfwd.1 hfwd.2
      subst e
      exact ⟨Or.inl rfl, rfl, rfl⟩
    · subst e
      exact ⟨Or.inr rfl, rfl, rfl⟩
  · intro tb htb c hc
    rcases column_cases o db tables g hrun tb htb c hc with
      ⟨r', hr', _, _, _, c1, hS, rfl⟩ | ⟨tr, htr, hn, _, rfl⟩ | ⟨tr, htr, hn, rfl⟩
    · left
      refine ⟨⟨r', hr', ?_⟩, ?_⟩
      · rw [(afterForward_tag _ _ _).1, hS.column.1]
      · rw [(afterForward_tag _ _ _).2.2]
        exact hS.typ_head
    · exact Or.inr ⟨tr, htr, Or.inr ⟨hn, rfl⟩⟩
    · exact Or.inr ⟨tr, htr, Or.inl ⟨hn, rfl⟩⟩

set_option maxRecDepth 100000 in
/-- Witness of C5 on `account(id, owner_id, owner_one)`, `owner(id)`. -/
theorem documented_one_to_one_witness :
    (tablesOf (freshRun accountCatalog)).map (fun tb => tb.Name) = ["account", "owner"] ∧
    (∀ tb ∈ tablesOf (freshRun accountCatalog), tb.Name = "account" →
      (∃ c ∈ tb.Columns, c.IsNeed = true ∧ c.Name = CamelCase "owner" ∧
        c.Typ = "*" ++ CamelCase "owner" ∧ c.Tag.RelOne = true) ∧
      (∀ c ∈ tb.Columns, c.Tag.Column ≠ "owner" ++ "_one") ∧
      (∃ c ∈ tb.Columns, c.Tag.Column = "owner" ++ "_id") ∧
      (∀ c ∈ tb.Columns, c.Tag.Column = "owner" ++ "_id" → c.IsNeed = false)) ∧
    (∀ tb ∈ tablesOf (freshRun accountCatalog), tb.Name = "owner" →
      ∃ c ∈ tb.Columns, c.IsNeed = true ∧ c.Name = CamelCase "account" ∧
        c.Typ = "*" ++ CamelCase "account" ∧ c.Tag.ReverseOne = true) ∧
    (∀ tr ∈ (globalsOf (freshRun accountCatalog)).correcttrlist,
      (tr.SourceName = "account" ∧ tr.RelationName = "owner") ∨
        (tr.SourceName = "owner" ∧ tr.RelationName = "account") →
      (tr = { oneToOneOf "account" "owner" with IsCorrect := true } ∨
        tr = { oneToOneOf "owner" "account" with IsCorrect := true }) ∧
      (GetRelationColumns.rcol tr 1).Typ = "*" ++ CamelCase tr.RelationName ∧
      (GetRelationColumns.rcol tr (-1)).Typ = "*" ++ CamelCase tr.SourceName) ∧
    (∀ tb ∈ tablesOf (freshRun accountCatalog), ∀ c ∈ tb.Columns,
      ((∃ r' ∈ accountCatalog.columnRows tb.Name, c.Tag.Column = r'.colName) ∧
        c.Typ.data.head? ≠ some '[') ∨
      (∃ tr ∈ (globalsOf (freshRun accountCatalog)).correcttrlist,
        (tb.Name = tr.SourceName ∧ c = GetRelationColumns.rcol tr 1) ∨
        (tb.Name = tr.RelationName ∧ c = GetRelationColumns.rcol tr (-1)))) :=
  documented_one_to_one RangeOrder.insertion accountCatalog
    (tablesOf (freshRun accountCatalog)) (globalsOf (freshRun accountCatalog))
    "account" "owner" (intColumnRow "owner_id")
    (freshRun_eq accountCatalog (by decide)) (by decide) (by decide) (by decide) (by decide)
    (by decide) (by decide)

set_option maxRecDepth 100000 in
/-- Counterexample to C5 as stated: with `account(id, owner_one, owner_id)`,
`owner(id)` and a join table `account_has_owner` scanned before `account`,
the run succeeds, `account` has no needed column `Owner` of type `*Owner`
and has a collection column `Owners` of type `[]*Owner`; with
`account(id, owner_one, owner_id)` and `owner(id, account_id)` the run
succeeds, `account` has the one-to-one column `Owner` of type `*Owner`, and
the relation of `owner` to `account` gives it the collection column `Owners`
of type `[]*Owner` as well. -/
theorem documented_one_to_one_counterexample :
    ((freshRun accountJoinFirstCatalog).isSome = true ∧
      ∃ tb ∈ tablesOf (freshRun accountJoinFirstCatalog), tb.Name = "account" ∧
        (¬ ∃ c ∈ tb.Columns, c.IsNeed = true ∧ c.Name = CamelCase "owner" ∧
          c.Typ = "*" ++ CamelCase "owner") ∧
        ∃ c ∈ tb.Columns, c.IsNeed = true ∧ c.Typ = "[]*" ++ CamelCase "owner") ∧
    (freshRun accountBackCatalog).isSome = true ∧
    (tablesOf (freshRun accountBackCatalog)).map
        (fun tb => (tb.Name, tb.Columns.map (fun c => (c.Name, c.Typ, c.IsNeed)))) =
      [("account", [("Id", "int", true), ("OwnerId", "int", false),
          ("Owners", "[]*Owner", true), ("Owner", "*Owner", true)]),
       ("owner", [("Id", "int", true), ("AccountId", "int", false),
          ("Account", "*Account", true), ("Account", "*Account", true)])] := by
  decide

theorem getTableObjects_of_scan (o : RangeOrder) (g0 : Globals) (db : Catalog)
    (tbs1 : List Table) (trl : List TableRelation)
    (hscan : scanTables g0 db = some (tbs1, trl)) :
    ∃ tables g, getTableObjects o g0 db = some (tables, g) := by
  unfold getTableObjects
  rw [hscan]
  exact ⟨_, _, rfl⟩

theorem Scanned.plain_type {name pk : String} {fk : List (String × ForeignKey)}
    {bl : List String} {r : ColumnRow} {c : Column} (h : Scanned name pk fk bl r c)
    (hpk : pk ≠ r.colName) (hfk : mapGet r.colName fk = none) :
    GetGoDataType r.dataType = some c.Typ ∨
    GetGoDataType (r.dataType ++ " " ++ "unsigned") = some c.Typ := by
  obtain ⟨ty, col, tag, imp, hty, hk, _, rfl⟩ := h
  rw [GetColumns.keys_plain _ _ _ _ _ _ hpk hfk] at hk
  obtain ⟨_, _, ht⟩ := GetColumns.plain_spec _ _ _ _ _ _ hk
  have hc := (GetColumns.convention_col name r.colName (GetColumns.initialRelation name) col).2.1
  simp only
  rw [hc]
  rcases ht with ht | ht
  · left
    rw [ht]
    exact hty
  · exact Or.inr ht

theorem GetColumns.row_some (bl : List String) (st : Table × List TableRelation)
    (r : ColumnRow) (h : RowOk st.1.Pk st.1.Fk bl r) :
    ∃ st', GetColumns.row bl st r = some st' := by
  obtain ⟨ty, col, tag, imp, hty, hk⟩ := h
  unfold GetColumns.row
  simp only [hty, hk]
  exact ⟨_, rfl⟩

theorem GetColumns.rows_some (bl : List String) :
    ∀ (rows : List ColumnRow) (st : Table × List TableRelation),
    (∀ r ∈ rows, RowOk st.1.Pk st.1.Fk bl r) → ∃ st', GetColumns.rows bl rows st = some st'
  | [], st, _ => ⟨st, rfl⟩
  | r :: rs, st, h => by
    obtain ⟨st1, h1⟩ := GetColumns.row_some bl st r (h r (List.mem_cons_self _ _))
    obtain ⟨_, p1, f1, _⟩ := GetColumns.row_spec bl st st1 r h1
    obtain ⟨st2, h2⟩ := GetColumns.rows_some bl rs st1 (by
      intro r' hr'
      rw [p1, f1]
      exact h r' (List.mem_cons_of_mem _ hr'))
    refine ⟨st2, ?_⟩
    simp only [GetColumns.rows, h1]
    exact h2

theorem columnsLoop_some (db : Catalog) (bl : List String) :
    ∀ (tbs : List Table) (trl : List TableRelation),
    (∀ tb ∈ tbs, ∀ r ∈ db.columnRows tb.Name, RowOk tb.Pk tb.Fk bl r) →
    ∃ res, columnsLoop db bl tbs trl = some res
  | [], trl, _ => ⟨([], trl), rfl⟩
  | tb :: rest, trl, h => by
    obtain ⟨st1, h1⟩ := GetColumns.rows_some bl (db.columnRows tb.Name)
      (tb, GetColumns.joinTable tb trl) (h tb (List.mem_cons_self _ _))
    obtain ⟨res, h2⟩ := columnsLoop_some db bl rest st1.2
      (fun tb' h' => h tb' (List.mem_cons_of_mem _ h'))
    have h1' : GetColumns db tb bl trl = some (st1.1, st1.2) := h1
    refine ⟨(st1.1 :: res.1, res.2), ?_⟩
    simp only [columnsLoop, h1']
    rw [h2]

theorem GetColumns.rowPasses_ok (pk : String) (fk : List (String × ForeignKey))
    (bl : List String) (r : ColumnRow) (h : GetColumns.rowPasses pk fk bl r = true) :
    RowOk pk fk bl r := by
  unfold GetColumns.rowPasses at h
  split at h
  · cases h
  · rename_i ty hty
    obtain ⟨res, hres⟩ := Option.isSome_iff_exists.mp h
    exact ⟨ty, res.1, res.2.1, res.2.2, hty, hres⟩

theorem scanTables_of_rows (db : Catalog) (h : ScanPasses db) :
    ∃ tbs trl, scanTables Globals.initial db = some (tbs, trl) := by
  obtain ⟨res, hres⟩ := columnsLoop_some db (constraintsLoop db db.tableNames []).2
    (constraintsLoop db db.tableNames []).1 Globals.initial.trlist
    (fun tb htb r hr => GetColumns.rowPasses_ok _ _ _ r (h tb htb r hr))
  exact ⟨res.1, res.2, hres⟩

theorem lastIndexL_split (pat : List Char) :
    ∀ (s : List Char) (i : Nat), lastIndexL pat s = some i →
      s = s.take i ++ (pat ++ s.drop (i + pat.length))
  | [], i, h => by
    simp only [lastIndexL] at h
    split at h
    · rename_i hp
      cases h
      have : pat = [] := by
        cases pat with
        | nil => rfl
        | cons p ps => simp at hp
      subst this
      rfl
    · cases h
  | c :: cs, i, h => by
    simp only [lastIndexL] at h
    split at h
    · rename_i r hr
      cases h
      have ih := lastIndexL_split pat cs r hr
      have e : r + 1 + pat.length = (r + pat.length) + 1 := by omega
      rw [List.take_succ_cons, e, List.drop_succ_cons, List.cons_append, ← ih]
    · split at h
      · rename_i hp
        cases h
        obtain ⟨t, ht⟩ := List.isPrefixOf_iff_prefix.mp hp
        rw [← ht]
        simp
      · cases h

theorem manyToManyOf_name (n : String) (hj : Strings.Contains n "_has_" = true) :
    n = (manyToManyOf n).SourceName ++ "_has_" ++ (manyToManyOf n).RelationName := by
  cases hl : lastIndexL "_has_".data n.data with
  | none =>
    have := (contains_false_iff n "_has_").mpr ((indexL_none_iff _ _).mpr hl)
    rw [this] at hj
    cases hj
  | some i =>
    have hs := lastIndexL_split _ _ i hl
    have hi : Strings.LastIndex n "_has_" = (i : Int) := by
      unfold Strings.LastIndex
      rw [hl]
    apply String.ext
    simp only [manyToManyOf, slice, sliceFrom, hi, String.data_append]
    have e5 : ((i : Int) + 5).toNat = i + "_has_".data.length := by
      have : "_has_".data.length = 5 := rfl
      rw [this]
      omega
    rw [e5]
    simpa using hs

theorem tableRelations_source (db : Catalog) (n : String) :
    ∀ tr ∈ tableRelations db n, tr.SourceName = n ∨
      (tr = manyToManyOf n ∧ Strings.Contains n "_has_" = true) := by
  intro tr htr
  unfold tableRelations at htr
  rcases List.mem_append.mp htr with h | h
  · right
    unfold joinRelations GetColumns.joinTable at h
    split at h
    · rename_i hc
      simp only [Bool.and_eq_true] at hc
      simp only [List.nil_append, List.mem_singleton] at h
      exact ⟨h, hc.1⟩
    · cases h
  · left
    obtain ⟨r, _, hr⟩ := List.mem_filterMap.mp h
    unfold rowRelation GetColumns.convention at hr
    simp only at hr
    repeat' split at hr
    all_goals (cases hr; try rfl)

/-- C6 (amended): in a fresh process, for a scanned table `T` whose name has
no `_has_`, with a column `X_id` that no primary-key or foreign-key
constraint row of `T` names, when no scanned table is named `X` or
`X_has_T` and every column row of every table passes the row loop of
`GetColumns`: `getTableObjects` returns a result, with a table named `T`; no
confirmed relation points at `X` or leads from `X` to `T`; every column of
every result table is stored under a column name of its table, or is the
forward column of a confirmed relation on its source table or the reverse
column of one on its target table, and that relation neither points at `X`
nor leads from `X` to `T`; and every result table named `T` still has the
column stored as `X_id`, with `IsNeed = true` and the Go type the type
mapping gives for its data type (or for its unsigned variant). -/
theorem dangling_reference_dropped (o : RangeOrder) (db : Catalog) (T X : String)
    (r : ColumnRow) (hT : T ∈ db.tableNames)
    (hTj : Strings.Contains T "_has_" = false) (hX : X ∉ db.tableNames)
    (hr : r ∈ db.columnRows T) (hcol : r.colName = X ++ "_id")
    (hkey : ∀ cr ∈ db.constraintRows T,
      cr.constraintType = "PRIMARY KEY" ∨ cr.constraintType = "FOREIGN KEY" →
      cr.columnName ≠ X ++ "_id")
    (hjoin : X ++ "_has_" ++ T ∉ db.tableNames) (hrows : ScanPasses db) :
    ∃ tables g, getTableObjects o Globals.initial db = some (tables, g) ∧
      tables.map (fun tb => tb.Name) = db.tableNames ∧
      (∃ tb ∈ tables, tb.Name = T) ∧
      (∀ tr ∈ g.correcttrlist,
        tr.RelationName ≠ X ∧ ¬ (tr.SourceName = X ∧ tr.RelationName = T)) ∧
      (∀ tb ∈ tables, ∀ c ∈ tb.Columns,
        (∃ r' ∈ db.columnRows tb.Name, c.Tag.Column = r'.colName) ∨
        (∃ tr ∈ g.correcttrlist,
          (tr.RelationName ≠ X ∧ ¬ (tr.SourceName = X ∧ tr.RelationName = T)) ∧
          ((tb.Name = tr.SourceName ∧ c = GetRelationColumns.rcol tr 1) ∨
            (tb.Name = tr.RelationName ∧ c = GetRelationColumns.rcol tr (-1))))) ∧
      (∀ tb ∈ tables, tb.Name = T →
        (∃ c ∈ tb.Columns, c.Tag.Column = X ++ "_id" ∧ c.IsNeed = true ∧
          (GetGoDataType r.dataType = some c.Typ ∨
            GetGoDataType (r.dataType ++ " " ++ "unsigned") = some c.Typ)) ∧
        (∀ c ∈ tb.Columns, c.Tag.Column = X ++ "_id" → c.IsNeed = true)) := by
  obtain ⟨tbs1, trl, hscan⟩ := scanTables_of_rows db hrows
  obtain ⟨tables, g, hrun⟩ := getTableObjects_of_scan o Globals.initial db tbs1 trl hscan
  refine ⟨tables, g, hrun, ?_⟩
  obtain ⟨_, _, hmap, hnames, hctl, _⟩ := getTableObjects_spec o db tables g hrun
  have htl := trlist_scanned o db tables g hrun
  have hnoX : ∀ tr ∈ g.correcttrlist, tr.RelationName ≠ X := by
    intro tr htr he
    obtain ⟨e, _, hm, rfl⟩ := (hctl tr).mp htr
    simp only at he
    rw [he] at hm
    exact hX hm
  have hnoXT : ∀ tr ∈ g.correcttrlist, ¬ (tr.SourceName = X ∧ tr.RelationName = T) := by
    intro tr htr hst
    obtain ⟨e, he, _, rfl⟩ := (hctl tr).mp htr
    have hs : e.2.SourceName = X := hst.1
    have ht : e.2.RelationName = T := hst.2
    rw [hmap] at he
    rcases dedupLoop_mem g.trlist [] e he with h1 | h1
    · cases h1
    · have h2 := h1.1
      rw [htl] at h2
      obtain ⟨n, hn, hmem⟩ := List.mem_flatMap.mp h2
      rcases tableRelations_source db n e.2 hmem with h3 | ⟨h3, h4⟩
      · rw [← h3, hs] at hn
        exact hX hn
      · have h5 := manyToManyOf_name n h4
        rw [← h3, hs, ht] at h5
        rw [h5] at hn
        exact hjoin hn
  have hkeep : ∀ tb ∈ tables, tb.Name = T → ∀ c1 : Column, c1.Tag.Column = X ++ "_id" →
      afterForward g.correcttrlist tb.Name c1 = c1 := by
    intro tb _ _ c1 hc1
    unfold afterForward
    cases hs : suppressedBy g.correcttrlist tb.Name c1 with
    | false => rfl
    | true =>
      exfalso
      obtain ⟨tr, htr, _, _, hc⟩ := (suppressedBy_iff _ _ _).mp hs
      rw [hc1] at hc
      exact hnoX tr htr (append_right_cancel _ _ _ hc).symm
  refine ⟨hnames, ?_, fun tr htr => ⟨hnoX tr htr, hnoXT tr htr⟩, ?_, ?_⟩
  · rw [← hnames] at hT
    obtain ⟨tb, htb, hn⟩ := List.mem_map.mp hT
    exact ⟨tb, htb, hn⟩
  · intro tb htb c hc
    rcases column_cases o db tables g hrun tb htb c hc with
      ⟨r', hr', _, _, _, c1, hS, rfl⟩ | ⟨tr, htr, hn, _, rfl⟩ | ⟨tr, htr, hn, rfl⟩
    · left
      refine ⟨r', hr', ?_⟩
      rw [(afterForward_tag _ _ _).1, hS.column.1]
    · exact Or.inr ⟨tr, htr, ⟨hnoX tr htr, hnoXT tr htr⟩, Or.inr ⟨hn, rfl⟩⟩
    · exact Or.inr ⟨tr, htr, ⟨hnoX tr htr, hnoXT tr htr⟩, Or.inl ⟨hn, rfl⟩⟩
  · intro tb htb hn
    constructor
    · obtain ⟨pk, fk, bl, c1, hS, hmem, bl0, hp, hf⟩ := scanned_column_id o db tables g hrun
        tb htb (by rw [hn]; exact hTj) r (by rw [hn]; exact hr) X hcol
      have hcc : c1.Tag.Column = X ++ "_id" := by rw [hS.column.1, hcol]
      rw [hkeep tb htb hn c1 hcc] at hmem
      have hk := GetConstraints.foldl_keys (X ++ "_id") (fun e => empty_ne_append_id X e.symm)
        (db.constraintRows (newTable db tb.Name).Name) (newTable db tb.Name, bl0)
        (by
          intro cr hcr
          have : (newTable db tb.Name).Name = T := hn
          rw [this] at hcr
          exact hkey cr hcr)
        (fun e => empty_ne_append_id X e) rfl
      have hpk : pk ≠ r.colName := by
        rw [hp, hcol]
        exact hk.1
      have hfk : mapGet r.colName fk = none := by
        rw [hf, hcol]
        exact hk.2
      exact ⟨c1, hmem, hcc, hS.column.2, hS.plain_type hpk hfk⟩
    · intro c hc hcc
      rcases column_cases o db tables g hrun tb htb c hc with
        ⟨r', hr', _, _, _, c1, hS, rfl⟩ | ⟨tr, htr, _, _, rfl⟩ | ⟨tr, htr, _, rfl⟩
      · rw [(afterForward_tag _ _ _).1] at hcc
        rw [hkeep tb htb hn c1 hcc]
        exact hS.column.2
      · exact rcol_isNeed _ _
      · exact rcol_isNeed _ _

set_option maxRecDepth 100000 in
/-- Witness of C6 on `invoice(id, customer_id)` without a table `customer`. -/
theorem dangling_reference_dropped_witness :
    ∃ tables g, getTableObjects RangeOrder.insertion Globals.initial invoiceCatalog
        = some (tables, g) ∧
      tables.map (fun tb => tb.Name) = ["invoice"] ∧
      (∃ tb ∈ tables, tb.Name = "invoice") ∧
      (∀ tr ∈ g.correcttrlist,
        tr.RelationName ≠ "customer" ∧
          ¬ (tr.SourceName = "customer" ∧ tr.RelationName = "invoice")) ∧
      (∀ tb ∈ tables, ∀ c ∈ tb.Columns,
        (∃ r' ∈ invoiceCatalog.columnRows tb.Name, c.Tag.Column = r'.colName) ∨
        (∃ tr ∈ g.correcttrlist,
          (tr.RelationName ≠ "customer" ∧
            ¬ (tr.SourceName = "customer" ∧ tr.RelationName = "invoice")) ∧
          ((tb.Name = tr.SourceName ∧ c = GetRelationColumns.rcol tr 1) ∨
            (tb.Name = tr.RelationName ∧ c = GetRelationColumns.rcol tr (-1))))) ∧
      (∀ tb ∈ tables, tb.Name = "invoice" →
        (∃ c ∈ tb.Columns, c.Tag.Column = "customer" ++ "_id" ∧ c.IsNeed = true ∧
          (GetGoDataType (intColumnRow "customer_id").dataType = some c.Typ ∨
            GetGoDataType ((intColumnRow "customer_id").dataType ++ " " ++ "unsigned")
              = some c.Typ)) ∧
        (∀ c ∈ tb.Columns, c.Tag.Column = "customer" ++ "_id" → c.IsNeed = true)) :=
  dangling_reference_dropped RangeOrder.insertion invoiceCatalog "invoice" "customer"
    (intColumnRow "customer_id")
    (by decide) (by decide) (by decide) (by decide) (by decide) (by decide) (by decide)
    (by unfold ScanPasses; decide)

set_option maxRecDepth 100000 in
/-- Counterexample to C6 as stated.  With `invoice(id, customer_id)` and the
join table `customer_has_invoice`, and no table `customer`: `invoice` is not
a join table, its column `customer_id` is named by no primary-key or
foreign-key constraint row, no scanned table is named `customer`, the run
succeeds, and `invoice` gains the needed collection column `Customers` of
type `[]*Customer` with the many-to-many tag.  With
`invoice(id, customer_id, payload)` whose column `payload` has the data type
`json`, the same conditions hold and the run ends the process with an
error. -/
theorem dangling_reference_dropped_counterexample :
    ("invoice" ∈ invoiceJoinCatalog.tableNames ∧
      Strings.Contains "invoice" "_has_" = false ∧
      "customer" ∉ invoiceJoinCatalog.tableNames ∧
      intColumnRow "customer_id" ∈ invoiceJoinCatalog.columnRows "invoice" ∧
      (∀ cr ∈ invoiceJoinCatalog.constraintRows "invoice",
        cr.constraintType = "PRIMARY KEY" ∨ cr.constraintType = "FOREIGN KEY" →
        cr.columnName ≠ "customer" ++ "_id") ∧
      (freshRun invoiceJoinCatalog).isSome = true ∧
      ∃ tb ∈ tablesOf (freshRun invoiceJoinCatalog), tb.Name = "invoice" ∧
        ∃ c ∈ tb.Columns, c.IsNeed = true ∧ c.Name = "Customers" ∧
          c.Typ = "[]*" ++ CamelCase "customer" ∧ c.Tag.RelM2M = true) ∧
    ("invoice" ∈ invoiceJsonCatalog.tableNames ∧
      Strings.Contains "invoice" "_has_" = false ∧
      "customer" ∉ invoiceJsonCatalog.tableNames ∧
      intColumnRow "customer_id" ∈ invoiceJsonCatalog.columnRows "invoice" ∧
      (∀ cr ∈ invoiceJsonCatalog.constraintRows "invoice",
        cr.constraintType = "PRIMARY KEY" ∨ cr.constraintType = "FOREIGN KEY" →
        cr.columnName ≠ "customer" ++ "_id") ∧
      (freshRun invoiceJsonCatalog).isSome = false) := by
  decide

set_option maxRecDepth 100000 in
/-- C7 (the code at the failing inputs): for `user(id)` and
`user_profile(user_id, bio)` with primary key `user_id`, the result table
`user_profile` has `Pk = user_id` and its only column named `Id` has
`IsNeed = false`; for `badge(holder_one, label)` with primary key
`holder_one`, the result table has no column named `Id` at all. -/
theorem primary_key_not_surfaced :
    (freshRun userProfileCatalog).isSome = true ∧
    (∃ tb ∈ tablesOf (freshRun userProfileCatalog), tb.Name = "user_profile" ∧
      tb.Pk = "user_id" ∧ ¬ ∃ c ∈ tb.Columns, c.IsNeed = true ∧ c.Name = "Id") ∧
    (freshRun badgeCatalog).isSome = true ∧
    (∃ tb ∈ tablesOf (freshRun badgeCatalog), tb.Name = "badge" ∧
      tb.Pk = "holder_one" ∧ ¬ ∃ c ∈ tb.Columns, c.Name = "Id") := by
  decide

theorem Discovered.rcol_forward_typ {tr : TableRelation} (h : Discovered tr) :
    (GetRelationColumns.rcol tr 1).Typ = "*" ++ CamelCase tr.RelationName ∨
    (GetRelationColumns.rcol tr 1).Typ = "[]*" ++ CamelCase tr.RelationName := by
  rcases h with ⟨j, rfl⟩ | ⟨src, rel, _, rfl | rfl⟩ | ⟨src, rel, hs, rfl⟩
  · exact Or.inr (rcol_manyToMany_forward (manyToManyOf j) rfl rfl rfl).2
  · exact Or.inl rfl
  · exact Or.inl rfl
  · exact Or.inl rfl

theorem confirmed_discovered (o : RangeOrder) (db : Catalog) (tables : List Table)
    (g : Globals) (hrun : getTableObjects o Globals.initial db = some (tables, g)) :
    ∀ tr ∈ g.correcttrlist, tr.IsCorrect = true ∧ tr.RelationName ∈ db.tableNames ∧
      ∃ t, Discovered t ∧ tr = { t with IsCorrect := true } := by
  obtain ⟨tbs1, _, hmap, _, hctl, _⟩ := getTableObjects_spec o db tables g hrun
  have htl := trlist_scanned o db tables g hrun
  intro tr htr
  obtain ⟨e, he, hm, rfl⟩ := (hctl tr).mp htr
  refine ⟨rfl, hm, e.2, ?_, rfl⟩
  rw [hmap] at he
  rcases dedupLoop_mem g.trlist [] e he with h | h
  · cases h
  · exact scanned_discovered db e.2 (htl ▸ h.1)

/-- C8 (amended): in a fresh process, for every result table whose name has
no `_has_` and every name `X`: a column of the table stored as `X_id` has
`IsNeed = false` exactly when the forward relation column of a confirmed
relation of this table to `X` was injected into the same table, a column of
type `*CamelCase X` or, for a many-to-many relation, `[]*CamelCase X`; and
the table has no column stored as `X_one`, whether or not a relation column
was injected. -/
theorem suppression_on_substitution (o : RangeOrder) (db : Catalog) (tables : List Table)
    (g : Globals) (hrun : getTableObjects o Globals.initial db = some (tables, g)) :
    ∀ tb ∈ tables, Strings.Contains tb.Name "_has_" = false → ∀ X : String,
      (∀ c ∈ tb.Columns, c.Tag.Column = X ++ "_id" →
        (c.IsNeed = false ↔
          ∃ tr ∈ g.correcttrlist, tr.SourceName = tb.Name ∧ tr.RelationName = X ∧
            GetRelationColumns.rcol tr 1 ∈ tb.Columns ∧
            ((GetRelationColumns.rcol tr 1).Typ = "*" ++ CamelCase X ∨
              (GetRelationColumns.rcol tr 1).Typ = "[]*" ++ CamelCase X))) ∧
      (∀ c ∈ tb.Columns, c.Tag.Column ≠ X ++ "_one") := by
  intro tb htb hj X
  refine ⟨?_, no_one_column o db tables g hrun tb htb hj X⟩
  obtain ⟨tbs1, _, _, _, _, htabs⟩ := getTableObjects_spec o db tables g hrun
  obtain ⟨tb1, _, _, _, hcols⟩ := htabs tb htb
  have hconf := confirmed_discovered o db tables g hrun
  intro c hc hcc
  rcases column_cases o db tables g hrun tb htb c hc with
    ⟨r', hr', _, _, _, c1, hS, rfl⟩ | ⟨tr, htr, _, _, rfl⟩ | ⟨tr, htr, _, rfl⟩
  · rw [(afterForward_tag _ _ _).1] at hcc
    constructor
    · intro hneed
      have hs : suppressedBy g.correcttrlist tb.Name c1 = true := by
        cases hs : suppressedBy g.correcttrlist tb.Name c1 with
        | true => rfl
        | false =>
          unfold afterForward at hneed
          rw [hs] at hneed
          simp only [Bool.false_eq_true, if_false] at hneed
          rw [hS.column.2] at hneed
          cases hneed
      obtain ⟨tr, htr, hsrc, _, hc1⟩ := (suppressedBy_iff _ _ _).mp hs
      rw [hcc] at hc1
      have hrel : tr.RelationName = X := (append_right_cancel _ _ _ hc1).symm
      obtain ⟨_, _, t, hd, rfl⟩ := hconf tr htr
      refine ⟨_, htr, hsrc.symm, hrel, (hcols _).mpr (Or.inr (Or.inr ⟨_, htr, hsrc, rfl⟩)), ?_⟩
      rw [rcol_correct]
      simp only at hrel
      rw [← hrel]
      exact hd.rcol_forward_typ
    · rintro ⟨tr, htr, hsrc, hrel, _, _⟩
      have hs : suppressedBy g.correcttrlist tb.Name c1 = true :=
        (suppressedBy_iff _ _ _).mpr ⟨tr, htr, hsrc.symm, (hconf tr htr).1, by rw [hcc, hrel]⟩
      unfold afterForward
      rw [hs]
      rfl
  · rw [rcol_column] at hcc
    exact absurd hcc (empty_ne_append_id X)
  · rw [rcol_column] at hcc
    exact absurd hcc (empty_ne_append_id X)

set_option maxRecDepth 100000 in
/-- Witness of C8 on `user(id)`, `order(id, user_id)`, at the table `order`
and the name `user`. -/
theorem suppression_on_substitution_witness :
    ∃ tb ∈ tablesOf (freshRun shopCatalog), tb.Name = "order" ∧
      (∀ c ∈ tb.Columns, c.Tag.Column = "user" ++ "_id" →
        (c.IsNeed = false ↔
          ∃ tr ∈ (globalsOf (freshRun shopCatalog)).correcttrlist,
            tr.SourceName = tb.Name ∧ tr.RelationName = "user" ∧
            GetRelationColumns.rcol tr 1 ∈ tb.Columns ∧
            ((GetRelationColumns.rcol tr 1).Typ = "*" ++ CamelCase "user" ∨
              (GetRelationColumns.rcol tr 1).Typ = "[]*" ++ CamelCase "user"))) ∧
      (∀ c ∈ tb.Columns, c.Tag.Column ≠ "user" ++ "_one") := by
  obtain ⟨tb, htb, hn⟩ : ∃ tb ∈ tablesOf (freshRun shopCatalog), tb.Name = "order" := by
    decide
  exact ⟨tb, htb, hn,
    suppression_on_substitution RangeOrder.insertion shopCatalog
      (tablesOf (freshRun shopCatalog)) (globalsOf (freshRun shopCatalog))
      (freshRun_eq shopCatalog (by decide)) tb htb (by rw [hn]; decide) "user"⟩

set_option maxRecDepth 100000 in
/-- Counterexample to C8 as stated: for `profile(id, ghost_one)` without a
table `ghost`, the scanned column `ghost_one` is missing from the struct of
`profile` although no column of type `*Ghost` was injected into it. -/
theorem suppression_on_substitution_counterexample :
    (freshRun ghostCatalog).isSome = true ∧
    intColumnRow "ghost_one" ∈ ghostCatalog.columnRows "profile" ∧
    ∃ tb ∈ tablesOf (freshRun ghostCatalog), tb.Name = "profile" ∧
      (¬ ∃ c ∈ tb.Columns, c.IsNeed = true ∧ c.Tag.Column = "ghost_one") ∧
      ¬ ∃ c ∈ tb.Columns, c.Typ = "*" ++ CamelCase "ghost" := by
  decide

set_option maxRecDepth 100000 in
/-- C9 (the code at the failing input): for `entry(id, ledger_id, log_id)`,
`ledger` with a composite primary key and `log` without primary key, `ledger`
is on the black list, both have an empty `Pk`, and the result table `entry`
has needed columns of type `*Ledger` and `*Log`. -/
theorem weak_table_referenced :
    (freshRun ledgerCatalog).isSome = true ∧
    "ledger" ∈ (constraintsLoop ledgerCatalog ledgerCatalog.tableNames []).2 ∧
    (∀ tb ∈ tablesOf (freshRun ledgerCatalog),
      tb.Name = "ledger" ∨ tb.Name = "log" → tb.Pk = "") ∧
    ∃ tb ∈ tablesOf (freshRun ledgerCatalog), tb.Name = "entry" ∧
      (∃ c ∈ tb.Columns, c.IsNeed = true ∧ c.Typ = "*" ++ CamelCase "ledger") ∧
      ∃ c ∈ tb.Columns, c.IsNeed = true ∧ c.Typ = "*" ++ CamelCase "log" := by
  decide

set_option maxRecDepth 100000 in
/-- C10 (the code at the failing input): for `pair(a, b)` with the composite
primary key (`a`, `b`) whose constraint rows come back as (`b`, position 2),
(`a`, position 1), the result table has `Pk = a`, `writeControllerFiles`
writes `pair.go` and `writeRouterFile` makes a namespace block for `/pair`. -/
theorem composite_key_exposed :
    (freshRun pairCatalog).isSome = true ∧
    (tablesOf (freshRun pairCatalog)).map (fun tb => (tb.Name, tb.Pk)) = [("pair", "a")] ∧
    (writeControllerFiles (tablesOf (freshRun pairCatalog))).map (fun f => f.fileName)
      = ["pair.go"] ∧
    writeRouterFile (tablesOf (freshRun pairCatalog)) =
      ["\n\t\tbeego.NSNamespace(\"/pair\",\n\t\t\tbeego.NSInclude(\n\t\t\t\t&controllers.PairController\x7b\x7d,\n\t\t\t),\n\t\t),\n"] := by
  decide

/-! ## Black list, map key, naming rule, type mapping, struct text -/

set_option maxRecDepth 100000 in
/-- C11 (the code at the failing input): in the schema of `ledgerCatalog` the
table `log` has no `PRIMARY KEY` row and the table `ledger` has two; after the
constraint loop over all tables the black list holds `ledger` and does not
hold `log`. -/
theorem absent_key_not_blacklisted :
    (ledgerCatalog.constraintRows "log").filter
      (fun r => decide (r.constraintType = "PRIMARY KEY")) = [] ∧
    ((ledgerCatalog.constraintRows "ledger").filter
      (fun r => decide (r.constraintType = "PRIMARY KEY"))).length = 2 ∧
    "log" ∈ ledgerCatalog.tableNames ∧
    "ledger" ∈ (constraintsLoop ledgerCatalog ledgerCatalog.tableNames []).2 ∧
    "log" ∉ (constraintsLoop ledgerCatalog ledgerCatalog.tableNames []).2 := by
  decide

set_option maxRecDepth 100000 in
/-- C12 (the code at the failing input): for `a(id, bc_id)`, `ab(id, c_id)`,
`bc(id)`, `c(id)` the relations (`a`, `bc`) and (`ab`, `c`) are both found,
the map keeps one entry for both, the relation of `ab` to `c`, under the key
`abc`, and the table `a` gets no column of type `*Bc` and keeps `bc_id`. -/
theorem key_collision_merges_pairs :
    (freshRun collisionCatalog).isSome = true ∧
    (globalsOf (freshRun collisionCatalog)).trlist =
      [oneToManyOf "a" "bc", oneToManyOf "ab" "c"] ∧
    (globalsOf (freshRun collisionCatalog)).trmap = [("abc", oneToManyOf "ab" "c")] ∧
    (∃ tb ∈ tablesOf (freshRun collisionCatalog), tb.Name = "a" ∧
      (¬ ∃ c ∈ tb.Columns, c.Typ = "*" ++ CamelCase "bc") ∧
      ∃ c ∈ tb.Columns, c.Tag.Column = "bc_id" ∧ c.IsNeed = true) ∧
    ∃ tb ∈ tablesOf (freshRun collisionCatalog), tb.Name = "bc" ∧
      ¬ ∃ c ∈ tb.Columns, c.Typ = "[]*" ++ CamelCase "a" := by
  decide

/-- C13 (amended): for every table whose name has no `_has_` and every column
row that is not the primary key of the table, declared foreign key or not,
the row loop of `GetColumns` appends to `trlist` exactly the one-to-one
relation to `X` when the column is named `X_one`, exactly the one-to-many
relation to `X` when it is named `X_id`, and nothing when the name ends in
neither `_one` nor `_id`. -/
theorem naming_rule_ignores_foreign_key (bl : List String)
    (st st' : Table × List TableRelation) (r : ColumnRow)
    (h : GetColumns.row bl st r = some st')
    (hj : Strings.Contains st.1.Name "_has_" = false) (_hpk : st.1.Pk ≠ r.colName) :
    (∀ X, r.colName = X ++ "_one" → st'.2 = st.2 ++ [oneToOneOf st.1.Name X]) ∧
    (∀ X, r.colName = X ++ "_id" → st'.2 = st.2 ++ [oneToManyOf st.1.Name X]) ∧
    (Strings.HasSuffix r.colName "_one" = false → Strings.HasSuffix r.colName "_id" = false →
      st'.2 = st.2) := by
  obtain ⟨_, _, _, ht, _⟩ := GetColumns.row_spec bl st st' r h
  refine ⟨?_, ?_, ?_⟩
  · intro X hX
    rw [ht, hX, rowRelation_one _ _ hj]
    rfl
  · intro X hX
    rw [ht, hX, rowRelation_id _ _ hj]
    rfl
  · intro h1 h2
    rw [ht]
    simp [rowRelation, GetColumns.convention, hj, h1, h2]

set_option maxRecDepth 100000 in
/-- Witness of C13: the row `user_id` of `order`, a declared foreign key to
`user`, scanned with an empty `trlist`. -/
theorem naming_rule_ignores_foreign_key_witness :
    ∃ st', GetColumns.row []
        (orderWithForeignKey, []) (intColumnRow "user_id") = some st' ∧
      (∀ X, (intColumnRow "user_id").colName = X ++ "_one" →
        st'.2 = [] ++ [oneToOneOf "order" X]) ∧
      (∀ X, (intColumnRow "user_id").colName = X ++ "_id" →
        st'.2 = [] ++ [oneToManyOf "order" X]) ∧
      (Strings.HasSuffix (intColumnRow "user_id").colName "_one" = false →
        Strings.HasSuffix (intColumnRow "user_id").colName "_id" = false → st'.2 = []) :=
  ⟨(GetColumns.row [] (orderWithForeignKey, []) (intColumnRow "user_id")).get (by decide),
    (Option.some_get _).symm,
    naming_rule_ignores_foreign_key [] (orderWithForeignKey, [])
      _ (intColumnRow "user_id") (Option.some_get _).symm (by decide) (by decide)⟩

set_option maxRecDepth 100000 in
/-- Counterexample to C13 as stated: in `user(id)`, `order(id, user_id)` the
column `user_id` is a declared foreign key of the table `order`, and scanning
appends the one-to-many relation of `order` to `user` to `trlist`. -/
theorem naming_rule_ignores_foreign_key_counterexample :
    (freshRun shopForeignKeyCatalog).isSome = true ∧
    (∃ tb ∈ tablesOf (freshRun shopForeignKeyCatalog), tb.Name = "order" ∧
      (mapGet "user_id" tb.Fk).isSome = true) ∧
    oneToManyOf "order" "user" ∈ (globalsOf (freshRun shopForeignKeyCatalog)).trlist := by
  decide

theorem typeMappingMysql_nodup : (typeMappingMysql.map Prod.fst).Nodup := by
  decide

/-- C14: for every string `t`, `GetGoDataType` returns the Go type the table
`typeMappingMysql` gives for `t` and a nil error when `t` is a key of the
table, and the empty type with a non-nil error when `t` is no key; `varchar`
gives `string`, `bigint unsigned` gives `uint64`, `datetime` gives
`time.Time`, and `json` and `VARCHAR` give the error. -/
theorem type_mapping_total :
    (∀ t : String,
      (∀ v, (t, v) ∈ typeMappingMysql →
        GetGoDataType.results t = (v, none) ∧ GetGoDataType t = some v) ∧
      (t ∉ typeMappingMysql.map Prod.fst →
        (GetGoDataType.results t).1 = "" ∧ (GetGoDataType.results t).2 ≠ none ∧
        GetGoDataType t = none)) ∧
    GetGoDataType.results "varchar" = ("string", none) ∧
    GetGoDataType.results "bigint unsigned" = ("uint64", none) ∧
    GetGoDataType.results "datetime" = ("time.Time", none) ∧
    GetGoDataType.results "json" = ("", some "data type 'json' not found") ∧
    GetGoDataType.results "VARCHAR" = ("", some "data type 'VARCHAR' not found") := by
  refine ⟨?_, by decide, by decide, by decide, by decide, by decide⟩
  intro t
  constructor
  · intro v hv
    have := mapGet_of_mem t v typeMappingMysql typeMappingMysql_nodup hv
    simp [GetGoDataType.results, GetGoDataType, this]
  · intro ht
    have := mapGet_none_of_not_mem t typeMappingMysql ht
    simp [GetGoDataType.results, GetGoDataType, this]

theorem foldl_struct_lines (cols : List Column) :
    ∀ acc : String,
    cols.foldl (fun rv v => if !v.IsNeed then rv ++ "" else rv ++ v.String ++ "\n") acc =
      acc ++ concatAll ((cols.filter (fun c => c.IsNeed)).map (fun c => c.String ++ "\n")) := by
  induction cols with
  | nil =>
    intro acc
    simp [concatAll]
  | cons c rest ih =>
    intro acc
    cases hc : c.IsNeed with
    | false =>
      simp only [List.foldl_cons, hc, Bool.not_false, if_true,
        List.filter_cons, Bool.false_eq_true, if_false]
      rw [String.append_empty]
      exact ih acc
    | true =>
      simp only [List.foldl_cons, hc, Bool.not_true, Bool.false_eq_true, if_false,
        List.filter_cons, if_true, List.map_cons, concatAll]
      rw [ih, String.append_assoc, String.append_assoc, String.append_assoc]

/-- C15: for every table, `Table.String` is the line `type CamelCase(Name)
struct {`, then for each column with `IsNeed = true`, in column order, the
line `Name Type Tag` (`Column.String` and a newline), then the line `}`; a
column with `IsNeed = false` adds nothing, so there is one field line for each
retained column. -/
theorem struct_emission (tb : Table) :
    tb.String =
      "type " ++ CamelCase tb.Name ++ " struct \x7b\n" ++
      concatAll ((tb.Columns.filter (fun c => c.IsNeed)).map
        (fun c => c.Name ++ " " ++ c.Typ ++ " " ++ c.Tag.String ++ "\n")) ++ "\x7d\n" ∧
    ((tb.Columns.filter (fun c => c.IsNeed)).map
        (fun c => c.Name ++ " " ++ c.Typ ++ " " ++ c.Tag.String ++ "\n")).length =
      (tb.Columns.filter (fun c => c.IsNeed)).length := by
  refine ⟨?_, by simp⟩
  unfold Table.String
  rw [foldl_struct_lines]
  rfl
/-! ## The passes as list equations -/

theorem reverseTable_eq :
    ∀ (es : List (String × TableRelation)) (tb : Table) (ctl : List TableRelation),
    reverseTable es tb ctl =
      ({ tb with
          Columns := tb.Columns ++ reverseColumns es tb.Name,
          Relation := tb.Relation ++ (reverseColumns es tb.Name).map (fun c => c.Name) },
        ctl ++ confirmedBy es tb.Name)
  | [], tb, ctl => by simp [reverseTable, reverseColumns, confirmedBy]
  | (k, tr) :: rest, tb, ctl => by
    by_cases hn : tb.Name = tr.RelationName
    · cases hj : Strings.Contains tr.SourceName "_has_" with
      | false =>
        have ih := reverseTable_eq rest (GetRelationColumns tb tr (-1))
          (ctl ++ [{ tr with IsCorrect := true }])
        simp only [reverseTable, hn, hj, if_true, Bool.not_false] at ih ⊢
        rw [ih]
        simp [GetRelationColumns, reverseColumns, confirmedBy, hn, hj, List.filter_cons]
      | true =>
        have ih := reverseTable_eq rest tb (ctl ++ [{ tr with IsCorrect := true }])
        simp only [reverseTable, hn, hj, if_true, Bool.not_true, Bool.false_eq_true,
          if_false] at ih ⊢
        rw [ih]
        simp [reverseColumns, confirmedBy, hn, hj, List.filter_cons]
    · have ih := reverseTable_eq rest tb ctl
      simp only [reverseTable, hn, if_false]
      rw [ih]
      simp [reverseColumns, confirmedBy, hn, List.filter_cons]

theorem afterForward_nil (name : String) (c : Column) : afterForward [] name c = c := by
  simp [afterForward, suppressedBy]

theorem forwardColumns_cons_match (tr : TableRelation) (rest : List TableRelation)
    (name : String) (hm : name = tr.SourceName ∧ tr.IsCorrect = true) :
    forwardColumns (tr :: rest) name = GetRelationColumns.rcol tr 1 :: forwardColumns rest name := by
  simp only [forwardColumns, List.filter_cons, hm, and_self, decide_True, if_true, List.map_cons]

theorem forwardColumns_cons_skip (tr : TableRelation) (rest : List TableRelation)
    (name : String) (hm : ¬ (name = tr.SourceName ∧ tr.IsCorrect = true)) :
    forwardColumns (tr :: rest) name = forwardColumns rest name := by
  simp only [forwardColumns, List.filter_cons, hm, decide_False, Bool.false_eq_true, if_false]

theorem forwardTable_eq :
    ∀ (ctl : List TableRelation) (tb : Table),
    forwardTable ctl tb =
      { tb with
        Columns := tb.Columns.map (afterForward ctl tb.Name) ++ forwardColumns ctl tb.Name,
        Relation := tb.Relation ++ (forwardColumns ctl tb.Name).map (fun c => c.Name) }
  | [], tb => by
    have h : tb.Columns.map (afterForward [] tb.Name) = tb.Columns := by
      rw [List.map_congr_left (fun c _ => afterForward_nil tb.Name c), List.map_id']
    simp [forwardTable, forwardColumns, h]
  | tr :: rest, tb => by
    by_cases hm : tb.Name = tr.SourceName ∧ tr.IsCorrect = true
    · rw [forwardTable_cons_match tr rest tb hm, forwardTable_eq rest,
        forwardColumns_cons_match tr rest tb.Name hm]
      have hr : (if (GetRelationColumns.rcol tr 1).Tag.Column = tr.RelationName ++ "_id"
          then { GetRelationColumns.rcol tr 1 with IsNeed := false }
          else GetRelationColumns.rcol tr 1) = GetRelationColumns.rcol tr 1 := by
        rw [if_neg]
        rw [rcol_column]
        exact empty_ne_append_id _
      have hc : (suppressId tr.RelationName (tb.Columns ++ [GetRelationColumns.rcol tr 1])).map
            (afterForward rest tb.Name) =
          tb.Columns.map (afterForward (tr :: rest) tb.Name) ++ [GetRelationColumns.rcol tr 1] := by
        simp only [suppressId, List.map_append, List.map_map, List.map_cons, List.map_nil, hr,
          afterForward_rcol]
        congr 1
        apply List.map_congr_left
        intro c _
        exact afterForward_cons_match tr rest tb.Name c hm
      simp only [hc, List.append_assoc, List.singleton_append, List.map_cons]
    · rw [forwardTable_cons_skip tr rest tb hm, forwardTable_eq rest,
        forwardColumns_cons_skip tr rest tb.Name hm]
      have hc : tb.Columns.map (afterForward (tr :: rest) tb.Name) =
          tb.Columns.map (afterForward rest tb.Name) :=
        List.map_congr_left (fun c _ => afterForward_cons_skip tr rest tb.Name c hm)
      rw [hc]

theorem suppressedBy_perm {ctl1 ctl2 : List TableRelation} (h : ctl1.Perm ctl2)
    (name : String) (c : Column) : suppressedBy ctl1 name c = suppressedBy ctl2 name c := by
  have key : ∀ a b : List TableRelation, a.Perm b →
      suppressedBy a name c = true → suppressedBy b name c = true := by
    intro a b hab ha
    obtain ⟨tr, htr, hp⟩ := (suppressedBy_iff a name c).mp ha
    exact (suppressedBy_iff b name c).mpr ⟨tr, hab.mem_iff.mp htr, hp⟩
  cases h1 : suppressedBy ctl1 name c with
  | true => exact (key ctl1 ctl2 h h1).symm
  | false =>
    cases h2 : suppressedBy ctl2 name c with
    | false => rfl
    | true => rw [key ctl2 ctl1 h.symm h2] at h1; cases h1

theorem afterForward_perm {ctl1 ctl2 : List TableRelation} (h : ctl1.Perm ctl2)
    (name : String) (c : Column) : afterForward ctl1 name c = afterForward ctl2 name c := by
  unfold afterForward
  rw [suppressedBy_perm h]

theorem reverseColumns_perm {es1 es2 : List (String × TableRelation)} (h : es1.Perm es2)
    (name : String) : (reverseColumns es1 name).Perm (reverseColumns es2 name) :=
  (h.filter _).map _

theorem confirmedBy_perm {es1 es2 : List (String × TableRelation)} (h : es1.Perm es2)
    (name : String) : (confirmedBy es1 name).Perm (confirmedBy es2 name) :=
  (h.filter _).map _

theorem forwardColumns_perm {ctl1 ctl2 : List TableRelation} (h : ctl1.Perm ctl2)
    (name : String) : (forwardColumns ctl1 name).Perm (forwardColumns ctl2 name) :=
  (h.filter _).map _

theorem reverseLoop_eq (o : RangeOrder) (m : List (String × TableRelation)) :
    ∀ (tbs : List Table) (i : Nat) (ctl : List TableRelation),
    (reverseLoop o m i tbs ctl).2 = ctl ++ confirmedAll o m i (tbs.map (fun tb => tb.Name)) ∧
    List.Forall₂ (fun tb t => ∃ j, t = reversedTable (o.visit j m) tb)
      tbs (reverseLoop o m i tbs ctl).1
  | [], i, ctl => by simp [reverseLoop, confirmedAll]
  | tb :: rest, i, ctl => by
    obtain ⟨h1, h2⟩ := reverseLoop_eq o m rest (i + 1) (ctl ++ confirmedBy (o.visit i m) tb.Name)
    simp only [reverseLoop, reverseTable_eq, List.map_cons, confirmedAll]
    refine ⟨?_, ?_⟩
    · rw [h1, List.append_assoc]
    · exact List.Forall₂.cons ⟨i, rfl⟩ h2

theorem confirmedAll_perm (o1 o2 : RangeOrder) (m : List (String × TableRelation)) :
    ∀ (names : List String) (i : Nat),
    (confirmedAll o1 m i names).Perm (confirmedAll o2 m i names)
  | [], _ => by simp [confirmedAll]
  | name :: rest, i => by
    simp only [confirmedAll]
    exact List.Perm.append
      (confirmedBy_perm ((o1.perm i m).trans (o2.perm i m).symm) name)
      (confirmedAll_perm o1 o2 m rest (i + 1))

theorem reverseLoop_pair (o1 o2 : RangeOrder) (m : List (String × TableRelation)) :
    ∀ (tbs : List Table) (i : Nat) (ctl1 ctl2 : List TableRelation),
    List.Forall₂
      (fun t1 t2 => ∃ tb ∈ tbs, ∃ es1 es2 : List (String × TableRelation), es1.Perm es2 ∧
        t1 = reversedTable es1 tb ∧ t2 = reversedTable es2 tb)
      (reverseLoop o1 m i tbs ctl1).1 (reverseLoop o2 m i tbs ctl2).1
  | [], i, ctl1, ctl2 => by simp [reverseLoop]
  | tb :: rest, i, ctl1, ctl2 => by
    have ih := reverseLoop_pair o1 o2 m rest (i + 1)
      (ctl1 ++ confirmedBy (o1.visit i m) tb.Name) (ctl2 ++ confirmedBy (o2.visit i m) tb.Name)
    simp only [reverseLoop, reverseTable_eq]
    refine List.Forall₂.cons ?_ (ih.imp ?_)
    · exact ⟨tb, List.mem_cons_self _ _, o1.visit i m, o2.visit i m,
        (o1.perm i m).trans (o2.perm i m).symm, rfl, rfl⟩
    · rintro t1 t2 ⟨tb0, h0, es1, es2, hp, e1, e2⟩
      exact ⟨tb0, List.mem_cons_of_mem _ h0, es1, es2, hp, e1, e2⟩

theorem forwardTable_pair (db : Catalog) (tb : Table)
    (hphys : ∀ c ∈ tb.Columns, ∃ r ∈ db.columnRows tb.Name, c.Tag.Column = r.colName)
    {es1 es2 : List (String × TableRelation)} (hes : es1.Perm es2)
    {ctl1 ctl2 : List TableRelation} (hc : ctl1.Perm ctl2) :
    SameUpToInjectionOrder db (forwardTable ctl1 (reversedTable es1 tb))
      (forwardTable ctl2 (reversedTable es2 tb)) := by
  have hrev : ∀ (ctl : List TableRelation) (es : List (String × TableRelation)),
      (reverseColumns es tb.Name).map (afterForward ctl tb.Name) = reverseColumns es tb.Name := by
    intro ctl es
    unfold reverseColumns
    rw [List.map_map]
    apply List.map_congr_left
    intro e _
    exact afterForward_rcol ctl tb.Name e.2 (-1)
  rw [forwardTable_eq ctl1, forwardTable_eq ctl2]
  simp only [reversedTable, List.map_append, hrev, List.append_assoc]
  refine ⟨rfl, rfl, rfl, rfl, rfl, rfl, ?_, ?_⟩
  · exact List.Perm.append_left _
      (List.Perm.append ((reverseColumns_perm hes tb.Name).map _)
        ((forwardColumns_perm hc tb.Name).map _))
  · refine ⟨tb.Columns.map (afterForward ctl1 tb.Name),
      reverseColumns es1 tb.Name ++ forwardColumns ctl1 tb.Name,
      reverseColumns es2 tb.Name ++ forwardColumns ctl2 tb.Name, rfl, ?_, ?_, ?_, ?_⟩
    · rw [List.map_congr_left (fun c _ => afterForward_perm hc tb.Name c)]
    · exact List.Perm.append (reverseColumns_perm hes tb.Name) (forwardColumns_perm hc tb.Name)
    · intro c hcm
      rcases List.mem_append.mp hcm with h | h
      · obtain ⟨e, _, rfl⟩ := List.mem_map.mp h
        exact rcol_column _ _
      · obtain ⟨tr, _, rfl⟩ := List.mem_map.mp h
        exact rcol_column _ _
    · intro c hcm
      obtain ⟨c0, h0, rfl⟩ := List.mem_map.mp hcm
      rw [(afterForward_tag ctl1 tb.Name c0).1]
      exact hphys c0 h0

theorem run_eq (o : RangeOrder) (g0 : Globals) (db : Catalog)
    (h : (getTableObjects o g0 db).isSome = true) :
    getTableObjects o g0 db =
      some (tablesOf (getTableObjects o g0 db), globalsOf (getTableObjects o g0 db)) := by
  cases hr : getTableObjects o g0 db with
  | none =>
    rw [hr] at h
    cases h
  | some p => rfl

theorem scanned_physical (db : Catalog) (tbs1 : List Table) (trl : List TableRelation)
    (h : scanTables Globals.initial db = some (tbs1, trl)) :
    ∀ tb ∈ tbs1, ∀ c ∈ tb.Columns, ∃ r ∈ db.columnRows tb.Name, c.Tag.Column = r.colName := by
  intro tb htb c hc
  obtain ⟨_, _, hs⟩ := scanTables_spec db tbs1 trl h
  obtain ⟨r, hr, hsc⟩ := ((hs tb htb).2 c).mp hc
  exact ⟨r, hr, hsc.column.1⟩

/-! ## Iteration order of the relation map -/

/-- C16 (as the code has it): in a fresh process, two runs of
`getTableObjects` on the same catalog that visit the relation map in any two
orders leave the same `trlist` and `trmap`, the same confirmed relations up
to their order, and tables that correspond one to one: same name, keys and
comment, the same stored columns in the same order with the same `IsNeed`,
and the same injected relation columns up to their order. -/
theorem tables_up_to_injection_order (o1 o2 : RangeOrder) (db : Catalog)
    (tables1 tables2 : List Table) (g1 g2 : Globals)
    (h1 : getTableObjects o1 Globals.initial db = some (tables1, g1))
    (h2 : getTableObjects o2 Globals.initial db = some (tables2, g2)) :
    g1.trlist = g2.trlist ∧ g1.trmap = g2.trmap ∧
    g1.correcttrlist.Perm g2.correcttrlist ∧
    List.Forall₂ (SameUpToInjectionOrder db) tables1 tables2 := by
  unfold getTableObjects at h1 h2
  cases hs : scanTables Globals.initial db with
  | none =>
    rw [hs] at h1
    cases h1
  | some p =>
    obtain ⟨tbs1, trl⟩ := p
    rw [hs] at h1 h2
    simp only [Option.some.injEq, Prod.mk.injEq] at h1 h2
    obtain ⟨rfl, rfl⟩ := h1
    obtain ⟨rfl, rfl⟩ := h2
    have hctl : (reverseLoop o1 (dedupLoop Globals.initial.trmap trl) 0 tbs1
          Globals.initial.correcttrlist).2.Perm
        (reverseLoop o2 (dedupLoop Globals.initial.trmap trl) 0 tbs1
          Globals.initial.correcttrlist).2 := by
      rw [(reverseLoop_eq o1 _ tbs1 0 _).1, (reverseLoop_eq o2 _ tbs1 0 _).1]
      exact List.Perm.append_left _ (confirmedAll_perm o1 o2 _ _ 0)
    refine ⟨rfl, rfl, hctl, ?_⟩
    unfold forwardLoop
    rw [List.forall₂_map_left_iff, List.forall₂_map_right_iff]
    refine (reverseLoop_pair o1 o2 _ tbs1 0 _ _).imp ?_
    rintro t1 t2 ⟨tb, htb, es1, es2, hp, rfl, rfl⟩
    exact forwardTable_pair db tb (scanned_physical db tbs1 trl hs tb htb) hp hctl

set_option maxRecDepth 100000 in
/-- Witness of C16 on the schema `user`, `order(user_id)`, `post(user_id)`,
the map being visited in insertion order in one run and backwards in the
other. -/
theorem tables_up_to_injection_order_witness :
    (freshRun blogCatalog).isSome = true ∧
    (getTableObjects RangeOrder.reversed Globals.initial blogCatalog).isSome = true ∧
    (globalsOf (freshRun blogCatalog)).trlist =
      (globalsOf (getTableObjects RangeOrder.reversed Globals.initial blogCatalog)).trlist ∧
    (globalsOf (freshRun blogCatalog)).trmap =
      (globalsOf (getTableObjects RangeOrder.reversed Globals.initial blogCatalog)).trmap ∧
    (globalsOf (freshRun blogCatalog)).correcttrlist.Perm
      (globalsOf (getTableObjects RangeOrder.reversed Globals.initial blogCatalog)).correcttrlist ∧
    List.Forall₂ (SameUpToInjectionOrder blogCatalog) (tablesOf (freshRun blogCatalog))
      (tablesOf (getTableObjects RangeOrder.reversed Globals.initial blogCatalog)) :=
  ⟨by decide, by decide,
    tables_up_to_injection_order RangeOrder.insertion RangeOrder.reversed blogCatalog _ _ _ _
      (freshRun_eq blogCatalog (by decide))
      (run_eq RangeOrder.reversed Globals.initial blogCatalog (by decide))⟩

set_option maxRecDepth 100000 in
/-- Counterexample to C16 as stated: on the schema `user`, `order(user_id)`,
`post(user_id)` the run that visits the map in insertion order and the run
that visits it backwards both succeed and return different struct texts for
`user`: `Orders` before `Posts` in one, `Posts` before `Orders` in the
other. -/
theorem tables_up_to_injection_order_counterexample :
    (freshRun blogCatalog).isSome = true ∧
    (getTableObjects RangeOrder.reversed Globals.initial blogCatalog).isSome = true ∧
    (tablesOf (freshRun blogCatalog)).map (fun tb => tb.Name) = ["user", "order", "post"] ∧
    ((tablesOf (freshRun blogCatalog)).map
        (fun tb => (tb.Columns.filter (fun c => c.IsNeed)).map (fun c => c.Name))).head? =
      some ["Id", "Orders", "Posts"] ∧
    ((tablesOf (getTableObjects RangeOrder.reversed Globals.initial blogCatalog)).map
        (fun tb => (tb.Columns.filter (fun c => c.IsNeed)).map (fun c => c.Name))).head? =
      some ["Id", "Posts", "Orders"] ∧
    (tablesOf (freshRun blogCatalog)).map Table.String ≠
      (tablesOf (getTableObjects RangeOrder.reversed Globals.initial blogCatalog)).map
        Table.String := by
  decide
/-! ## The collections are carried from one invocation to the next -/

theorem GetColumns.row_frame (bl : List String) (pre : List TableRelation) (tb : Table)
    (l : List TableRelation) (r : ColumnRow) :
    GetColumns.row bl (tb, pre ++ l) r =
      (GetColumns.row bl (tb, l) r).map (fun st => (st.1, pre ++ st.2)) := by
  simp only [GetColumns.row]
  cases GetGoDataType r.dataType with
  | none => rfl
  | some ty =>
    simp only []
    cases GetColumns.keys tb.Pk tb.Fk bl r { Name := CamelCase r.colName, Typ := ty, IsNeed := true }
        { Column := r.colName, Comment := r.columnComment, Default := r.columnDefault } with
    | none => rfl
    | some p =>
      simp only [Option.map_some']
      split <;> simp [List.append_assoc] <;> split <;> rfl

theorem GetColumns.rows_frame (bl : List String) (pre : List TableRelation) :
    ∀ (rs : List ColumnRow) (tb : Table) (l : List TableRelation),
    GetColumns.rows bl rs (tb, pre ++ l) =
      (GetColumns.rows bl rs (tb, l)).map (fun st => (st.1, pre ++ st.2))
  | [], tb, l => by simp [GetColumns.rows]
  | r :: rs, tb, l => by
    simp only [GetColumns.rows]
    rw [GetColumns.row_frame]
    cases h : GetColumns.row bl (tb, l) r with
    | none => rfl
    | some st =>
      obtain ⟨tb1, l1⟩ := st
      simp only [Option.map_some']
      exact GetColumns.rows_frame bl pre rs tb1 l1

theorem GetColumns_frame (db : Catalog) (tb : Table) (bl : List String)
    (pre l : List TableRelation) :
    GetColumns db tb bl (pre ++ l) =
      (GetColumns db tb bl l).map (fun st => (st.1, pre ++ st.2)) := by
  unfold GetColumns
  have hj : GetColumns.joinTable tb (pre ++ l) = pre ++ GetColumns.joinTable tb l := by
    unfold GetColumns.joinTable
    split <;> simp [List.append_assoc]
  rw [hj, GetColumns.rows_frame]

theorem columnsLoop_frame (db : Catalog) (bl : List String) (pre : List TableRelation) :
    ∀ (tbs : List Table) (l : List TableRelation),
    columnsLoop db bl tbs (pre ++ l) =
      (columnsLoop db bl tbs l).map (fun st => (st.1, pre ++ st.2))
  | [], l => by simp [columnsLoop]
  | tb :: rest, l => by
    simp only [columnsLoop]
    rw [GetColumns_frame]
    cases h : GetColumns db tb bl l with
    | none => rfl
    | some st =>
      obtain ⟨tb1, l1⟩ := st
      simp only [Option.map_some']
      rw [columnsLoop_frame db bl pre rest l1]
      cases h2 : columnsLoop db bl rest l1 with
      | none => rfl
      | some st2 => rfl

theorem scanTables_frame (g0 : Globals) (db : Catalog) :
    scanTables g0 db =
      (scanTables Globals.initial db).map (fun st => (st.1, g0.trlist ++ st.2)) := by
  unfold scanTables
  have h := columnsLoop_frame db (constraintsLoop db db.tableNames []).2 g0.trlist
    (constraintsLoop db db.tableNames []).1 []
  rw [List.append_nil] at h
  exact h

/-- C17 (as the code has it): nothing resets the three collections, an
invocation of `getTableObjects` continues from their prior content `g0`.
The tables scanned from the catalog are those of a fresh start, but
`trlist` is the prior list followed by the relations of this catalog,
`trmap` is the prior map after the de-duplication loop has run over that
whole list, `correcttrlist` is the prior list followed by the relations
confirmed in this invocation, and the returned tables are the scanned
tables with the reverse columns of that map and the forward columns of that
list; so every confirmed relation of the prior content whose source is a
returned table puts its forward column into that table. -/
theorem collections_carried_over (o : RangeOrder) (g0 : Globals) (db : Catalog)
    (tables : List Table) (g : Globals)
    (h : getTableObjects o g0 db = some (tables, g)) :
    ∃ tbs1,
      scanTables Globals.initial db =
        some (tbs1, db.tableNames.flatMap (tableRelations db)) ∧
      g.trlist = g0.trlist ++ db.tableNames.flatMap (tableRelations db) ∧
      g.trmap = dedupLoop g0.trmap g.trlist ∧
      g.correcttrlist = g0.correcttrlist ++ confirmedAll o g.trmap 0 db.tableNames ∧
      List.Forall₂
        (fun tb1 tb => ∃ j,
          tb = forwardTable g.correcttrlist (reversedTable (o.visit j g.trmap) tb1))
        tbs1 tables ∧
      ∀ tb ∈ tables, ∀ tr ∈ g0.correcttrlist, tb.Name = tr.SourceName →
        tr.IsCorrect = true → GetRelationColumns.rcol tr 1 ∈ tb.Columns := by
  unfold getTableObjects at h
  rw [scanTables_frame] at h
  cases hs : scanTables Globals.initial db with
  | none =>
    rw [hs] at h
    cases h
  | some p =>
    obtain ⟨tbs1, trl⟩ := p
    rw [hs] at h
    simp only [Option.map_some', Option.some.injEq, Prod.mk.injEq] at h
    obtain ⟨rfl, rfl⟩ := h
    obtain ⟨htrl, hnames, _⟩ := scanTables_spec db tbs1 trl hs
    subst htrl
    obtain ⟨hc, hf⟩ := reverseLoop_eq o
      (dedupLoop g0.trmap (g0.trlist ++ db.tableNames.flatMap (tableRelations db)))
      tbs1 0 g0.correcttrlist
    rw [hnames] at hc
    refine ⟨tbs1, rfl, rfl, rfl, hc, ?_, ?_⟩
    · unfold forwardLoop
      rw [List.forall₂_map_right_iff]
      refine hf.imp ?_
      rintro tb1 t ⟨j, rfl⟩
      exact ⟨j, rfl⟩
    · intro tb htb tr htr hn hcor
      unfold forwardLoop at htb
      obtain ⟨t, _, rfl⟩ := List.mem_map.mp htb
      obtain ⟨hname, _, hcols⟩ := forwardTable_spec
        (reverseLoop o
          (dedupLoop g0.trmap (g0.trlist ++ db.tableNames.flatMap (tableRelations db)))
          0 tbs1 g0.correcttrlist).2 t
      rw [hname] at hn
      refine (hcols _).mpr (Or.inr ⟨tr, ?_, hn, hcor, rfl⟩)
      rw [hc]
      exact List.mem_append_left _ htr

set_option maxRecDepth 100000 in
/-- Witness of C17: a second invocation on the schema `user`,
`order(user_id)`, starting from the collections the first one left. -/
theorem collections_carried_over_witness :
    (getTableObjects RangeOrder.insertion (globalsOf (freshRun shopCatalog))
      shopCatalog).isSome = true ∧
    ∃ tbs1,
      scanTables Globals.initial shopCatalog =
        some (tbs1, shopCatalog.tableNames.flatMap (tableRelations shopCatalog)) ∧
      (globalsOf (getTableObjects RangeOrder.insertion (globalsOf (freshRun shopCatalog))
        shopCatalog)).trlist =
        (globalsOf (freshRun shopCatalog)).trlist ++
          shopCatalog.tableNames.flatMap (tableRelations shopCatalog) ∧
      (globalsOf (getTableObjects RangeOrder.insertion (globalsOf (freshRun shopCatalog))
        shopCatalog)).trmap =
        dedupLoop (globalsOf (freshRun shopCatalog)).trmap
          (globalsOf (getTableObjects RangeOrder.insertion (globalsOf (freshRun shopCatalog))
            shopCatalog)).trlist ∧
      (globalsOf (getTableObjects RangeOrder.insertion (globalsOf (freshRun shopCatalog))
        shopCatalog)).correcttrlist =
        (globalsOf (freshRun shopCatalog)).correcttrlist ++
          confirmedAll RangeOrder.insertion
            (globalsOf (getTableObjects RangeOrder.insertion (globalsOf (freshRun shopCatalog))
              shopCatalog)).trmap 0 shopCatalog.tableNames ∧
      List.Forall₂
        (fun tb1 tb => ∃ j,
          tb = forwardTable
            (globalsOf (getTableObjects RangeOrder.insertion (globalsOf (freshRun shopCatalog))
              shopCatalog)).correcttrlist
            (reversedTable (RangeOrder.insertion.visit j
              (globalsOf (getTableObjects RangeOrder.insertion
                (globalsOf (freshRun shopCatalog)) shopCatalog)).trmap) tb1))
        tbs1
        (tablesOf (getTableObjects RangeOrder.insertion (globalsOf (freshRun shopCatalog))
          shopCatalog)) ∧
      ∀ tb ∈ tablesOf (getTableObjects RangeOrder.insertion
          (globalsOf (freshRun shopCatalog)) shopCatalog),
        ∀ tr ∈ (globalsOf (freshRun shopCatalog)).correcttrlist, tb.Name = tr.SourceName →
          tr.IsCorrect = true → GetRelationColumns.rcol tr 1 ∈ tb.Columns :=
  ⟨by decide,
    collections_carried_over RangeOrder.insertion (globalsOf (freshRun shopCatalog))
      shopCatalog _ _
      (run_eq RangeOrder.insertion (globalsOf (freshRun shopCatalog)) shopCatalog
        (by decide))⟩

set_option maxRecDepth 100000 in
/-- Counterexample to C17 as stated: on the schema `user`, `order(user_id)`
the first invocation returns `order` with the columns `Id`, `User`; a second
invocation, starting from the collections the first one left, succeeds and
returns `order` with `Id`, `User`, `User`, and afterwards `trlist` and
`correcttrlist` have two entries where a fresh start leaves one. -/
theorem collections_carried_over_counterexample :
    (freshRun shopCatalog).isSome = true ∧
    (getTableObjects RangeOrder.insertion (globalsOf (freshRun shopCatalog))
      shopCatalog).isSome = true ∧
    (tablesOf (freshRun shopCatalog)).map
        (fun tb => (tb.Name, (tb.Columns.filter (fun c => c.IsNeed)).map (fun c => c.Name))) =
      [("user", ["Id", "Orders"]), ("order", ["Id", "User"])] ∧
    (tablesOf (getTableObjects RangeOrder.insertion (globalsOf (freshRun shopCatalog))
        shopCatalog)).map
        (fun tb => (tb.Name, (tb.Columns.filter (fun c => c.IsNeed)).map (fun c => c.Name))) =
      [("user", ["Id", "Orders"]), ("order", ["Id", "User", "User"])] ∧
    tablesOf (getTableObjects RangeOrder.insertion (globalsOf (freshRun shopCatalog))
        shopCatalog) ≠ tablesOf (freshRun shopCatalog) ∧
    (globalsOf (freshRun shopCatalog)).trlist.length = 1 ∧
    (globalsOf (freshRun shopCatalog)).correcttrlist.length = 1 ∧
    (globalsOf (getTableObjects RangeOrder.insertion (globalsOf (freshRun shopCatalog))
        shopCatalog)).trlist.length = 2 ∧
    (globalsOf (getTableObjects RangeOrder.insertion (globalsOf (freshRun shopCatalog))
        shopCatalog)).correcttrlist.length = 2 := by
  decide
/-! ## Lemmas on `Split` and `Replace` -/

theorem indexL_cons_none {pat : List Char} {c : Char} {cs : List Char}
    (h : indexL pat (c :: cs) = none) :
    pat.isPrefixOf (c :: cs) = false ∧ indexL pat cs = none := by
  simp only [indexL] at h
  cases hp : pat.isPrefixOf (c :: cs) with
  | true => rw [hp] at h; simp at h
  | false =>
    rw [hp] at h
    refine ⟨rfl, ?_⟩
    cases hi : indexL pat cs with
    | none => rfl
    | some n => rw [hi] at h; simp at h

theorem indexL_one_none (x : Char) :
    ∀ s : List Char, x ∉ s → indexL [x] s = none
  | [], _ => by simp [indexL, List.isPrefixOf]
  | c :: cs, h => by
    have hc : x ≠ c := fun e => h (e ▸ List.mem_cons_self _ _)
    have ih := indexL_one_none x cs (fun hm => h (List.mem_cons_of_mem _ hm))
    simp [indexL, List.isPrefixOf, hc, ih]

theorem splitL_none (sep : List Char) :
    ∀ s : List Char, indexL sep s = none → splitL sep 0 s = [s]
  | [], _ => by simp [splitL]
  | c :: cs, h => by
    obtain ⟨hp, hi⟩ := indexL_cons_none h
    simp [splitL, hp, splitL_none sep cs hi]

theorem splitL_one (x : Char) (rest : List Char) :
    ∀ a : List Char, x ∉ a → splitL [x] 0 (a ++ x :: rest) = a :: splitL [x] 0 rest
  | [], _ => by simp [splitL, List.isPrefixOf]
  | c :: cs, h => by
    have hc : x ≠ c := fun e => h (e ▸ List.mem_cons_self _ _)
    have ih := splitL_one x rest cs (fun hm => h (List.mem_cons_of_mem _ hm))
    simp [splitL, List.isPrefixOf, hc, ih]

theorem splitL_two (x y : Char) (hxy : x ≠ y) (rest : List Char) :
    ∀ a : List Char, indexL [x, y] a = none →
      splitL [x, y] 0 (a ++ x :: y :: rest) = a :: splitL [x, y] 0 rest
  | [], _ => by simp [splitL, List.isPrefixOf]
  | [c], h => by
    have hyx : y ≠ x := fun e => hxy e.symm
    simp [splitL, List.isPrefixOf, hyx]
  | c :: d :: cs, h => by
    obtain ⟨hp, hi⟩ := indexL_cons_none h
    have ih := splitL_two x y hxy rest (d :: cs) hi
    have hp2 : [x, y].isPrefixOf (c :: d :: (cs ++ x :: y :: rest)) = false := by
      simpa [List.isPrefixOf] using hp
    simp only [List.cons_append] at ih ⊢
    rw [splitL, hp2, ih]
    simp

theorem Split_none (s sep : String) (h : indexL sep.data s.data = none) :
    Strings.Split s sep = [s] := by
  unfold Strings.Split
  rw [splitL_none _ _ h]
  rfl

theorem Split_one (sep a rest : String) (x : Char) (hsep : sep.data = [x])
    (h : x ∉ a.data) :
    Strings.Split (a ++ sep ++ rest) sep = a :: Strings.Split rest sep := by
  unfold Strings.Split
  rw [String.data_append, String.data_append, hsep, List.append_assoc, List.singleton_append,
    splitL_one x _ _ h]
  rfl

theorem Split_two (sep a rest : String) (x y : Char) (hsep : sep.data = [x, y])
    (hxy : x ≠ y) (h : indexL sep.data a.data = none) :
    Strings.Split (a ++ sep ++ rest) sep = a :: Strings.Split rest sep := by
  unfold Strings.Split
  rw [hsep] at h
  rw [String.data_append, String.data_append, hsep, List.append_assoc]
  show List.map String.mk (splitL [x, y] 0 (a.data ++ x :: y :: rest.data)) = _
  rw [splitL_two x y hxy _ _ h]
  rfl

theorem Split_space_none (s : String) (h : ' ' ∉ s.data) : Strings.Split s " " = [s] :=
  Split_none s " " (indexL_one_none ' ' s.data h)

theorem rule_three (pos N A F B : String) (name imports : String)
    (hN : ' ' ∉ N.data) (hA : plainToken A) (hF : plainToken F) (hB : plainToken B) :
    FixController.rule
        { Name := name, Pos := pos, Rule := N ++ " " ++ A ++ "->" ++ F ++ "->" ++ B,
          Imports := imports } =
      some { Name := N, Args := Strings.Split A ",", Func := F, Back := B } := by
  have e : N ++ " " ++ A ++ "->" ++ F ++ "->" ++ B = N ++ " " ++ (A ++ "->" ++ (F ++ "->" ++ B)) := by
    simp only [String.append_assoc]
  have hs : ' ' ∉ (A ++ "->" ++ (F ++ "->" ++ B)).data := by
    simp only [String.data_append, List.mem_append, not_or]
    exact ⟨⟨hA.1, by decide⟩, ⟨hF.1, by decide⟩, hB.1⟩
  have h1 : Strings.Split (N ++ " " ++ A ++ "->" ++ F ++ "->" ++ B) " " =
      [N, A ++ "->" ++ (F ++ "->" ++ B)] := by
    rw [e, Split_one " " N _ ' ' rfl hN, Split_space_none _ hs]
  have h2 : Strings.Split (A ++ "->" ++ (F ++ "->" ++ B)) "->" = [A, F, B] := by
    rw [Split_two "->" A _ '-' '>' rfl (by decide) hA.2,
      Split_two "->" F _ '-' '>' rfl (by decide) hF.2, Split_none B "->" hB.2]
  simp [FixController.rule, h1, h2]

theorem rule_two (pos N A F : String) (name imports : String)
    (hN : ' ' ∉ N.data) (hA : plainToken A) (hF : plainToken F) :
    FixController.rule
        { Name := name, Pos := pos, Rule := N ++ " " ++ A ++ "->" ++ F,
          Imports := imports } =
      some { Name := N, Args := Strings.Split A ",", Func := F, Back := "-1" } := by
  have e : N ++ " " ++ A ++ "->" ++ F = N ++ " " ++ (A ++ "->" ++ F) := by
    simp only [String.append_assoc]
  have hs : ' ' ∉ (A ++ "->" ++ F).data := by
    simp only [String.data_append, List.mem_append, not_or]
    exact ⟨⟨hA.1, by decide⟩, hF.1⟩
  have h1 : Strings.Split (N ++ " " ++ A ++ "->" ++ F) " " = [N, A ++ "->" ++ F] := by
    rw [e, Split_one " " N _ ' ' rfl hN, Split_space_none _ hs]
  have h2 : Strings.Split (A ++ "->" ++ F) "->" = [A, F] := by
    rw [Split_two "->" A _ '-' '>' rfl (by decide) hA.2, Split_none F "->" hF.2]
  simp [FixController.rule, h1, h2]

theorem indexL_two_join (x y c : Char) (hcx : c ≠ x) (hcy : c ≠ y) (b : List Char)
    (hb : indexL [x, y] b = none) :
    ∀ a : List Char, indexL [x, y] a = none → indexL [x, y] (a ++ c :: b) = none
  | [], _ => by
    have hxc : x ≠ c := fun e => hcx e.symm
    simp [indexL, List.isPrefixOf, hxc, hb]
  | [d], _ => by
    have hxc : x ≠ c := fun e => hcx e.symm
    have hyc : y ≠ c := fun e => hcy e.symm
    simp [indexL, List.isPrefixOf, hxc, hyc, hb]
  | d :: e :: cs, h => by
    obtain ⟨hp, hi⟩ := indexL_cons_none h
    have ih := indexL_two_join x y c hcx hcy b hb (e :: cs) hi
    have hp2 : [x, y].isPrefixOf (d :: e :: (cs ++ c :: b)) = false := by
      simpa [List.isPrefixOf] using hp
    simp only [List.cons_append] at ih ⊢
    rw [indexL, hp2, ih]
    simp

theorem plainToken_pair (f v : String) (hf : plainField f) (hv : plainField v) :
    plainToken (f ++ ":" ++ v) ∧ ',' ∉ (f ++ ":" ++ v).data := by
  refine ⟨⟨?_, ?_⟩, ?_⟩
  · simp only [String.data_append, List.mem_append, not_or]
    exact ⟨⟨hf.1.1, by decide⟩, hv.1.1⟩
  · rw [String.data_append, String.data_append, List.append_assoc]
    exact indexL_two_join '-' '>' ':' (by decide) (by decide) _ hv.1.2 _ hf.1.2
  · simp only [String.data_append, List.mem_append, not_or]
    exact ⟨⟨hf.2.1, by decide⟩, hv.2.1⟩

theorem argumentList_spec :
    ∀ args : List (String × String), args ≠ [] →
      (∀ p ∈ args, plainField p.1 ∧ plainField p.2) →
      plainToken (argumentList args) ∧
      Strings.Split (argumentList args) "," = args.map (fun p => p.1 ++ ":" ++ p.2)
  | [], h, _ => absurd rfl h
  | [p], _, hfv => by
    obtain ⟨hf, hv⟩ := hfv p (List.mem_cons_self _ _)
    obtain ⟨ht, hc⟩ := plainToken_pair p.1 p.2 hf hv
    refine ⟨ht, ?_⟩
    simp only [argumentList, List.map_cons, List.map_nil]
    exact Split_none _ "," (indexL_one_none ',' _ hc)
  | p :: q :: rest, _, hfv => by
    obtain ⟨hf, hv⟩ := hfv p (List.mem_cons_self _ _)
    obtain ⟨ht, hc⟩ := plainToken_pair p.1 p.2 hf hv
    obtain ⟨ih1, ih2⟩ := argumentList_spec (q :: rest) (List.cons_ne_nil _ _)
      (fun p0 h0 => hfv p0 (List.mem_cons_of_mem _ h0))
    refine ⟨⟨?_, ?_⟩, ?_⟩
    · have h1 := ht.1
      simp only [argumentList]
      rw [String.data_append, String.data_append, List.mem_append, List.mem_append, not_or,
        not_or]
      exact ⟨⟨h1, by decide⟩, ih1.1⟩
    · simp only [argumentList]
      rw [String.data_append, String.data_append, List.append_assoc]
      exact indexL_two_join '-' '>' ',' (by decide) (by decide) _ ih1.2 _ ht.2
    · simp only [argumentList, List.map_cons]
      rw [Split_one "," _ _ ',' rfl hc, ih2]
      rfl

theorem fieldsLoop_pairs :
    ∀ (args : List (String × String)) (acc : String),
      (∀ p ∈ args, plainField p.1 ∧ plainField p.2) →
      FixController.fieldsLoop (args.map (fun p => p.1 ++ ":" ++ p.2)) acc =
        some (acc ++ concatAll (args.map fun p =>
          Strings.ReplaceAll p.1 "&#58;" ":" ++ ": " ++
            Strings.ReplaceAll p.2 "&#58;" ":" ++ "," ++ "\n"))
  | [], acc, _ => by simp [FixController.fieldsLoop, concatAll]
  | p :: rest, acc, hfv => by
    obtain ⟨hf, hv⟩ := hfv p (List.mem_cons_self _ _)
    have hs : Strings.Split (p.1 ++ ":" ++ p.2) ":" = [p.1, p.2] := by
      rw [Split_one ":" _ _ ':' rfl hf.2.2, Split_none _ ":" (indexL_one_none ':' _ hv.2.2)]
    have ih := fieldsLoop_pairs rest
      (acc ++ Strings.ReplaceAll p.1 "&#58;" ":" ++ ": " ++
        Strings.ReplaceAll p.2 "&#58;" ":" ++ "," ++ "\n")
      (fun p0 h0 => hfv p0 (List.mem_cons_of_mem _ h0))
    simp only [List.map_cons, FixController.fieldsLoop, hs, List.getElem?_cons_zero,
      List.getElem?_cons_succ, concatAll]
    rw [ih]
    simp only [String.append_assoc]
/-! ## Rule translation -/

/-- C19 (as the code has it): for every rule string `N A->F->B` where `N` is
not `Func` and has no space, `A` is a non-empty list `f1:v1,...,fn:vn` whose
fields and values have no space, comma, colon or `->`, `F` and `B` have no
space and no `->`, and `B` is not `-1`, the snippet for the marker `// P` is
`// P`, newline, `lower(N) := &rules.NRule{`, newline, for each pair the line
`fi: vi,` in which every `&#58;` of `fi` and `vi` has become a colon, then
`}`, newline, and `B = lower(N).F` followed by newline and tab. -/
theorem object_rule_snippet (P N F B name imports : String) (args : List (String × String))
    (hN : N ≠ "Func") (hNs : ' ' ∉ N.data) (hargs : args ≠ [])
    (hfv : ∀ p ∈ args, plainField p.1 ∧ plainField p.2)
    (hF : plainToken F) (hB : plainToken B) (hB1 : B ≠ "-1") :
    FixController.snippet
        (FixController.newApi name
          { Pos := P, Rule := N ++ " " ++ argumentList args ++ "->" ++ F ++ "->" ++ B,
            Imports := imports }) =
      some ("// " ++ P ++ "\n" ++ Strings.ToLower N ++ " := &rules." ++ N ++ "Rule\x7b" ++ "\n" ++
        concatAll (args.map fun p =>
          Strings.ReplaceAll p.1 "&#58;" ":" ++ ": " ++
            Strings.ReplaceAll p.2 "&#58;" ":" ++ "," ++ "\n") ++
        "\x7d" ++ "\n" ++ B ++ " = " ++ Strings.ToLower N ++ "." ++ F ++ "\n\t") := by
  obtain ⟨hA, hsplit⟩ := argumentList_spec args hargs hfv
  have hl := fieldsLoop_pairs args "" hfv
  rw [String.empty_append] at hl
  simp only [FixController.snippet, FixController.newApi,
    rule_three ("// " ++ P) N (argumentList args) F B name imports hNs hA hF hB,
    FixController.ruleTpl, hN, if_false, hsplit, hl, hB1, ne_eq, not_false_eq_true, if_true]

/-- Witness of C19: the rule `Hook idStr:1->HookTest()->c.Data["json"]` at
the marker `// pos1`. -/
theorem object_rule_snippet_witness :
    FixController.snippet
        (FixController.newApi "GetOne"
          { Pos := "pos1",
            Rule := "Hook" ++ " " ++ argumentList [("idStr", "1")] ++ "->" ++ "HookTest()" ++
              "->" ++ "c.Data[\"json\"]",
            Imports := "xx_api/rules" }) =
      some ("// " ++ "pos1" ++ "\n" ++ Strings.ToLower "Hook" ++ " := &rules." ++ "Hook" ++
        "Rule\x7b" ++ "\n" ++
        concatAll ([("idStr", "1")].map fun p =>
          Strings.ReplaceAll p.1 "&#58;" ":" ++ ": " ++
            Strings.ReplaceAll p.2 "&#58;" ":" ++ "," ++ "\n") ++
        "\x7d" ++ "\n" ++ "c.Data[\"json\"]" ++ " = " ++ Strings.ToLower "Hook" ++ "." ++
        "HookTest()" ++ "\n\t") ∧
    FixController.snippet
        (FixController.newApi "GetOne"
          { Pos := "pos1", Rule := "Hook idStr:1->HookTest()->c.Data[\"json\"]",
            Imports := "xx_api/rules" }) =
      some "// pos1\nhook := &rules.HookRule\x7b\nidStr: 1,\n\x7d\nc.Data[\"json\"] = hook.HookTest()\n\t" :=
  ⟨object_rule_snippet "pos1" "Hook" "HookTest()" "c.Data[\"json\"]" "GetOne" "xx_api/rules"
      [("idStr", "1")] (by decide) (by decide) (by decide) (by decide) (by decide) (by decide)
      (by decide),
    by decide⟩

/-- Counterexample to C19 as stated: in `Hook id:1->Run(a, b)->out` the call
`F` has a space, the rule is cut there and the snippet ends in `hook.Run(a,`
with no assignment to `out`; in `Hook url:http&#58;//x->Get()->out` the value
has no space, comma, colon or `->`, and its line is `url: http://x,`, not
`url: http&#58;//x,`. -/
theorem object_rule_snippet_counterexample :
    FixController.snippet
        (FixController.newApi "GetOne" { Pos := "P", Rule := "Hook id:1->Run(a, b)->out" }) =
      some "// P\nhook := &rules.HookRule\x7b\nid: 1,\n\x7d\nhook.Run(a," ∧
    FixController.snippet
        (FixController.newApi "GetOne" { Pos := "P", Rule := "Hook id:1->Run(a, b)->out" }) ≠
      some "// P\nhook := &rules.HookRule\x7b\nid: 1,\n\x7d\nout = hook.Run(a, b)\n\t" ∧
    plainField "url" ∧ plainField "http&#58;//x" ∧ plainToken "Get()" ∧ plainToken "out" ∧
    FixController.snippet
        (FixController.newApi "GetOne"
          { Pos := "P", Rule := "Hook url:http&#58;//x->Get()->out" }) =
      some "// P\nhook := &rules.HookRule\x7b\nurl: http://x,\n\x7d\nout = hook.Get()\n\t" ∧
    FixController.snippet
        (FixController.newApi "GetOne"
          { Pos := "P", Rule := "Hook url:http&#58;//x->Get()->out" }) ≠
      some "// P\nhook := &rules.HookRule\x7b\nurl: http&#58;//x,\n\x7d\nout = hook.Get()\n\t" := by
  decide

/-- C20 (as the code has it): for every rule string `Func ->C->B` where `C`
and `B` have no space and no `->`, the snippet for the marker `// P` is
`// P`, newline, `C`, newline when `B` is `-1`, and `B=` followed by that
text when `B` is anything else; for `Func ->C`, the third segment left out,
it is `// P`, newline, `C`, newline. -/
theorem func_rule_snippet (P C B name imports : String)
    (hC : plainToken C) (hB : plainToken B) :
    FixController.snippet
        (FixController.newApi name
          { Pos := P, Rule := "Func ->" ++ C ++ "->" ++ B, Imports := imports }) =
      some (if B = "-1" then "// " ++ P ++ "\n" ++ C ++ "\n"
        else B ++ "=" ++ ("// " ++ P ++ "\n" ++ C ++ "\n")) ∧
    FixController.snippet
        (FixController.newApi name
          { Pos := P, Rule := "Func ->" ++ C, Imports := imports }) =
      some ("// " ++ P ++ "\n" ++ C ++ "\n") := by
  have e : "Func ->" = "Func" ++ " " ++ "" ++ "->" := by decide
  have h0 : plainToken "" := by decide
  have h3 := rule_three ("// " ++ P) "Func" "" C B name imports (by decide) h0 hC hB
  have h2 := rule_two ("// " ++ P) "Func" "" C name imports (by decide) h0 hC
  rw [← e] at h3 h2
  refine ⟨?_, ?_⟩
  · simp only [FixController.snippet, FixController.newApi, h3, FixController.ruleTpl, if_true]
    by_cases hb : B = "-1"
    · simp [hb]
    · simp [hb]
  · simp only [FixController.snippet, FixController.newApi, h2, FixController.ruleTpl, if_true]
    simp

/-- Witness of C20: the rule `Func ->HookApi(&v)->-1` at the marker
`// pos11`. -/
theorem func_rule_snippet_witness :
    (FixController.snippet
        (FixController.newApi "Post"
          { Pos := "pos11", Rule := "Func ->" ++ "HookApi(&v)" ++ "->" ++ "-1",
            Imports := "xx_api/rules" }) =
      some (if "-1" = "-1" then "// " ++ "pos11" ++ "\n" ++ "HookApi(&v)" ++ "\n"
        else "-1" ++ "=" ++ ("// " ++ "pos11" ++ "\n" ++ "HookApi(&v)" ++ "\n")) ∧
    FixController.snippet
        (FixController.newApi "Post"
          { Pos := "pos11", Rule := "Func ->" ++ "HookApi(&v)", Imports := "xx_api/rules" }) =
      some ("// " ++ "pos11" ++ "\n" ++ "HookApi(&v)" ++ "\n")) ∧
    FixController.snippet
        (FixController.newApi "Post"
          { Pos := "pos11", Rule := "Func ->HookApi(&v)->-1", Imports := "xx_api/rules" }) =
      some "// pos11\nHookApi(&v)\n" :=
  ⟨func_rule_snippet "pos11" "HookApi(&v)" "-1" "Post" "xx_api/rules" (by decide) (by decide),
    by decide⟩

/-- Counterexample to C20 as stated: in `Func ->Load()->v, err` the call
`Load()` has no space, the target `v, err` is not `-1`, and the snippet is
`v,=// P`, newline, `Load()`, newline: the target is cut at its space. -/
theorem func_rule_snippet_counterexample :
    ' ' ∉ "Load()".data ∧ "v, err" ≠ "-1" ∧
    FixController.snippet
        (FixController.newApi "Post" { Pos := "P", Rule := "Func ->Load()->v, err" }) =
      some "v,=// P\nLoad()\n" ∧
    FixController.snippet
        (FixController.newApi "Post" { Pos := "P", Rule := "Func ->Load()->v, err" }) ≠
      some ("v, err" ++ "=" ++ "// P" ++ "\n" ++ "Load()" ++ "\n") := by
  decide
/-! ## The marker after the replacement step -/

theorem indexL_ne_none_iff (pat : List Char) :
    ∀ s : List Char, indexL pat s ≠ none ↔ pat <:+: s
  | [] => by
    cases pat with
    | nil => simp [indexL, List.isPrefixOf]
    | cons p ps => simp [indexL, List.isPrefixOf]
  | c :: cs => by
    have ih := indexL_ne_none_iff pat cs
    rw [List.infix_cons_iff, ← ih, ← List.isPrefixOf_iff_prefix]
    simp only [indexL]
    cases hp : pat.isPrefixOf (c :: cs) with
    | true => simp
    | false =>
      cases hi : indexL pat cs with
      | none => simp
      | some n => simp

theorem contains_iff_within (s sub : String) :
    Strings.Contains s sub = true ↔ sub.data <:+: s.data := by
  rw [← indexL_ne_none_iff, ne_eq, ← contains_false_iff]
  cases Strings.Contains s sub <;> simp

theorem replaceFrom_within (old new : List Char) (hnew : old <:+: new) :
    ∀ s : List Char, old <:+: s → old <:+: replaceFrom old new 0 s
  | [], h => by simpa [replaceFrom] using h
  | c :: cs, h => by
    rw [replaceFrom]
    cases hp : old.isPrefixOf (c :: cs) with
    | true =>
      simp only [if_true]
      exact hnew.trans (List.prefix_append _ _).isInfix
    | false =>
      simp only [Bool.false_eq_true, if_false]
      rcases List.infix_cons_iff.mp h with h1 | h1
      · rw [← List.isPrefixOf_iff_prefix, hp] at h1
        cases h1
      · exact (replaceFrom_within old new hnew cs h1).trans (List.suffix_cons _ _).isInfix

theorem replaceFrom_length_le (old new : List Char) (ho : old ≠ [])
    (hl : old.length ≤ new.length) :
    ∀ (s : List Char) (k : Nat), s.length ≤ (replaceFrom old new k s).length + k
  | [], k => by simp [replaceFrom]
  | c :: cs, k + 1 => by
    have ih := replaceFrom_length_le old new ho hl cs k
    rw [replaceFrom, List.length_cons]
    omega
  | c :: cs, 0 => by
    rw [replaceFrom]
    have hpos : 0 < old.length := List.length_pos.mpr ho
    split
    · have ih := replaceFrom_length_le old new ho hl cs (old.length - 1)
      rw [List.length_append, List.length_cons]
      omega
    · have ih := replaceFrom_length_le old new ho hl cs 0
      rw [List.length_cons, List.length_cons]
      omega

theorem replaceFrom_length_lt (old new : List Char) (ho : old ≠ [])
    (hl : old.length < new.length) :
    ∀ s : List Char, old <:+: s → s.length < (replaceFrom old new 0 s).length
  | [], h => absurd (List.infix_nil.mp h) ho
  | c :: cs, h => by
    rw [replaceFrom]
    have hpos : 0 < old.length := List.length_pos.mpr ho
    cases hp : old.isPrefixOf (c :: cs) with
    | true =>
      have ih := replaceFrom_length_le old new ho (Nat.le_of_lt hl) cs (old.length - 1)
      simp only [if_true, List.length_append, List.length_cons]
      omega
    | false =>
      simp only [Bool.false_eq_true, if_false, List.length_cons]
      rcases List.infix_cons_iff.mp h with h1 | h1
      · rw [← List.isPrefixOf_iff_prefix, hp] at h1
        cases h1
      · have ih := replaceFrom_length_lt old new ho hl cs h1
        omega

theorem marker_in_tail (P R : String) (hR : 0 < R.data.length) :
    P.data <:+: (P ++ R).data ∧ P.data.length < (P ++ R).data.length := by
  rw [String.data_append, List.length_append]
  exact ⟨(List.prefix_append _ _).isInfix, by omega⟩

theorem ruleTpl_shape (api : CodeApi) (rule : CodeRule) (tpl : String)
    (h : FixController.ruleTpl api rule = some tpl) :
    api.Pos.data <:+: tpl.data ∧ api.Pos.data.length < tpl.data.length := by
  have hn : ∀ R : String, 0 < ("\n" ++ R).data.length := by
    intro R
    rw [String.data_append, List.length_append]
    exact Nat.lt_of_lt_of_le (by decide) (Nat.le_add_right _ _)
  unfold FixController.ruleTpl at h
  split at h
  · have h1 := marker_in_tail api.Pos ("\n" ++ (rule.Func ++ "\n")) (hn _)
    simp only [← String.append_assoc] at h1
    split at h
    · simp only [Option.some.injEq] at h
      subst h
      rw [String.data_append, List.length_append]
      exact ⟨h1.1.trans (List.suffix_append _ _).isInfix, by omega⟩
    · simp only [Option.some.injEq] at h
      subst h
      exact h1
  · split at h
    · cases h
    · rename_i fields _
      split at h
      · simp only [Option.some.injEq] at h
        subst h
        have h1 := marker_in_tail api.Pos
          ("\n" ++ (Strings.ToLower rule.Name ++ (" := &rules." ++ (rule.Name ++ ("Rule\x7b" ++
            ("\n" ++ (fields ++ ("\x7d" ++ ("\n" ++ (rule.Back ++ (" = " ++
              (Strings.ToLower rule.Name ++ ("." ++ (rule.Func ++ "\n\t")))))))))))))) (hn _)
        simp only [← String.append_assoc] at h1
        exact h1
      · simp only [Option.some.injEq] at h
        subst h
        have h1 := marker_in_tail api.Pos
          ("\n" ++ (Strings.ToLower rule.Name ++ (" := &rules." ++ (rule.Name ++ ("Rule\x7b" ++
            ("\n" ++ (fields ++ ("\x7d" ++ ("\n" ++ (Strings.ToLower rule.Name ++ ("." ++
              rule.Func))))))))))) (hn _)
        simp only [← String.append_assoc] at h1
        exact h1

theorem snippet_shape (api : CodeApi) (tpl : String)
    (h : FixController.snippet api = some tpl) :
    api.Pos.data <:+: tpl.data ∧ api.Pos.data.length < tpl.data.length := by
  unfold FixController.snippet at h
  split at h
  · cases h
  · exact ruleTpl_shape api _ tpl h

theorem pos_spliced (text : String) (api : CodeApi) (tpl : String)
    (hne : api.Pos.data ≠ [])
    (ht : api.Pos.data <:+: tpl.data ∧ api.Pos.data.length < tpl.data.length)
    (hc : Strings.Contains text api.Pos = true) :
    Strings.Contains (FixController.pos text api tpl) api.Pos = true ∧
    text.length < (FixController.pos text api tpl).length := by
  have hi := (contains_iff_within text api.Pos).mp hc
  unfold FixController.pos
  rw [if_pos hc]
  refine ⟨(contains_iff_within _ _).mpr ?_, ?_⟩
  · exact replaceFrom_within _ _ ht.1 _ hi
  · exact replaceFrom_length_lt _ _ hne ht.2 _ hi

/-- C18 (as the code has it): every snippet contains its own marker, so the
replacement step does not consume it.  For every controller text containing
the marker `// P` and every rule entry with pos `P` for which a snippet is
built, the text after the replacement step still contains `// P` and is
longer than before, and the replacement step applied to the spliced text
with the same entry makes it longer again: a second run is not a no-op. -/
theorem marker_survives_splice (text apiName : String) (api1 : CodeApi) (ruleTpl : String)
    (hs : FixController.snippet (FixController.newApi apiName api1) = some ruleTpl)
    (hc : Strings.Contains text ("// " ++ api1.Pos) = true) :
    Strings.Contains (FixController.pos text (FixController.newApi apiName api1) ruleTpl)
      ("// " ++ api1.Pos) = true ∧
    text.length < (FixController.pos text (FixController.newApi apiName api1) ruleTpl).length ∧
    (FixController.pos text (FixController.newApi apiName api1) ruleTpl).length <
      (FixController.pos
        (FixController.pos text (FixController.newApi apiName api1) ruleTpl)
        (FixController.newApi apiName api1) ruleTpl).length ∧
    FixController.pos
        (FixController.pos text (FixController.newApi apiName api1) ruleTpl)
        (FixController.newApi apiName api1) ruleTpl ≠
      FixController.pos text (FixController.newApi apiName api1) ruleTpl := by
  have hne : (FixController.newApi apiName api1).Pos.data ≠ [] := by
    simp [FixController.newApi, String.data_append]
  have ht := snippet_shape _ _ hs
  obtain ⟨h1, h2⟩ := pos_spliced text (FixController.newApi apiName api1) ruleTpl hne ht hc
  obtain ⟨_, h4⟩ := pos_spliced _ (FixController.newApi apiName api1) ruleTpl hne ht h1
  refine ⟨h1, h2, h4, ?_⟩
  intro e
  rw [e] at h4
  exact Nat.lt_irrefl _ h4

/-- Witness of C18: the entry `Post` of the example in `rule.yml` on a
controller with the marker `// pos11`. -/
theorem marker_survives_splice_witness :
    FixController.snippet (FixController.newApi "Post" postEntry) =
      some "// pos11\nHookApi(&v)\n" ∧
    Strings.Contains postController ("// " ++ postEntry.Pos) = true ∧
    Strings.Contains
      (FixController.pos postController (FixController.newApi "Post" postEntry)
        "// pos11\nHookApi(&v)\n")
      ("// " ++ postEntry.Pos) = true ∧
    postController.length <
      (FixController.pos postController (FixController.newApi "Post" postEntry)
        "// pos11\nHookApi(&v)\n").length ∧
    (FixController.pos postController (FixController.newApi "Post" postEntry)
        "// pos11\nHookApi(&v)\n").length <
      (FixController.pos
        (FixController.pos postController (FixController.newApi "Post" postEntry)
          "// pos11\nHookApi(&v)\n")
        (FixController.newApi "Post" postEntry) "// pos11\nHookApi(&v)\n").length ∧
    FixController.pos
        (FixController.pos postController (FixController.newApi "Post" postEntry)
          "// pos11\nHookApi(&v)\n")
        (FixController.newApi "Post" postEntry) "// pos11\nHookApi(&v)\n" ≠
      FixController.pos postController (FixController.newApi "Post" postEntry)
        "// pos11\nHookApi(&v)\n" :=
  ⟨by decide, by decide,
    marker_survives_splice postController "Post" postEntry "// pos11\nHookApi(&v)\n"
      (by decide) (by decide)⟩

set_option maxRecDepth 100000 in
/-- Counterexample to C18 as stated: the controller contains the marker
`// pos11`; after the entry `Post` has been applied the text still contains
`// pos11`, and applying the same entry to the spliced text puts the call
`HookApi(&v)` in a second time. -/
theorem marker_survives_splice_counterexample :
    Strings.Contains postController "// pos11" = true ∧
    FixController.api postController "Post" postEntry =
      some "import (\n// posimport\n\"xx_api/rules\"\n)\nfunc Post() \x7b\n// pos11\nHookApi(&v)\n\n\x7d\n" ∧
    Strings.Contains
      "import (\n// posimport\n\"xx_api/rules\"\n)\nfunc Post() \x7b\n// pos11\nHookApi(&v)\n\n\x7d\n"
      "// pos11" = true ∧
    FixController.api
      "import (\n// posimport\n\"xx_api/rules\"\n)\nfunc Post() \x7b\n// pos11\nHookApi(&v)\n\n\x7d\n"
      "Post" postEntry =
      some "import (\n// posimport\n\"xx_api/rules\"\n)\nfunc Post() \x7b\n// pos11\nHookApi(&v)\n\nHookApi(&v)\n\n\x7d\n" := by
  decide
/-! ## The time import flag -/

theorem temporal_of_time (t : String) (h : GetGoDataType t = some "time.Time") :
    isSQLTemporalType t = true := by
  have hm := mem_of_mapGet t "time.Time" typeMappingMysql h
  have hall : ∀ p ∈ typeMappingMysql, p.2 = "time.Time" → isSQLTemporalType p.1 = true := by
    decide
  exact hall _ hm rfl

theorem unsigned_not_time (t : String) :
    GetGoDataType (t ++ " " ++ "unsigned") ≠ some "time.Time" := by
  intro h
  have ht := temporal_of_time _ h
  have hl : (t ++ " " ++ "unsigned").data.getLast? = some 'd' := by
    rw [String.data_append, List.getLast?_append]
    rfl
  simp only [isSQLTemporalType, Bool.or_eq_true, beq_iff_eq] at ht
  rcases ht with ((ht | ht) | ht) | ht <;> rw [ht] at hl <;> revert hl <;> decide

theorem GetColumns.keys_time (pk : String) (fk : List (String × ForeignKey))
    (bl : List String) (r : ColumnRow) (col : Column) (tag : OrmTag)
    (col' : Column) (tag' : OrmTag) (imp : Bool)
    (hty : GetGoDataType r.dataType = some col.Typ)
    (h : GetColumns.keys pk fk bl r col tag = some (col', tag', imp))
    (ht : col'.Typ = "time.Time") : imp = true := by
  have hplain : ∀ c t i, GetColumns.plain r col tag = some (c, t, i) →
      c.Typ = "time.Time" → i = true := by
    intro c t i hp hc
    have hi : i = isSQLTemporalType r.dataType := by
      unfold GetColumns.plain at hp
      simp only [] at hp
      repeat' split at hp
      all_goals (cases hp; try rfl)
    rcases (GetColumns.plain_spec r col tag c t i hp).2.2 with e | e
    · rw [hi]
      apply temporal_of_time
      rw [hty, ← e, hc]
    · rw [hc] at e
      exact absurd e (unsigned_not_time r.dataType)
  unfold GetColumns.keys at h
  split at h
  · simp only [Option.some.injEq, Prod.mk.injEq] at h
    obtain ⟨rfl, _, _⟩ := h
    have hi : ("int" : String) = "time.Time" := ht
    exact absurd hi (by decide)
  · split at h
    · split at h
      · exact hplain _ _ _ h ht
      · simp only [Option.some.injEq, Prod.mk.injEq] at h
        obtain ⟨rfl, _, _⟩ := h
        have hd := congrArg String.data ht
        rw [String.data_append] at hd
        have h0 := congrArg List.head? hd
        simp at h0
    · exact hplain _ _ _ h ht

theorem GetColumns.row_time (bl : List String) (st st' : Table × List TableRelation)
    (r : ColumnRow) (h : GetColumns.row bl st r = some st') :
    (st.1.ImportTimePkg = true → st'.1.ImportTimePkg = true) ∧
    ∃ cols, st'.1.Columns = st.1.Columns ++ cols ∧
      ∀ c ∈ cols, c.Typ = "time.Time" → st'.1.ImportTimePkg = true := by
  unfold GetColumns.row at h
  simp only [] at h
  split at h
  · cases h
  · rename_i ty hty
    split at h
    · cases h
    · rename_i col tag imp hk
      simp only [Option.some.injEq] at h
      subst h
      have hkt := GetColumns.keys_time st.1.Pk st.1.Fk bl r _ _ col tag imp hty hk
      have hconv := (GetColumns.convention_col
        (if imp = true then { st.1 with ImportTimePkg := true } else st.1).Name r.colName
        (GetColumns.initialRelation st.1.Name) col).2.1
      by_cases hn : (GetColumns.convention st.1.Name r.colName
          (GetColumns.initialRelation st.1.Name) col).2.2.IsNeed = true
      · cases imp with
        | true =>
          simp only [if_true, hn]
          exact ⟨fun _ => trivial, _, rfl, fun _ _ _ => trivial⟩
        | false =>
          simp only [Bool.false_eq_true, if_false, hn, if_true] at hconv ⊢
          refine ⟨id, _, rfl, ?_⟩
          intro c hc hct
          rw [List.mem_singleton] at hc
          subst hc
          simp only [] at hct
          rw [hconv] at hct
          exact absurd (hkt hct) (by decide)
      · cases imp with
        | true =>
          simp only [if_true, hn, Bool.false_eq_true, if_false]
          exact ⟨fun _ => trivial, [], (List.append_nil _).symm,
            fun _ hc => absurd hc (List.not_mem_nil _)⟩
        | false =>
          simp only [Bool.false_eq_true, if_false, hn]
          exact ⟨id, [], (List.append_nil _).symm,
            fun _ hc => absurd hc (List.not_mem_nil _)⟩

theorem GetColumns.rows_time (bl : List String) :
    ∀ (rows : List ColumnRow) (st st' : Table × List TableRelation),
    GetColumns.rows bl rows st = some st' →
    (st.1.ImportTimePkg = true → st'.1.ImportTimePkg = true) ∧
    ∃ cols, st'.1.Columns = st.1.Columns ++ cols ∧
      ∀ c ∈ cols, c.Typ = "time.Time" → st'.1.ImportTimePkg = true
  | [], st, st', h => by
    simp only [GetColumns.rows, Option.some.injEq] at h
    subst h
    exact ⟨id, [], (List.append_nil _).symm, fun _ hc => absurd hc (List.not_mem_nil _)⟩
  | r :: rs, st, st', h => by
    simp only [GetColumns.rows] at h
    split at h
    · cases h
    · rename_i st1 h1
      obtain ⟨m1, cols1, e1, t1⟩ := GetColumns.row_time bl st st1 r h1
      obtain ⟨m2, cols2, e2, t2⟩ := GetColumns.rows_time bl rs st1 st' h
      refine ⟨fun h0 => m2 (m1 h0), cols1 ++ cols2, ?_, ?_⟩
      · rw [e2, e1, List.append_assoc]
      · intro c hc hct
        rcases List.mem_append.mp hc with hc | hc
        · exact m2 (t1 c hc hct)
        · exact t2 c hc hct

/-- C30: for every table and every list of column rows on which `GetColumns`
returns, every column it has appended to the table whose type is `time.Time`
comes with `ImportTimePkg = true` on the table; a flag that was set before
stays set. -/
theorem time_import_flag (db : Catalog) (tb : Table) (bl : List String)
    (trl : List TableRelation) (tb' : Table) (trl' : List TableRelation)
    (h : GetColumns db tb bl trl = some (tb', trl')) :
    (tb.ImportTimePkg = true → tb'.ImportTimePkg = true) ∧
    ∃ cols, tb'.Columns = tb.Columns ++ cols ∧
      ∀ c ∈ cols, c.Typ = "time.Time" → tb'.ImportTimePkg = true :=
  GetColumns.rows_time bl _ _ _ h

set_option maxRecDepth 100000 in
/-- Witness of C30 on `event(id, created_at datetime, starts_on date)`: the
scan returns, two of the three columns have the type `time.Time` and the
flag is set. -/
theorem time_import_flag_witness :
    ((GetColumns eventCatalog eventTable [] []).map
        (fun p => (p.1.Columns.map (fun c => c.Typ), p.1.ImportTimePkg))) =
      some (["int", "time.Time", "time.Time"], true) ∧
    ((eventTable.ImportTimePkg = true →
        ((GetColumns eventCatalog eventTable [] []).get (by decide)).1.ImportTimePkg = true) ∧
      ∃ cols,
        ((GetColumns eventCatalog eventTable [] []).get (by decide)).1.Columns =
          eventTable.Columns ++ cols ∧
        ∀ c ∈ cols, c.Typ = "time.Time" →
          ((GetColumns eventCatalog eventTable [] []).get (by decide)).1.ImportTimePkg = true) :=
  ⟨by decide,
    time_import_flag eventCatalog eventTable [] []
      ((GetColumns eventCatalog eventTable [] []).get (by decide)).1
      ((GetColumns eventCatalog eventTable [] []).get (by decide)).2
      (@Option.some_get _ (GetColumns eventCatalog eventTable [] []) (by decide)).symm⟩
/-! ## File names -/

theorem lastIndexL_underscore_test :
    ∀ a : List Char, lastIndexL ['_'] (a ++ ['_', 't', 'e', 's', 't']) = some a.length
  | [] => by decide
  | c :: cs => by
    simp [lastIndexL, lastIndexL_underscore_test cs]

theorem getFileName_round (x : String) :
    slice (x ++ "_test") 0 (Strings.LastIndex (x ++ "_test") "_") ++
      sliceFrom (x ++ "_test") (Strings.LastIndex (x ++ "_test") "_" + 1) = x ++ "test" := by
  have hl : lastIndexL "_".data (x ++ "_test").data = some x.data.length := by
    rw [String.data_append]
    exact lastIndexL_underscore_test x.data
  have hi : Strings.LastIndex (x ++ "_test") "_" = (x.data.length : Int) := by
    simp only [Strings.LastIndex, hl]
  rw [hi]
  apply String.ext
  have h1 : ((x.data.length : Int) + 1).toNat = x.data.length + 1 := by omega
  have h2 : "_test".data = '_' :: "test".data := rfl
  simp only [slice, sliceFrom, String.data_append, Int.toNat_ofNat, h1, List.drop_zero,
    List.take_left, h2]
  rw [List.drop_append_eq_append_drop]
  simp

theorem hasSuffix_test_split (s : String) (h : Strings.HasSuffix s "_test" = true) :
    ∃ x : String, s = x ++ "_test" ∧ x.length + 5 = s.length :=
  ⟨slice s 0 (Strings.LastIndex s "_test"), hasSuffix_split s "_test" h, by
    have e := congrArg String.length (hasSuffix_split s "_test" h)
    rw [String.length_append] at e
    rw [e]
    rfl⟩

theorem hasSuffix_short (s : String) (h : s.length < 5) :
    Strings.HasSuffix s "_test" = false := by
  cases hs : Strings.HasSuffix s "_test" with
  | false => rfl
  | true =>
    obtain ⟨x, _, hx⟩ := hasSuffix_test_split s hs
    omega

theorem getFileName_loop_round (fuel : Nat) (x : String) :
    getFileName.loop (fuel + 1) (x ++ "_test") = getFileName.loop fuel (x ++ "test") := by
  rw [getFileName.loop]
  simp only [hasSuffix_append, if_true, getFileName_round]

theorem getFileName_loop_succ :
    ∀ (fuel : Nat) (s : String), s.length ≤ fuel →
      getFileName.loop (fuel + 1) s = getFileName.loop fuel s
  | 0, s, h => by
    have hs := hasSuffix_short s (by omega)
    simp [getFileName.loop, hs]
  | fuel + 1, s, h => by
    cases hs : Strings.HasSuffix s "_test" with
    | false => simp [getFileName.loop, hs]
    | true =>
      obtain ⟨x, rfl, hx⟩ := hasSuffix_test_split s hs
      rw [getFileName_loop_round, getFileName_loop_round]
      apply getFileName_loop_succ fuel
      rw [String.length_append] at h ⊢
      have : "test".length = 4 := rfl
      have : "_test".length = 5 := rfl
      omega

theorem getFileName_loop_add (s : String) :
    ∀ (k fuel : Nat), s.length ≤ fuel →
      getFileName.loop (fuel + k) s = getFileName.loop fuel s
  | 0, _, _ => rfl
  | k + 1, fuel, h => by
    rw [← Nat.add_assoc, getFileName_loop_succ (fuel + k) s (by omega)]
    exact getFileName_loop_add s k fuel h

theorem getFileName_loop_spec :
    ∀ (fuel : Nat) (s : String), s.length ≤ fuel →
      Strings.HasSuffix (getFileName.loop fuel s) "_test" = false ∧
      (getFileName.loop fuel s).data.filter (fun c => c != '_') =
        s.data.filter (fun c => c != '_') ∧
      (getFileName.loop fuel s).data.Sublist s.data
  | 0, s, h => by
    have hs := hasSuffix_short s (by omega)
    simp [getFileName.loop, hs]
  | fuel + 1, s, h => by
    cases hs : Strings.HasSuffix s "_test" with
    | false => simp [getFileName.loop, hs]
    | true =>
      obtain ⟨x, rfl, hx⟩ := hasSuffix_test_split s hs
      have hlen : (x ++ "test").length ≤ fuel := by
        rw [String.length_append] at h ⊢
        have : "test".length = 4 := rfl
        have : "_test".length = 5 := rfl
        omega
      obtain ⟨h1, h2, h3⟩ := getFileName_loop_spec fuel (x ++ "test") hlen
      rw [getFileName_loop_round]
      refine ⟨h1, ?_, ?_⟩
      · rw [h2, String.data_append, String.data_append, List.filter_append, List.filter_append]
        rfl
      · refine h3.trans ?_
        rw [String.data_append, String.data_append]
        exact List.Sublist.append_left (List.sublist_cons_self _ _) _

/-- C25: `getFileName` terminates on every table name (the loop gives the
same result for every number of rounds allowed from the length of the name
on), the result does not end in `_test`, a name that does not end in `_test`
is returned as it is, and the result is the name with some of its
underscores taken out: the other characters are the same in the same order.
`user_test` gives `usertest` and `a_test_test` gives `a_testtest`. -/
theorem file_name_avoids_test (tbName : String) :
    (∀ fuel, tbName.length ≤ fuel → getFileName.loop fuel tbName = getFileName tbName) ∧
    Strings.HasSuffix (getFileName tbName) "_test" = false ∧
    Strings.HasSuffix (getFileName tbName ++ ".go") "_test.go" = false ∧
    (Strings.HasSuffix tbName "_test" = false → getFileName tbName = tbName) ∧
    (getFileName tbName).data.filter (fun c => c != '_') =
      tbName.data.filter (fun c => c != '_') ∧
    (getFileName tbName).data.Sublist tbName.data ∧
    getFileName "user_test" = "usertest" ∧ getFileName "a_test_test" = "a_testtest" := by
  obtain ⟨h1, h2, h3⟩ := getFileName_loop_spec tbName.length tbName (Nat.le_refl _)
  refine ⟨?_, h1, ?_, ?_, h2, h3, by decide, by decide⟩
  · intro fuel hf
    obtain ⟨k, rfl⟩ := Nat.exists_eq_add_of_le hf
    exact getFileName_loop_add tbName k tbName.length (Nat.le_refl _)
  · cases hg : Strings.HasSuffix (getFileName tbName ++ ".go") "_test.go" with
    | false => rfl
    | true =>
      have e := hasSuffix_split _ _ hg
      have e2 : getFileName tbName ++ ".go" =
          (slice (getFileName tbName ++ ".go") 0
            (Strings.LastIndex (getFileName tbName ++ ".go") "_test.go") ++ "_test") ++ ".go" := by
        rw [String.append_assoc]
        exact e
      have e3 := append_right_cancel _ _ _ e2
      have h1' : Strings.HasSuffix (getFileName tbName) "_test" = false := h1
      rw [e3, hasSuffix_append] at h1'
      cases h1'
  · intro hs
    unfold getFileName
    cases hl : tbName.length with
    | zero => rfl
    | succ n => simp [getFileName.loop, hs]
/-! ## CamelCase -/

theorem isLower_ascii (c : Char) (h : c.isLower = true) : c.toNat < 128 := by
  simp only [Char.isLower, Bool.and_eq_true, decide_eq_true_eq] at h
  have h2 : c.val.toNat ≤ 122 := h.2
  show c.val.toNat < 128
  omega

theorem ascii_forall (P : Char → Prop) (h : ∀ n < 128, P (Char.ofNat n)) (c : Char)
    (hc : c.toNat < 128) : P c := by
  have := h c.toNat hc
  rwa [Char.ofNat_toNat] at this

theorem isLower_facts (c : Char) (h : c.isLower = true) :
    isSeparator c = false ∧ c.toUpper ≠ '_' ∧ c ≠ '_' ∧ c ≠ ' ' := by
  have key : ∀ n < 128, (Char.ofNat n).isLower = true →
      isSeparator (Char.ofNat n) = false ∧ (Char.ofNat n).toUpper ≠ '_' ∧
      Char.ofNat n ≠ '_' ∧ Char.ofNat n ≠ ' ' := by
    decide
  exact ascii_forall
    (fun c => c.isLower = true → isSeparator c = false ∧ c.toUpper ≠ '_' ∧ c ≠ '_' ∧ c ≠ ' ')
    key c (isLower_ascii c h) h

theorem splitOnChar_none (x : Char) :
    ∀ s : List Char, x ∉ s → splitOnChar x s = [s]
  | [], _ => by simp [splitOnChar]
  | c :: cs, h => by
    have hc : c ≠ x := fun e => h (e ▸ List.mem_cons_self _ _)
    have ih := splitOnChar_none x cs (fun hm => h (List.mem_cons_of_mem _ hm))
    simp [splitOnChar, hc, ih]

theorem splitOnChar_append (x : Char) (rest : List Char) :
    ∀ a : List Char, x ∉ a → splitOnChar x (a ++ x :: rest) = a :: splitOnChar x rest
  | [], _ => by simp [splitOnChar]
  | c :: cs, h => by
    have hc : c ≠ x := fun e => h (e ▸ List.mem_cons_self _ _)
    have ih := splitOnChar_append x rest cs (fun hm => h (List.mem_cons_of_mem _ hm))
    simp [splitOnChar, hc, ih]

theorem splitOnChar_join :
    ∀ tokens : List (List Char), tokens ≠ [] → (∀ t ∈ tokens, '_' ∉ t) →
      splitOnChar '_' (underscoreJoin tokens) = tokens
  | [], h, _ => absurd rfl h
  | [t], _, ht => by
    simp only [underscoreJoin]
    exact splitOnChar_none '_' t (ht t (List.mem_cons_self _ _))
  | t :: u :: rest, _, ht => by
    simp only [underscoreJoin]
    rw [splitOnChar_append '_' _ t (ht t (List.mem_cons_self _ _)),
      splitOnChar_join (u :: rest) (List.cons_ne_nil _ _)
        (fun t0 h0 => ht t0 (List.mem_cons_of_mem _ h0))]

theorem dropWhile_head_false {p : Char → Bool} :
    ∀ l : List Char, (∀ c ∈ l, p c = false) → l.dropWhile p = l
  | [], _ => rfl
  | c :: cs, h => by simp [List.dropWhile, h c (List.mem_cons_self _ _)]

theorem trimSpaces_id (t : List Char) (h : ∀ c ∈ t, c ≠ ' ') : trimSpaces t = t := by
  have hp : ∀ c ∈ t, (c == ' ') = false := fun c hc => by simpa using h c hc
  unfold trimSpaces
  rw [dropWhile_head_false t hp,
    dropWhile_head_false t.reverse (fun c hc => hp c (List.mem_reverse.mp hc)),
    List.reverse_reverse]

theorem titleFrom_id :
    ∀ (cs : List Char) (prev : Char), isSeparator prev = false →
      (∀ c ∈ cs, isSeparator c = false) → titleFrom prev cs = cs
  | [], _, _, _ => rfl
  | c :: cs, prev, hp, h => by
    rw [titleFrom, hp, titleFrom_id cs c (h c (List.mem_cons_self _ _))
      (fun d hd => h d (List.mem_cons_of_mem _ hd))]
    simp

theorem title_lower (t : List Char) (h : ∀ c ∈ t, c.isLower = true) :
    title t = capitalize t := by
  cases t with
  | nil => rfl
  | cons c cs =>
    have hs : isSeparator ' ' = true := by decide
    rw [title, titleFrom, hs, titleFrom_id cs c (isLower_facts c (h c (List.mem_cons_self _ _))).1
      (fun d hd => (isLower_facts d (h d (List.mem_cons_of_mem _ hd))).1)]
    rfl

/-- C23: for every string made of non-empty tokens of lower-case ASCII
letters joined by `_`, `CamelCase` returns the tokens, each with its first
letter in upper case and the rest unchanged, one after the other, and the
result has no underscore; `very_important_person` gives
`VeryImportantPerson`. -/
theorem camel_case_tokens (tokens : List (List Char)) (hne : tokens ≠ [])
    (htok : ∀ t ∈ tokens, t ≠ [] ∧ ∀ c ∈ t, c.isLower = true) :
    CamelCase (String.mk (underscoreJoin tokens)) =
      String.mk ((tokens.map capitalize).flatten) ∧
    '_' ∉ (CamelCase (String.mk (underscoreJoin tokens))).data ∧
    CamelCase "very_important_person" = "VeryImportantPerson" := by
  have hsplit := splitOnChar_join tokens hne
    (fun t ht hm => (isLower_facts _ ((htok t ht).2 _ hm)).2.2.1 rfl)
  have hmap : tokens.map (fun t => title (trimSpaces t)) = tokens.map capitalize := by
    apply List.map_congr_left
    intro t ht
    rw [trimSpaces_id t (fun c hc => (isLower_facts c ((htok t ht).2 c hc)).2.2.2),
      title_lower t (htok t ht).2]
  have hc : CamelCase (String.mk (underscoreJoin tokens)) =
      String.mk ((tokens.map capitalize).flatten) := by
    unfold CamelCase
    rw [hsplit, hmap]
  refine ⟨hc, ?_, by decide⟩
  rw [hc]
  intro hm
  obtain ⟨l, hl, hcl⟩ := List.mem_flatten.mp hm
  obtain ⟨t, ht, rfl⟩ := List.mem_map.mp hl
  cases t with
  | nil => cases hcl
  | cons c cs =>
    rcases List.mem_cons.mp hcl with e | e
    · exact (isLower_facts c ((htok _ ht).2 c (List.mem_cons_self _ _))).2.1 e.symm
    · exact (isLower_facts _ ((htok _ ht).2 _ (List.mem_cons_of_mem _ e))).2.2.1 rfl

/-- Witness of C23 on the tokens `very`, `important`, `person`. -/
theorem camel_case_tokens_witness :
    CamelCase (String.mk (underscoreJoin ["very".data, "important".data, "person".data])) =
      String.mk ((["very".data, "important".data, "person".data].map capitalize).flatten) ∧
    '_' ∉ (CamelCase
      (String.mk (underscoreJoin ["very".data, "important".data, "person".data]))).data ∧
    CamelCase "very_important_person" = "VeryImportantPerson" :=
  camel_case_tokens ["very".data, "important".data, "person".data] (by decide) (by decide)
/-! ## Emission on schemas off the usual shape -/

set_option maxRecDepth 100000 in
/-- C26 (the code at the failing input): for `user(id)`, `order(user_id, id)`
the first column of `order` is the suppressed `user_id` column, the loop of
`writeControllerFiles` puts a comma before every retained column whose index
is not 0, and `colNamesString` for `order` is `[]string{,"Id","User"}`, with
a leading comma; for `user`, whose first column is retained, the text is
`[]string{"Id","Orders"}`. -/
theorem leading_comma_in_field_list :
    (freshRun orderFirstCatalog).isSome = true ∧
    (tablesOf (freshRun orderFirstCatalog)).map
        (fun tb => (tb.Name, tb.Columns.map (fun c => (c.Name, c.Tag.Column, c.IsNeed)))) =
      [("user", [("Id", "id", true), ("Orders", "", true)]),
       ("order", [("UserId", "user_id", false), ("Id", "id", true), ("User", "", true)])] ∧
    (tablesOf (freshRun orderFirstCatalog)).map colNamesString =
      ["[]string\x7b\"Id\",\"Orders\"\x7d", "[]string\x7b,\"Id\",\"User\"\x7d"] ∧
    (writeControllerFiles (tablesOf (freshRun orderFirstCatalog))).map
        (fun f => (f.fileName, f.colNames)) =
      [("user.go", "[]string\x7b\"Id\",\"Orders\"\x7d"),
       ("order.go", "[]string\x7b,\"Id\",\"User\"\x7d")] := by
  decide

set_option maxRecDepth 100000 in
/-- C27 (the code at the failing input): for `class`, `student` and the join
table `student_has_class`, inference gives `student` the many-to-many field
`Classs` of type `[]*Class`; `writeModelFiles` takes every trailing `s` off
the field name, so the attach and detach block of `student` names the
element type `Cla` where `CamelCase` of the related table is `Class`.  For
the field `Students` of `class` the element type is `Student`. -/
theorem attach_block_element_type :
    (freshRun classCatalog).isSome = true ∧
    (tablesOf (freshRun classCatalog)).map
        (fun tb => (tb.Name,
          (tb.Columns.filter (fun c => c.Tag.M2M)).map (fun c => (c.Name, c.Typ)))) =
      [("class", [("Students", "[]*Student")]), ("student", [("Classs", "[]*Class")]),
       ("student_has_class", [])] ∧
    CamelCase "class" = "Class" ∧
    Strings.TrimRight (CamelCase "class" ++ "s") "s" = "Cla" ∧
    Strings.TrimRight (CamelCase "student" ++ "s") "s" = "Student" ∧
    (tablesOf (freshRun classCatalog)).map
        (fun tb => (tb.Name,
          Strings.Contains (everyM2MPart tb) "delone := &Cla\x7bId: did\x7d",
          Strings.Contains (everyM2MPart tb) "addone := &Cla\x7bId: aid\x7d",
          Strings.Contains (everyM2MPart tb) "&Class\x7b")) =
      [("class", false, false, false), ("student", true, true, false),
       ("student_has_class", false, false, false)] := by
  decide

set_option maxRecDepth 100000 in
/-- C28 (the code at the failing input): for `tag(id)` and the join table
`post_has_tag` without a table `post`, the reverse pass gives `tag` the
needed field `Posts` of type `[]*Post`, and no scanned table has the struct
name `Post`. -/
theorem association_to_missing_table :
    (freshRun orphanJoinCatalog).isSome = true ∧
    (tablesOf (freshRun orphanJoinCatalog)).map
        (fun tb => (tb.Name, tb.Columns.map (fun c => (c.Name, c.Typ, c.IsNeed)))) =
      [("tag", [("Id", "int", true), ("Posts", "[]*Post", true)]),
       ("post_has_tag", [("Tag", "*Tag", true)])] ∧
    (∀ n ∈ orphanJoinCatalog.tableNames, CamelCase n ≠ "Post") ∧
    (globalsOf (freshRun orphanJoinCatalog)).correcttrlist.map
        (fun tr => (tr.MarkName, tr.SourceName, tr.RelationName, tr.M2MThroungh)) =
      [("m2m", "post", "tag", "post_has_tag"), ("one2many", "post_has_tag", "tag", "")] := by
  decide

set_option maxRecDepth 100000 in
/-- C29 (the code at the failing input): the tables of `user(id)`,
`member(id, user, user_id)` have distinct names and distinct column names,
and the struct of `member` declares the field `User` twice, once for the
scalar column and once for the relation; for `node(id, node_one)` the
struct of `node` declares `Node` twice, the forward and the reverse field of
the same relation. -/
theorem field_names_repeat :
    memberCatalog.tableNames.Nodup ∧
    (∀ n ∈ memberCatalog.tableNames, ((memberCatalog.columnRows n).map
      (fun r => r.colName)).Nodup) ∧
    (tablesOf (freshRun memberCatalog)).map
        (fun tb => (tb.Name, (tb.Columns.filter (fun c => c.IsNeed)).map (fun c => c.Name))) =
      [("user", ["Id", "Members"]), ("member", ["Id", "User", "User"])] ∧
    ((nodeOneCatalog.columnRows "node").map (fun r => r.colName)).Nodup ∧
    (tablesOf (freshRun nodeOneCatalog)).map
        (fun tb => (tb.Name,
          (tb.Columns.filter (fun c => c.IsNeed)).map (fun c => (c.Name, c.Typ)))) =
      [("node", [("Id", "int"), ("Node", "*Node"), ("Node", "*Node")])] ∧
    ¬ ∀ tb ∈ tablesOf (freshRun memberCatalog),
      ((tb.Columns.filter (fun c => c.IsNeed)).map (fun c => c.Name)).Nodup := by
  decide
/-! ## A table that names itself -/

/-- C24 (amended): in a fresh process, for a scanned table `T` whose name has
no `_has_`, with a primary key and a non-key column `T_id`, provided every
relation of `trlist` whose map key `SourceName + RelationName` equals `T + T`
is the one-to-many relation of `T` to itself: every result table named `T`
has a needed forward column `CamelCase T` of type `*CamelCase T` tagged
`rel(fk)` and a needed reverse column `CamelCase T + s` of type
`[]*CamelCase T` tagged `reverse(many)`, and its physical column `T_id` is
there with `IsNeed = false`. -/
theorem self_reference_fields (o : RangeOrder) (db : Catalog) (tables : List Table)
    (g : Globals) (T : String) (r : ColumnRow)
    (hrun : getTableObjects o Globals.initial db = some (tables, g))
    (hT : T ∈ db.tableNames)
    (hTj : Strings.Contains T "_has_" = false)
    (_hTk : keyColumns db T ≠ [])
    (hr : r ∈ db.columnRows T) (hcol : r.colName = T ++ "_id")
    (_hnk : r.colName ∉ keyColumns db T)
    (hkey : ∀ tr ∈ g.trlist, tr.SourceName ++ tr.RelationName = T ++ T →
      tr.SourceName = T ∧ tr.RelationName = T ∧ tr.MarkName = "one2many") :
    tables.map (fun tb => tb.Name) = db.tableNames ∧
    ∀ tb ∈ tables, tb.Name = T →
      (∃ c ∈ tb.Columns, c.IsNeed = true ∧ c.Name = CamelCase T ∧
        c.Typ = "*" ++ CamelCase T ∧ c.Tag.RelFk = true) ∧
      (∃ c ∈ tb.Columns, c.IsNeed = true ∧ c.Name = CamelCase T ++ "s" ∧
        c.Typ = "[]*" ++ CamelCase T ∧ c.Tag.ReverseMany = true) ∧
      (∃ c ∈ tb.Columns, c.Tag.Column = T ++ "_id") ∧
      (∀ c ∈ tb.Columns, c.Tag.Column = T ++ "_id" → c.IsNeed = false) := by
  have htl := trlist_scanned o db tables g hrun
  have hcand : oneToManyOf T T ∈ g.trlist := by
    rw [htl]
    exact scanned_row db T r _ hT hr (by rw [hcol]; exact rowRelation_id T T hTj)
  have hall : ∀ tr ∈ g.trlist, tr.SourceName ++ tr.RelationName = T ++ T →
      tr = oneToManyOf T T := by
    intro tr htr hk
    obtain ⟨a, b, c⟩ := hkey tr htr hk
    have hd := scanned_discovered db tr (htl ▸ htr)
    have := hd.one2many c (by rw [a]; exact hTj)
    rw [a, b] at this
    exact this
  have hentry := trmap_entry_of_all o db tables g hrun (T ++ T) (oneToManyOf T T) hcand rfl hall
  obtain ⟨_, _, _, hnames, _⟩ := getTableObjects_spec o db tables g hrun
  refine ⟨hnames, ?_⟩
  intro tb htb hn
  obtain ⟨f1, f2⟩ := confirmed_forward o db tables g hrun _ _ hentry hT tb htb hn
  have hrev := confirmed_reverse o db tables g hrun _ _ hentry hTj tb htb hn
  refine ⟨⟨_, f1, rcol_isNeed _ _, rcol_oneToMany_forward T T⟩,
    ⟨_, hrev, rcol_isNeed _ _, rcol_oneToMany_reverse T T⟩, ?_, f2⟩
  obtain ⟨pk, fk, bl, c1, hS, hmem, _⟩ := scanned_column_id o db tables g hrun tb htb
    (by rw [hn]; exact hTj) r (by rw [hn]; exact hr) T hcol
  refine ⟨_, hmem, ?_⟩
  rw [(afterForward_tag _ _ _).1, hS.column.1, hcol]

set_option maxRecDepth 100000 in
/-- Witness of C24 on `node(id, node_id)`: `node` gets `Node *Node` and
`Nodes []*Node`, and its `node_id` column is taken out. -/
theorem self_reference_fields_witness :
    (tablesOf (freshRun nodeCatalog)).map (fun tb => tb.Name) = nodeCatalog.tableNames ∧
    ∀ tb ∈ tablesOf (freshRun nodeCatalog), tb.Name = "node" →
      (∃ c ∈ tb.Columns, c.IsNeed = true ∧ c.Name = CamelCase "node" ∧
        c.Typ = "*" ++ CamelCase "node" ∧ c.Tag.RelFk = true) ∧
      (∃ c ∈ tb.Columns, c.IsNeed = true ∧ c.Name = CamelCase "node" ++ "s" ∧
        c.Typ = "[]*" ++ CamelCase "node" ∧ c.Tag.ReverseMany = true) ∧
      (∃ c ∈ tb.Columns, c.Tag.Column = "node" ++ "_id") ∧
      (∀ c ∈ tb.Columns, c.Tag.Column = "node" ++ "_id" → c.IsNeed = false) :=
  self_reference_fields RangeOrder.insertion nodeCatalog (tablesOf (freshRun nodeCatalog))
    (globalsOf (freshRun nodeCatalog)) "node" (intColumnRow "node_id")
    (freshRun_eq nodeCatalog (by decide)) (by decide) (by decide) (by decide) (by decide)
    (by decide) (by decide) (by decide)

set_option maxRecDepth 100000 in
/-- Counterexample to C24 as stated: `node(id, node_id, node_one)` is not a
join table, has the primary key `id` and the non-key column `node_id`; the
run succeeds, the one-to-one relation of `node_one` takes the place of the
one-to-many relation, and `node` has no field `Nodes` of type `[]*Node`. -/
theorem self_reference_fields_counterexample :
    (freshRun nodeBothCatalog).isSome = true ∧
    (tablesOf (freshRun nodeBothCatalog)).map
        (fun tb => (tb.Name, tb.Pk, tb.Columns.map (fun c => (c.Name, c.Typ, c.IsNeed)))) =
      [("node", "id", [("Id", "int", true), ("NodeId", "int", false),
        ("Node", "*Node", true), ("Node", "*Node", true)])] ∧
    ¬ ∃ tb ∈ tablesOf (freshRun nodeBothCatalog), ∃ c ∈ tb.Columns,
      c.Name = CamelCase "node" ++ "s" ∧ c.Typ = "[]*" ++ CamelCase "node" := by
  decide
/-! ## Lemmas on single replacements -/

theorem replaceFrom_none (old new : List Char) :
    ∀ s : List Char, indexL old s = none → replaceFrom old new 0 s = s
  | [], _ => by simp [replaceFrom]
  | c :: cs, h => by
    obtain ⟨hp, hi⟩ := indexL_cons_none h
    rw [replaceFrom, hp, replaceFrom_none old new cs hi]
    simp

theorem replaceFrom_skip (old new : List Char) :
    ∀ (s : List Char) (k : Nat), k ≤ s.length →
      replaceFrom old new k s = replaceFrom old new 0 (s.drop k)
  | s, 0, _ => by simp
  | [], k + 1, h => by simp at h
  | c :: cs, k + 1, h => by
    rw [replaceFrom, List.drop_succ_cons]
    exact replaceFrom_skip old new cs k (by simpa using h)

theorem replaceFrom_at (old new post : List Char) (ho : old ≠ []) :
    replaceFrom old new 0 (old ++ post) = new ++ replaceFrom old new 0 post := by
  cases old with
  | nil => exact absurd rfl ho
  | cons o os =>
    have hp : (o :: os).isPrefixOf (o :: (os ++ post)) = true := by
      rw [List.isPrefixOf_iff_prefix]
      exact List.prefix_append (o :: os) post
    rw [List.cons_append, replaceFrom, hp, if_pos rfl,
      replaceFrom_skip (o :: os) new (os ++ post) _ (by simp)]
    simp

theorem replaceFrom_pre (old new rest : List Char) :
    ∀ pre : List Char, startsIn old pre rest = false →
      replaceFrom old new 0 (pre ++ rest) = pre ++ replaceFrom old new 0 rest
  | [], _ => rfl
  | c :: cs, h => by
    simp only [startsIn, Bool.or_eq_false_iff] at h
    have h1 : old.isPrefixOf (c :: (cs ++ rest)) = false := h.1
    rw [List.cons_append, replaceFrom, h1, replaceFrom_pre old new rest cs h.2]
    simp

theorem replaceFrom_once (old new pre post : List Char) (ho : old ≠ [])
    (hpre : startsIn old pre (old ++ post) = false) (hpost : indexL old post = none) :
    replaceFrom old new 0 (pre ++ (old ++ post)) = pre ++ (new ++ post) := by
  rw [replaceFrom_pre old new _ pre hpre, replaceFrom_at old new post ho,
    replaceFrom_none old new post hpost]

theorem startsIn_of_head (old rest : List Char) (o : Char) (os : List Char)
    (ho : old = o :: os) :
    ∀ pre : List Char, o ∉ pre → startsIn old pre rest = false
  | [], _ => rfl
  | c :: cs, h => by
    have hc : o ≠ c := fun e => h (e ▸ List.mem_cons_self _ _)
    have ih := startsIn_of_head old rest o os ho cs (fun hm => h (List.mem_cons_of_mem _ hm))
    subst ho
    simp [startsIn, List.isPrefixOf, hc, ih]

/-! ## The namespace block of a declared controller -/

theorem title_char_facts (z : Char) (hz : z.toNat < 128) :
    z.toUpper ≠ 'r' ∧ (z.toUpper = '\x7b' → z = '\x7b') ∧ z.toUpper.toLower = z.toLower := by
  have key : ∀ n < 128, (Char.ofNat n).toUpper ≠ 'r' ∧
      ((Char.ofNat n).toUpper = '\x7b' → Char.ofNat n = '\x7b') ∧
      (Char.ofNat n).toUpper.toLower = (Char.ofNat n).toLower := by
    decide
  exact ascii_forall
    (fun z => z.toUpper ≠ 'r' ∧ (z.toUpper = '\x7b' → z = '\x7b') ∧
      z.toUpper.toLower = z.toLower) key z hz

theorem title_pair (x y z : Char) (hy : y.toNat < 128) (hz : z.toNat < 128)
    (h1 : (if isSeparator x then toTitle y else y) = '\x7b')
    (h2 : (if isSeparator y then toTitle z else z) = 'r') : False := by
  have ey : y = '\x7b' := by
    split at h1
    · exact (title_char_facts y hy).2.1 h1
    · exact h1
  subst ey
  have hs : isSeparator '\x7b' = true := by decide
  rw [hs, if_pos rfl] at h2
  exact (title_char_facts z hz).1 h2

theorem title_no_route (rest : List Char) :
    ∀ (cs : List Char) (prev : Char), (∀ c ∈ cs, c.toNat < 128) →
      startsIn "\x7b\x7broute\x7d\x7d".data (titleFrom prev cs) ('C' :: rest) = false
  | [], _, _ => rfl
  | [x], prev, _ => by
    simp [titleFrom, startsIn, List.isPrefixOf]
  | [x, y], prev, _ => by
    simp [titleFrom, startsIn, List.isPrefixOf]
  | x :: y :: z :: zs, prev, h => by
    have ih := title_no_route rest (y :: z :: zs) x
      (fun c hc => h c (List.mem_cons_of_mem _ hc))
    have hy : y.toNat < 128 := h y (by simp)
    have hz : z.toNat < 128 := h z (by simp)
    rw [titleFrom, startsIn, ih, Bool.or_false]
    rw [titleFrom, titleFrom]
    cases hp : List.isPrefixOf "\x7b\x7broute\x7d\x7d".data
        (((if isSeparator prev = true then toTitle x else x) ::
          (if isSeparator x = true then toTitle y else y) ::
          (if isSeparator y = true then toTitle z else z) :: titleFrom z zs) ++ 'C' :: rest) with
    | false => rfl
    | true =>
      exfalso
      have hd : "\x7b\x7broute\x7d\x7d".data = ['\x7b', '\x7b', 'r', 'o', 'u', 't', 'e', '\x7d', '\x7d'] :=
        rfl
      rw [hd] at hp
      simp only [List.cons_append, List.isPrefixOf, Bool.and_eq_true, beq_iff_eq] at hp
      exact title_pair x y z hy hz hp.2.1.symm hp.2.2.1.symm

theorem titleFrom_lower :
    ∀ (cs : List Char) (prev : Char), (∀ c ∈ cs, c.toNat < 128) →
      (titleFrom prev cs).map Char.toLower = cs.map Char.toLower
  | [], _, _ => rfl
  | x :: xs, prev, h => by
    rw [titleFrom, List.map_cons, List.map_cons,
      titleFrom_lower xs x (fun c hc => h c (List.mem_cons_of_mem _ hc))]
    congr 1
    split
    · exact (title_char_facts x (h x (List.mem_cons_self _ _))).2.2
    · rfl

theorem toLower_title (c : String) (h : ∀ ch ∈ c.data, ch.toNat < 128) :
    Strings.ToLower (Strings.Title c) = Strings.ToLower c := by
  unfold Strings.ToLower Strings.Title title
  rw [titleFrom_lower c.data ' ' h]

theorem routerStr_first (T : List Char) :
    replaceFrom "\x7b\x7bRoute\x7d\x7d".data T 0 RoutePartialTPL.data =
      "// posrouter\nbeego.NSNamespace(\"/".data ++ ("\x7b\x7broute\x7d\x7d".data ++
        ("\",\nbeego.NSInclude(\n&controllers.".data ++ (T ++ "Controller\x7b\x7d,\n),\n),".data))) := by
  have hsplit : RoutePartialTPL.data =
      "// posrouter\nbeego.NSNamespace(\"/\x7b\x7broute\x7d\x7d\",\nbeego.NSInclude(\n&controllers.".data ++
        ("\x7b\x7bRoute\x7d\x7d".data ++ "Controller\x7b\x7d,\n),\n),".data) := by
    decide
  rw [hsplit, replaceFrom_once _ T _ _ (by decide) (by decide) (by decide)]
  have hA : "// posrouter\nbeego.NSNamespace(\"/\x7b\x7broute\x7d\x7d\",\nbeego.NSInclude(\n&controllers.".data =
      "// posrouter\nbeego.NSNamespace(\"/".data ++ ("\x7b\x7broute\x7d\x7d".data ++
        "\",\nbeego.NSInclude(\n&controllers.".data) := by
    decide
  rw [hA]
  simp only [List.append_assoc]

theorem routerStr_second (L cs : List Char) (prev : Char) (h : ∀ c ∈ cs, c.toNat < 128) :
    replaceFrom "\x7b\x7broute\x7d\x7d".data L 0
        ("// posrouter\nbeego.NSNamespace(\"/".data ++ ("\x7b\x7broute\x7d\x7d".data ++
          ("\",\nbeego.NSInclude(\n&controllers.".data ++
            (titleFrom prev cs ++ "Controller\x7b\x7d,\n),\n),".data)))) =
      "// posrouter\nbeego.NSNamespace(\"/".data ++ (L ++
        ("\",\nbeego.NSInclude(\n&controllers.".data ++
          (titleFrom prev cs ++ "Controller\x7b\x7d,\n),\n),".data))) := by
  have hd : "\x7b\x7broute\x7d\x7d".data =
      '\x7b' :: ['\x7b', 'r', 'o', 'u', 't', 'e', '\x7d', '\x7d'] := rfl
  have hB : "Controller\x7b\x7d,\n),\n),".data = 'C' :: "ontroller\x7b\x7d,\n),\n),".data := rfl
  rw [replaceFrom_pre _ L _ _ (startsIn_of_head _ _ _ _ hd _ (by decide)),
    replaceFrom_at _ L _ (by decide),
    replaceFrom_pre _ L _ _ (startsIn_of_head _ _ _ _ hd _ (by decide))]
  have ht := title_no_route "ontroller\x7b\x7d,\n),\n),".data cs prev h
  rw [← hB] at ht
  rw [replaceFrom_pre _ L _ _ ht, replaceFrom_none _ L _ (by decide)]

theorem routerStr_eq (c : String) (h : ∀ ch ∈ c.data, ch.toNat < 128) :
    Strings.ReplaceAll
        (Strings.ReplaceAll RoutePartialTPL "\x7b\x7bRoute\x7d\x7d" (Strings.Title c))
        "\x7b\x7broute\x7d\x7d" (Strings.ToLower (Strings.Title c)) =
      namespaceBlock (Strings.ToLower c) (Strings.Title c) := by
  rw [toLower_title c h]
  apply String.ext
  simp only [Strings.ReplaceAll, Strings.Title, title, namespaceBlock, String.data_append]
  rw [routerStr_first, routerStr_second _ _ _ h]
  simp only [List.append_assoc]

theorem replaceFirst_spec (old : List Char) (ho : old ≠ []) :
    ∀ s : List Char, old <:+: s →
      ∃ pre post, s = pre ++ (old ++ post) ∧ startsIn old pre (old ++ post) = false ∧
        indexL old s = some pre.length ∧
        ∀ new, replaceFirst old new s = pre ++ (new ++ post)
  | [], h => absurd (List.infix_nil.mp h) ho
  | c :: cs, h => by
    cases hp : old.isPrefixOf (c :: cs) with
    | true =>
      obtain ⟨t, ht⟩ := List.isPrefixOf_iff_prefix.mp hp
      refine ⟨[], t, ht.symm, rfl, ?_, ?_⟩
      · simp [indexL, hp]
      · intro new
        rw [replaceFirst, hp, if_pos rfl, ← ht]
        simp
    | false =>
      have hcs : old <:+: cs := by
        rcases List.infix_cons_iff.mp h with h1 | h1
        · rw [← List.isPrefixOf_iff_prefix, hp] at h1
          cases h1
        · exact h1
      obtain ⟨pre, post, e, hs, hi, hr⟩ := replaceFirst_spec old ho cs hcs
      refine ⟨c :: pre, post, by rw [e]; rfl, ?_, ?_, ?_⟩
      · rw [startsIn, hs, Bool.or_false]
        rw [e] at hp
        exact hp
      · simp [indexL, hp, hi]
      · intro new
        rw [replaceFirst, hp, hr new]
        simp

/-- C22: for every router text and every non-empty ASCII controller name `c`,
if the text contains the marker `// posrouter` and does not contain
`/lower(c)`, the append step of `FixRouteAndAddCtls` puts, in place of the
first marker, the marker followed by the namespace block of the path
`/lower(c)` with the controller `Title(c)Controller`; the text still
contains a marker, and applying the step again with the same name leaves the
text unchanged. -/
theorem controller_append_once (text c : String) (hc : c ≠ "")
    (hascii : ∀ ch ∈ c.data, ch.toNat < 128)
    (hm : Strings.Contains text "// posrouter" = true)
    (hn : Strings.Contains text ("/" ++ Strings.ToLower c) = false) :
    (∃ pre post : String, text = pre ++ "// posrouter" ++ post ∧
      Strings.Index text "// posrouter" = (pre.length : Int) ∧
      FixRouteAndAddCtls.addController text c =
        pre ++ namespaceBlock (Strings.ToLower c) (Strings.Title c) ++ post) ∧
    Strings.Contains (FixRouteAndAddCtls.addController text c) "// posrouter" = true ∧
    FixRouteAndAddCtls.addController (FixRouteAndAddCtls.addController text c) c =
      FixRouteAndAddCtls.addController text c := by
  have hce : (c == "") = false := by simpa using hc
  obtain ⟨pre, post, e, _, hi, hr⟩ := replaceFirst_spec "// posrouter".data (by decide)
    text.data ((contains_iff_within text "// posrouter").mp hm)
  have hstep : FixRouteAndAddCtls.addController text c =
      String.mk pre ++ namespaceBlock (Strings.ToLower c) (Strings.Title c) ++ String.mk post := by
    unfold FixRouteAndAddCtls.addController
    simp only [hn, hce, Bool.or_false, Bool.false_eq_true, if_false, hm, if_true]
    rw [routerStr_eq c hascii]
    apply String.ext
    simp only [Strings.ReplaceFirst, String.data_append, hr, List.append_assoc]
  have hblock : ∀ route ctrl : String,
      "// posrouter".data <:+: (namespaceBlock route ctrl).data ∧
      ("/" ++ route).data <:+: (namespaceBlock route ctrl).data := by
    intro route ctrl
    have h0 : "// posrouter\nbeego.NSNamespace(\"/".data =
        "// posrouter".data ++ "\nbeego.NSNamespace(\"/".data := by decide
    have h1 : "// posrouter\nbeego.NSNamespace(\"/".data =
        "// posrouter\nbeego.NSNamespace(\"".data ++ "/".data := by decide
    refine ⟨?_, ?_⟩
    · simp only [namespaceBlock, String.data_append, h0, List.append_assoc]
      exact (List.prefix_append _ _).isInfix
    · simp only [namespaceBlock, String.data_append, h1, List.append_assoc]
      refine ⟨"// posrouter\nbeego.NSNamespace(\"".data,
        "\",\nbeego.NSInclude(\n&controllers.".data ++
          (ctrl.data ++ "Controller\x7b\x7d,\n),\n),".data), ?_⟩
      simp
  have hin : ∀ p : String, p.data <:+:
      (namespaceBlock (Strings.ToLower c) (Strings.Title c)).data →
      Strings.Contains (FixRouteAndAddCtls.addController text c) p = true := by
    intro p hp
    rw [contains_iff_within, hstep, String.data_append, String.data_append]
    exact hp.trans ((List.suffix_append _ _).isInfix.trans (List.prefix_append _ _).isInfix)
  refine ⟨⟨String.mk pre, String.mk post, ?_, ?_, hstep⟩, hin _ (hblock _ _).1, ?_⟩
  · apply String.ext
    simp only [String.data_append, e, List.append_assoc]
  · simp only [Strings.Index, hi]
    rfl
  · have h2 := hin _ (hblock (Strings.ToLower c) (Strings.Title c)).2
    generalize FixRouteAndAddCtls.addController text c = t at h2 ⊢
    unfold FixRouteAndAddCtls.addController
    simp only [h2, Bool.true_or, if_true]

/-- Witness of C22: the controller name `shop` on a router with the marker
and the namespace of `user`. -/
theorem controller_append_once_witness :
    (∃ pre post : String, routerText = pre ++ "// posrouter" ++ post ∧
      Strings.Index routerText "// posrouter" = (pre.length : Int) ∧
      FixRouteAndAddCtls.addController routerText "shop" =
        pre ++ namespaceBlock (Strings.ToLower "shop") (Strings.Title "shop") ++ post) ∧
    Strings.Contains (FixRouteAndAddCtls.addController routerText "shop") "// posrouter" =
      true ∧
    FixRouteAndAddCtls.addController (FixRouteAndAddCtls.addController routerText "shop")
        "shop" =
      FixRouteAndAddCtls.addController routerText "shop" :=
  controller_append_once routerText "shop" (by decide) (by decide) (by decide) (by decide)
/-! ## The import step -/

theorem prefix_before_char (c : Char) (B : List Char) :
    ∀ (X p : List Char), c ∉ p → p <+: X ++ c :: B → p <+: X
  | [], [], _, _ => List.nil_prefix
  | [], d :: p, hc, h => by
    have := (List.cons_prefix_cons.mp h).1
    exact absurd (this ▸ List.mem_cons_self _ _) hc
  | x :: X, [], _, _ => List.nil_prefix
  | x :: X, d :: p, hc, h => by
    obtain ⟨e, h2⟩ := List.cons_prefix_cons.mp h
    subst e
    exact List.cons_prefix_cons.mpr ⟨rfl,
      prefix_before_char c B X p (fun hm => hc (List.mem_cons_of_mem _ hm)) h2⟩

theorem within_split_char (c : Char) (B p : List Char) (hc : c ∉ p) :
    ∀ A : List Char, p <:+: A ++ c :: B → p <:+: A ∨ p <:+: B
  | [], h => by
    rcases List.infix_cons_iff.mp h with h1 | h1
    · exact Or.inl (prefix_before_char c B [] p hc h1).isInfix
    · exact Or.inr h1
  | a :: A, h => by
    rcases List.infix_cons_iff.mp h with h1 | h1
    · exact Or.inl (prefix_before_char c B (a :: A) p hc h1).isInfix
    · rcases within_split_char c B p hc A h1 with h2 | h2
      · exact Or.inl (h2.trans (List.suffix_cons _ _).isInfix)
      · exact Or.inr h2

theorem marker_not_in_line (b : List Char) (hb : indexL "// posimport".data b = none) :
    ∀ a : List Char, ' ' ∉ a → indexL "// posimport".data (a ++ '"' :: b) = none
  | [], _ => by
    have hp : List.isPrefixOf "// posimport".data ('"' :: b) = false := by
      simp [List.isPrefixOf]
    simp [indexL, hp, hb]
  | [x], h => by
    have ih : indexL "// posimport".data ('"' :: b) = none :=
      marker_not_in_line b hb [] (by simp)
    have hp : List.isPrefixOf "// posimport".data (x :: '"' :: b) = false := by
      simp [List.isPrefixOf]
    show indexL "// posimport".data (x :: '"' :: b) = none
    rw [indexL, hp, ih]
    simp
  | [x, y], h => by
    have ih : indexL "// posimport".data (y :: '"' :: b) = none :=
      marker_not_in_line b hb [y] (fun hm => h (List.mem_cons_of_mem _ hm))
    have hp : List.isPrefixOf "// posimport".data (x :: y :: '"' :: b) = false := by
      simp [List.isPrefixOf]
    show indexL "// posimport".data (x :: y :: '"' :: b) = none
    rw [indexL, hp, ih]
    simp
  | x :: y :: z :: zs, h => by
    have ih : indexL "// posimport".data (y :: z :: (zs ++ '"' :: b)) = none :=
      marker_not_in_line b hb (y :: z :: zs) (fun hm => h (List.mem_cons_of_mem _ hm))
    have hz : z ≠ ' ' := fun e => h (by simp [e])
    have hp : List.isPrefixOf "// posimport".data (x :: y :: z :: (zs ++ '"' :: b)) = false := by
      have hd : "// posimport".data = '/' :: '/' :: ' ' :: "posimport".data := rfl
      rw [hd]
      simp only [List.isPrefixOf, Bool.and_eq_false_iff, beq_eq_false_iff_ne, ne_eq]
      exact Or.inr (Or.inr (Or.inl (fun e => hz e.symm)))
    show indexL "// posimport".data (x :: y :: z :: (zs ++ '"' :: b)) = none
    rw [indexL, hp, ih]
    simp

theorem isPrefixOf_append_long (x : List Char) :
    ∀ (old a : List Char), old.length ≤ a.length →
      old.isPrefixOf (a ++ x) = old.isPrefixOf a
  | [], _, _ => by simp [List.isPrefixOf]
  | o :: os, [], h => by simp at h
  | o :: os, c :: cs, h => by
    have ih := isPrefixOf_append_long x os cs (by simpa using h)
    show (o == c && os.isPrefixOf (cs ++ x)) = (o == c && os.isPrefixOf cs)
    rw [ih]

theorem startsIn_tail (old x y : List Char) :
    ∀ pre : List Char, startsIn old pre (old ++ x) = startsIn old pre (old ++ y)
  | [] => rfl
  | c :: cs => by
    have e : ∀ z : List Char, old.isPrefixOf (c :: cs ++ (old ++ z)) =
        old.isPrefixOf (c :: cs ++ old) := by
      intro z
      rw [← List.append_assoc]
      exact isPrefixOf_append_long z old (c :: cs ++ old) (by simp; omega)
    rw [startsIn, startsIn, e x, e y, startsIn_tail old x y cs]

theorem startsIn_of_index (old rest : List Char) :
    ∀ pre : List Char, indexL old (pre ++ rest) = some pre.length →
      startsIn old pre rest = false
  | [], _ => rfl
  | c :: cs, h => by
    rw [List.cons_append, indexL] at h
    cases hp : old.isPrefixOf (c :: (cs ++ rest)) with
    | true =>
      rw [hp] at h
      simp at h
    | false =>
      rw [hp] at h
      cases hi : indexL old (cs ++ rest) with
      | none =>
        rw [hi] at h
        simp at h
      | some n =>
        rw [hi] at h
        simp only [Bool.false_eq_true, if_false, Option.some.injEq, List.length_cons,
          Nat.add_right_cancel_iff] at h
        subst h
        rw [startsIn, startsIn_of_index old rest cs hi, Bool.or_false]
        exact hp

theorem importLine_data (p : String) :
    (importLine p).data = '\n' :: '"' :: (p.data ++ ['"']) := by
  simp [importLine, String.data_append]

theorem lines_no_marker (post : List Char)
    (hpost : indexL "// posimport".data post = none) :
    ∀ shown : List String, (∀ q ∈ shown, ' ' ∉ q.data) →
      indexL "// posimport".data ((concatAll (shown.map importLine)).data ++ post) = none
  | [], _ => by simpa [concatAll] using hpost
  | q :: rest, h => by
    have ih := lines_no_marker post hpost rest (fun q0 h0 => h q0 (List.mem_cons_of_mem _ h0))
    have hq := h q (List.mem_cons_self _ _)
    have e : (concatAll ((q :: rest).map importLine)).data ++ post =
        ('\n' :: '"' :: q.data) ++ '"' :: ((concatAll (rest.map importLine)).data ++ post) := by
      simp [concatAll, String.data_append, importLine_data]
    rw [e]
    apply marker_not_in_line _ ih
    simp [hq]

theorem lines_within (p : String) (hq : '"' ∉ p.data) (hn : '\n' ∉ p.data) (post : List Char) :
    ∀ shown : List String, (∀ q ∈ shown, p.data <:+: q.data → p = q) →
      p.data <:+: (concatAll (shown.map importLine)).data ++ post →
      p ∈ shown ∨ p.data <:+: post
  | [], _, h => by
    right
    simpa [concatAll] using h
  | q :: rest, hsub, h => by
    have e : (concatAll ((q :: rest).map importLine)).data ++ post =
        ['\n'] ++ '"' :: (q.data ++ '"' :: ((concatAll (rest.map importLine)).data ++ post)) := by
      simp [concatAll, String.data_append, importLine_data]
    rw [e] at h
    rcases within_split_char '"' _ p.data hq _ h with h1 | h1
    · rcases within_split_char '\n' [] p.data hn [] h1 with h2 | h2
      · rw [List.infix_nil.mp h2]
        exact Or.inr List.nil_infix
      · rw [List.infix_nil.mp h2]
        exact Or.inr List.nil_infix
    · rcases within_split_char '"' _ p.data hq _ h1 with h2 | h2
      · exact Or.inl (by rw [hsub q (List.mem_cons_self _ _) h2]; exact List.mem_cons_self _ _)
      · rcases lines_within p hq hn post rest
          (fun q0 h0 => hsub q0 (List.mem_cons_of_mem _ h0)) h2 with h3 | h3
        · exact Or.inl (List.mem_cons_of_mem _ h3)
        · exact Or.inr h3

theorem line_within_lines (p : String) :
    ∀ shown : List String, p ∈ shown →
      p.data <:+: (concatAll (shown.map importLine)).data
  | [], h => by simp at h
  | q :: rest, h => by
    have e : (concatAll ((q :: rest).map importLine)).data =
        ['\n', '"'] ++ q.data ++ ('"' :: (concatAll (rest.map importLine)).data) := by
      simp [concatAll, String.data_append, importLine_data]
    rw [e]
    rcases List.mem_cons.mp h with rfl | h1
    · exact List.infix_append _ _ _
    · exact (line_within_lines p rest h1).trans
        ((List.suffix_cons _ _).isInfix.trans (List.suffix_append _ _).isInfix)

theorem withImports_data (pre post : String) (shown : List String) :
    (withImports pre post shown).data =
      pre.data ++ ("// posimport".data ++
        ((concatAll (shown.map importLine)).data ++ post.data)) := by
  simp only [withImports, String.data_append, List.append_assoc]

theorem withImports_contains (pre post : String) (shown : List String) (p : String)
    (hq : '"' ∉ p.data) (hn : '\n' ∉ p.data)
    (hnew : ¬ p.data <:+: (withImports pre post []).data)
    (hsub : ∀ q ∈ shown, p.data <:+: q.data → p = q) :
    Strings.Contains (withImports pre post shown) p = true ↔ p ∈ shown := by
  rw [contains_iff_within, withImports_data]
  rw [withImports_data] at hnew
  simp only [concatAll, List.map_nil] at hnew
  constructor
  · intro h
    cases shown with
    | nil => exact absurd h hnew
    | cons q rest =>
      have e : pre.data ++ ("// posimport".data ++
          ((concatAll ((q :: rest).map importLine)).data ++ post.data)) =
          (pre.data ++ "// posimport".data) ++ '\n' ::
            ('"' :: (q.data ++ '"' :: ((concatAll (rest.map importLine)).data ++ post.data))) := by
        simp [concatAll, String.data_append, importLine_data]
      rw [e] at h
      rcases within_split_char '\n' _ p.data hn _ h with h1 | h1
      · exfalso
        apply hnew
        refine h1.trans ⟨[], "".data ++ post.data, ?_⟩
        simp
      · have h2 : p.data <:+:
            (concatAll ((q :: rest).map importLine)).data ++ post.data := by
          refine h1.trans ?_
          have e2 : (concatAll ((q :: rest).map importLine)).data ++ post.data =
              '\n' :: ('"' :: (q.data ++ '"' ::
                ((concatAll (rest.map importLine)).data ++ post.data))) := by
            simp [concatAll, String.data_append, importLine_data]
          rw [e2]
          exact (List.suffix_cons _ _).isInfix
        rcases lines_within p hq hn post.data (q :: rest) hsub h2 with h3 | h3
        · exact h3
        · exfalso
          apply hnew
          refine h3.trans ⟨pre.data ++ "// posimport".data ++ "".data, [], ?_⟩
          simp
  · intro h
    refine (line_within_lines p shown h).trans ⟨pre.data ++ "// posimport".data, post.data, ?_⟩
    simp

theorem withImports_insert (pre post : String) (shown : List String) (p : String)
    (hfirst : startsIn "// posimport".data pre.data ("// posimport".data ++ post.data) = false)
    (hlast : indexL "// posimport".data post.data = none)
    (hplain : ∀ q ∈ shown, ' ' ∉ q.data) :
    Strings.ReplaceAll (withImports pre post shown) "// posimport"
        ("// posimport\n" ++ "\"" ++ p ++ "\"") =
      withImports pre post (p :: shown) := by
  apply String.ext
  rw [withImports_data]
  simp only [Strings.ReplaceAll]
  rw [withImports_data,
    replaceFrom_once _ _ _ _ (by decide)
      ((startsIn_tail _ _ _ _).trans hfirst)
      (lines_no_marker post.data hlast shown hplain)]
  have e : ("// posimport\n" : String).data = "// posimport".data ++ ['\n'] := by decide
  simp [concatAll, String.data_append, importLine_data, e]

theorem importsLoop_spec (pre post : String) (all : List String)
    (hfirst : startsIn "// posimport".data pre.data ("// posimport".data ++ post.data) = false)
    (hlast : indexL "// posimport".data post.data = none)
    (hplain : ∀ p ∈ all, ' ' ∉ p.data ∧ '"' ∉ p.data ∧ '\n' ∉ p.data)
    (hnew : ∀ p ∈ all, ¬ p.data <:+: (withImports pre post []).data)
    (hsub : ∀ p ∈ all, ∀ q ∈ all, p.data <:+: q.data → p = q) :
    ∀ (pims shown : List String), (∀ p ∈ pims, p ∈ all) → (∀ q ∈ shown, q ∈ all) →
      FixController.importsLoop pims (withImports pre post shown) =
        withImports pre post (importedPaths pims shown)
  | [], shown, _, _ => rfl
  | p :: rest, shown, hp, hs => by
    have hpa := hp p (List.mem_cons_self _ _)
    have hc := withImports_contains pre post shown p (hplain p hpa).2.1 (hplain p hpa).2.2
      (hnew p hpa) (fun q hq => hsub p hpa q (hs q hq))
    by_cases hm : p ∈ shown
    · rw [FixController.importsLoop, if_pos (hc.mpr hm), importedPaths, if_pos hm]
      exact importsLoop_spec pre post all hfirst hlast hplain hnew hsub rest shown
        (fun q hq => hp q (List.mem_cons_of_mem _ hq)) hs
    · have hcf : ¬ Strings.Contains (withImports pre post shown) p = true :=
        fun h => hm (hc.mp h)
      rw [FixController.importsLoop, if_neg hcf, importedPaths, if_neg hm,
        withImports_insert pre post shown p hfirst hlast (fun q hq => (hplain q (hs q hq)).1)]
      exact importsLoop_spec pre post all hfirst hlast hplain hnew hsub rest (p :: shown)
        (fun q hq => hp q (List.mem_cons_of_mem _ hq))
        (fun q hq => by
          rcases List.mem_cons.mp hq with rfl | h1
          · exact hpa
          · exact hs q h1)

theorem importedPaths_spec :
    ∀ (pims shown : List String), shown.Nodup →
      (importedPaths pims shown).Nodup ∧
      ∀ p, p ∈ importedPaths pims shown ↔ p ∈ pims ∨ p ∈ shown
  | [], shown, h => ⟨h, fun p => by simp [importedPaths]⟩
  | q :: rest, shown, h => by
    by_cases hm : q ∈ shown
    · obtain ⟨h1, h2⟩ := importedPaths_spec rest shown h
      rw [importedPaths, if_pos hm]
      refine ⟨h1, fun p => ?_⟩
      rw [h2 p, List.mem_cons]
      constructor
      · rintro (a | a)
        · exact Or.inl (Or.inr a)
        · exact Or.inr a
      · rintro ((rfl | a) | a)
        · exact Or.inr hm
        · exact Or.inl a
        · exact Or.inr a
    · obtain ⟨h1, h2⟩ := importedPaths_spec rest (q :: shown) (List.nodup_cons.mpr ⟨hm, h⟩)
      rw [importedPaths, if_neg hm]
      refine ⟨h1, fun p => ?_⟩
      rw [h2 p, List.mem_cons, List.mem_cons]
      constructor
      · rintro (a | rfl | a)
        · exact Or.inl (Or.inr a)
        · exact Or.inl (Or.inl rfl)
        · exact Or.inr a
      · rintro ((rfl | a) | a)
        · exact Or.inr (Or.inl rfl)
        · exact Or.inl a
        · exact Or.inr (Or.inr a)

/-- C21 (as the code has it): the guard of the import step is a substring
test on the whole text.  For every controller text `pre`, marker, `post` in
which the marker `// posimport` occurs once, and every comma-separated list
of paths without space, double quote or newline, of which none is a
substring of the text and none is a substring of another path of the list,
after the import step the text is `pre`, the marker, one import line (a
newline and the path in double quotes) for each distinct path of the list,
the path listed first coming last, and `post`. -/
theorem imports_once_per_path (pre post imports : String)
    (hfirst : Strings.Index (pre ++ "// posimport" ++ post) "// posimport" = (pre.length : Int))
    (hlast : Strings.Contains post "// posimport" = false)
    (hplain : ∀ p ∈ Strings.Split imports ",", ' ' ∉ p.data ∧ '"' ∉ p.data ∧ '\n' ∉ p.data)
    (hnew : ∀ p ∈ Strings.Split imports ",",
      Strings.Contains (pre ++ "// posimport" ++ post) p = false)
    (hsub : ∀ p ∈ Strings.Split imports ",", ∀ q ∈ Strings.Split imports ",",
      Strings.Contains q p = true → p = q) :
    FixController.importsLoop (Strings.Split imports ",") (pre ++ "// posimport" ++ post) =
      pre ++ "// posimport" ++
        concatAll ((importedPaths (Strings.Split imports ",") []).map importLine) ++ post ∧
    (importedPaths (Strings.Split imports ",") []).Nodup ∧
    ∀ p, p ∈ importedPaths (Strings.Split imports ",") [] ↔ p ∈ Strings.Split imports "," := by
  have e0 : withImports pre post [] = pre ++ "// posimport" ++ post := by
    simp [withImports, concatAll]
  have hidx : indexL "// posimport".data (pre.data ++ ("// posimport".data ++ post.data)) =
      some pre.data.length := by
    have h := hfirst
    simp only [Strings.Index, String.data_append, List.append_assoc] at h
    cases hi : indexL "// posimport".data (pre.data ++ ("// posimport".data ++ post.data)) with
    | none =>
      rw [hi] at h
      have hl : (pre.length : Int) = (pre.data.length : Int) := rfl
      simp only [hl] at h
      omega
    | some n =>
      rw [hi] at h
      have hl : (pre.length : Int) = (pre.data.length : Int) := rfl
      simp only [hl] at h
      congr 1
      omega
  have h1 := importsLoop_spec pre post (Strings.Split imports ",")
    (startsIn_of_index _ _ _ hidx)
    ((contains_false_iff post "// posimport").mp hlast)
    hplain
    (fun p hp hin => by
      rw [e0, ← contains_iff_within, hnew p hp] at hin
      cases hin)
    (fun p hp q hq hin => hsub p hp q hq ((contains_iff_within q p).mpr hin))
    (Strings.Split imports ",") [] (fun _ h => h) (fun _ h => absurd h (List.not_mem_nil _))
  rw [e0] at h1
  obtain ⟨h2, h3⟩ := importedPaths_spec (Strings.Split imports ",") [] List.nodup_nil
  exact ⟨h1, h2, fun p => by simpa using h3 p⟩

set_option maxRecDepth 100000 in
/-- Witness of C21: the list `x/rules,y/lib,x/rules` on a controller with
the marker between `import (` and `)`. -/
theorem imports_once_per_path_witness :
    FixController.importsLoop (Strings.Split "x/rules,y/lib,x/rules" ",")
        ("package controllers\nimport (\n" ++ "// posimport" ++ "\n)\n") =
      "package controllers\nimport (\n" ++ "// posimport" ++
        concatAll ((importedPaths (Strings.Split "x/rules,y/lib,x/rules" ",") []).map
          importLine) ++ "\n)\n" ∧
    (importedPaths (Strings.Split "x/rules,y/lib,x/rules" ",") []).Nodup ∧
    ∀ p, p ∈ importedPaths (Strings.Split "x/rules,y/lib,x/rules" ",") [] ↔
      p ∈ Strings.Split "x/rules,y/lib,x/rules" "," :=
  imports_once_per_path "package controllers\nimport (\n" "\n)\n" "x/rules,y/lib,x/rules"
    (by decide) (by decide) (by decide) (by decide) (by decide)

set_option maxRecDepth 100000 in
/-- Counterexample to C21 as stated: the controller contains the marker and
neither `a/b/c` nor `a/b`; for the list `a/b/c,a/b` the import step inserts
the line of `a/b/c` only, because `a/b` is then a substring of the text, and
for the list `a/b,a/b/c` it inserts both lines. -/
theorem imports_once_per_path_counterexample :
    Strings.Contains importText "// posimport" = true ∧
    (∀ p ∈ Strings.Split "a/b/c,a/b" ",", p ≠ "" ∧ Strings.Contains importText p = false) ∧
    FixController.importsLoop (Strings.Split "a/b/c,a/b" ",") importText =
      "package controllers\nimport (\n// posimport\n\"a/b/c\"\n)\n" ∧
    Strings.Contains
      (FixController.importsLoop (Strings.Split "a/b/c,a/b" ",") importText)
      (importLine "a/b") = false ∧
    FixController.importsLoop (Strings.Split "a/b,a/b/c" ",") importText =
      "package controllers\nimport (\n// posimport\n\"a/b/c\"\n\"a/b\"\n)\n" := by
  decide

end Bee
